import Mathlib

/-!
# Verification of the `deepclone` cloning engine

A shallow embedding of the core of `clone.go` from the `deepclone`
library: the generic `Clone` dispatch, the reflective walker
(`cloneValue`, `clonePointer`, `cloneSlice`, `cloneMap`, `cloneStruct`,
`cloneArray`, `cloneInterface`), the capacity-preserving slice helper
`cloneSliceExact`, the per-struct-type field-action cache
(`getStructTypeInfo`), and the per-call visited-object table.

Go's run-time values are modelled by an inductive `Val` over an explicit
heap: pointer targets, slice backing arrays and map tables live in the
heap, keyed by natural-number addresses (modelling the `uintptr`
identities the Go code uses as visited-table keys).  The reflective
walker is stateful (visited table, heap, fresh-address counter) and
fuel-indexed: `none` means the fuel ran out, which never happens for the
concrete runs below.  Machine integers are modelled as `Int`; the engine
never performs arithmetic on them.
-/

/-- Go types, as the engine observes them through `reflect`.  Scalars are
collapsed to a representative family: `intT` stands for the fast-pathed
numeric types (`int`, `float64`, `byte`, ...), `i32T` for a numeric type
that is *not* in the `Clone` fast-path type switches (e.g. `int16`), and
`floatT`/`boolT`/`stringT` for the rest of the scalar family.
`namedT nid u` is a defined (named) type with nominal identity `nid` and
underlying type `u`, used for the type-alias scenarios. -/
inductive Ty where
  | intT
  | i32T
  | stringT
  | boolT
  | floatT
  | chanT
  | funcT
  | unsafeT
  | ptrT (elem : Ty)
  | sliceT (elem : Ty)
  | mapT (key : Ty) (value : Ty)
  | structT (fields : List (Bool × Ty))
  | arrayT (elem : Ty) (n : Nat)
  | ifaceT
  | namedT (nid : Nat) (under : Ty)
deriving Repr

mutual

/-- Boolean equality of types (type identity, `t1 == t2` on
`reflect.Type`). -/
def Ty.beq : Ty → Ty → Bool
  | .intT, b => match b with | .intT => true | _ => false
  | .i32T, b => match b with | .i32T => true | _ => false
  | .stringT, b => match b with | .stringT => true | _ => false
  | .boolT, b => match b with | .boolT => true | _ => false
  | .floatT, b => match b with | .floatT => true | _ => false
  | .chanT, b => match b with | .chanT => true | _ => false
  | .funcT, b => match b with | .funcT => true | _ => false
  | .unsafeT, b => match b with | .unsafeT => true | _ => false
  | .ptrT a, b => match b with | .ptrT b1 => a.beq b1 | _ => false
  | .sliceT a, b => match b with | .sliceT b1 => a.beq b1 | _ => false
  | .mapT k1 v1, b => match b with | .mapT k2 v2 => k1.beq k2 && v1.beq v2 | _ => false
  | .structT fs, b => match b with | .structT gs => beqFields fs gs | _ => false
  | .arrayT a m, b => match b with | .arrayT b1 n => a.beq b1 && m == n | _ => false
  | .ifaceT, b => match b with | .ifaceT => true | _ => false
  | .namedT i u, b => match b with | .namedT j w => i == j && u.beq w | _ => false

/-- Boolean equality of struct field signatures. -/
def beqFields : List (Bool × Ty) → List (Bool × Ty) → Bool
  | [], b => match b with | [] => true | _ => false
  | (e1, t1) :: r1, b =>
      match b with
      | (e2, t2) :: r2 => e1 == e2 && t1.beq t2 && beqFields r1 r2
      | _ => false

end

mutual

/-- `Ty.beq` is reflexive. -/
theorem Ty.beq_refl : ∀ t : Ty, t.beq t = true
  | .intT => rfl
  | .i32T => rfl
  | .stringT => rfl
  | .boolT => rfl
  | .floatT => rfl
  | .chanT => rfl
  | .funcT => rfl
  | .unsafeT => rfl
  | .ptrT a => by simp [Ty.beq, Ty.beq_refl a]
  | .sliceT a => by simp [Ty.beq, Ty.beq_refl a]
  | .mapT k v => by simp [Ty.beq, Ty.beq_refl k, Ty.beq_refl v]
  | .structT fs => by simp [Ty.beq, beqFields_refl fs]
  | .arrayT a m => by simp [Ty.beq, Ty.beq_refl a]
  | .ifaceT => rfl
  | .namedT i u => by simp [Ty.beq, Ty.beq_refl u]

/-- `beqFields` is reflexive. -/
theorem beqFields_refl : ∀ fs : List (Bool × Ty), beqFields fs fs = true
  | [] => rfl
  | (e, t) :: r => by simp [beqFields, Ty.beq_refl t, beqFields_refl r]

end

mutual

/-- Erase all nominal (named-type) information, keeping the structural
shape.  Two types are inter-convertible for the engine's purposes when
their erasures agree. -/
def Ty.eraseNames : Ty → Ty
  | .ptrT e => .ptrT e.eraseNames
  | .sliceT e => .sliceT e.eraseNames
  | .mapT k v => .mapT k.eraseNames v.eraseNames
  | .structT fs => .structT (eraseNamesFields fs)
  | .arrayT e n => .arrayT e.eraseNames n
  | .namedT _ u => u.eraseNames
  | t => t

/-- Name erasure on struct field signatures. -/
def eraseNamesFields : List (Bool × Ty) → List (Bool × Ty)
  | [] => []
  | (ex, t) :: r => (ex, t.eraseNames) :: eraseNamesFields r

end

/-- Is the outermost layer of the type a defined (named) type? -/
def Ty.isNamed : Ty → Bool
  | .namedT _ _ => true
  | _ => false

/-- Models `reflect.Type.ConvertibleTo` for the type shapes the engine
meets: types with the same underlying structure after name erasure are
inter-convertible. -/
def Ty.convertibleTo (a b : Ty) : Bool :=
  a.eraseNames.beq b.eraseNames

/-- Models `reflect.Type.AssignableTo` for the type shapes the engine
meets: identical types are assignable, and so are structurally identical
types when at least one side is not a defined type. -/
def Ty.assignableTo (a b : Ty) : Bool :=
  a.beq b || (a.convertibleTo b && (!a.isNamed || !b.isNamed))

/-- The `reflect.Kind` families the field-action computation and the
slice-tracking predicate branch on. -/
inductive GoKind where
  | scalarK
  | stringK
  | chanK
  | funcK
  | unsafeK
  | ptrK
  | sliceK
  | mapK
  | structK
  | arrayK
  | ifaceK
deriving DecidableEq, Repr

/-- The kind of a type; a named type's kind is its underlying type's
kind, as in Go. -/
def Ty.kind : Ty → GoKind
  | .intT | .i32T | .boolT | .floatT => .scalarK
  | .stringT => .stringK
  | .chanT => .chanK
  | .funcT => .funcK
  | .unsafeT => .unsafeK
  | .ptrT _ => .ptrK
  | .sliceT _ => .sliceK
  | .mapT _ _ => .mapK
  | .structT _ => .structK
  | .arrayT _ _ => .arrayK
  | .ifaceT => .ifaceK
  | .namedT _ u => u.kind

/-- Run-time values.  Heap-backed objects (pointer targets, slice backing
arrays, map tables) are referred to by address; the address plays the
role of `reflect.Value.Pointer()`, the visited-table key.  A slice value
carries its element type (needed for the tracking predicate), the
address of its backing storage, its length and its capacity.
`counterV` models the `Counter` example type from the repository
(`examples/custom/main.go`), a named struct of two scalar fields that
implements the `Cloneable` interface; `invalidV` models the invalid
`reflect.Value{}`. -/
inductive Val where
  | intV (n : Int)
  | i32V (n : Int)
  | strV (s : String)
  | boolV (b : Bool)
  | floatV (q : Int)
  | chanNil
  | chanV (id : Nat)
  | funcNil
  | funcV (id : Nat)
  | unsafeV (id : Nat)
  | ptrNil (elem : Ty)
  | ptrV (elem : Ty) (addr : Nat)
  | sliceNil (elem : Ty)
  | sliceV (elem : Ty) (dataPtr : Nat) (len : Nat) (cap : Nat)
  | mapNil (key : Ty) (value : Ty)
  | mapV (key : Ty) (value : Ty) (addr : Nat)
  | structV (fields : List (Bool × Ty × Val))
  | arrV (elem : Ty) (elems : List Val)
  | ifaceNil
  | ifaceV (inner : Val)
  | counterV (value : Int) (name : String)
  | invalidV
deriving Repr

/-- The nominal type of the `Counter` example struct. -/
def counterTy : Ty := Ty.structT [(true, Ty.intT), (true, Ty.stringT)]

/-- The dynamic type of a value (`reflect.Value.Type()` restricted to
what the engine inspects).  Struct values carry their field signature,
so their type is recovered from the fields; nominal identity of a plain
struct value is not tracked (it is tracked where the engine needs it: in
the pointee type of pointers and in declared map element types). -/
def Val.typeOf : Val → Ty
  | .intV _ => .intT
  | .i32V _ => .i32T
  | .strV _ => .stringT
  | .boolV _ => .boolT
  | .floatV _ => .floatT
  | .chanNil | .chanV _ => .chanT
  | .funcNil | .funcV _ => .funcT
  | .unsafeV _ => .unsafeT
  | .ptrNil e | .ptrV e _ => .ptrT e
  | .sliceNil e | .sliceV e _ _ _ => .sliceT e
  | .mapNil k v | .mapV k v _ => .mapT k v
  | .structV fs => .structT (fs.map (fun f => (f.1, f.2.1)))
  | .arrV e es => .arrayT e es.length
  | .ifaceNil | .ifaceV _ => .ifaceT
  | .counterV _ _ => counterTy
  | .invalidV => .ifaceT

mutual

/-- The zero value of a type (`reflect.Zero`, `reflect.New(...).Elem()`). -/
def zeroVal : Ty → Val
  | .intT => .intV 0
  | .i32T => .i32V 0
  | .stringT => .strV ""
  | .boolT => .boolV false
  | .floatT => .floatV 0
  | .chanT => .chanNil
  | .funcT => .funcNil
  | .unsafeT => .unsafeV 0
  | .ptrT e => .ptrNil e
  | .sliceT e => .sliceNil e
  | .mapT k v => .mapNil k v
  | .structT fs => .structV (zeroFields fs)
  | .arrayT e n => .arrV e (List.replicate n (zeroVal e))
  | .ifaceT => .ifaceNil
  | .namedT _ u => zeroVal u

/-- Zero values of a struct's fields. -/
def zeroFields : List (Bool × Ty) → List (Bool × Ty × Val)
  | [] => []
  | (ex, t) :: r => (ex, t, zeroVal t) :: zeroFields r

end

/-- Models `reflect.Value.Convert(t)` for the shapes the engine converts
(pointers, slices, maps produced by the walker): the data is unchanged
and the type annotation is replaced by the target's.  On other shapes it
is the identity (those shapes carry no nominal annotation in the model,
so their type is already assignable wherever `Convert` would have been
used). -/
def Val.convert : Val → Ty → Val
  | .ptrV _ a, .ptrT e => .ptrV e a
  | .ptrNil _, .ptrT e => .ptrNil e
  | .sliceV _ d l c, .sliceT e => .sliceV e d l c
  | .sliceNil _, .sliceT e => .sliceNil e
  | .mapV _ _ a, .mapT k v => .mapV k v a
  | .mapNil _ _, .mapT k v => .mapNil k v
  | .ptrV _ a, .namedT _ (.ptrT e) => .ptrV e a
  | .ptrNil _, .namedT _ (.ptrT e) => .ptrNil e
  | v, _ => v

/-- Heap objects: a pointer target cell, the backing array of a slice
(of capacity length), or the entry table of a map. -/
inductive Obj where
  | cell (v : Val)
  | arr (elems : List Val)
  | table (entries : List (Val × Val))
deriving Repr

/-- Lookup in an address-keyed association list. -/
def alookup {α : Type} : List (Nat × α) → Nat → Option α
  | [], _ => none
  | (k, v) :: r, a => if k = a then some v else alookup r a

/-- Insert-or-overwrite in an address-keyed association list (Go map
assignment `m[k] = v`). -/
def aset {α : Type} : List (Nat × α) → Nat → α → List (Nat × α)
  | [], a, v => [(a, v)]
  | (k, w) :: r, a, v => if k = a then (a, v) :: r else (k, w) :: aset r a v

theorem alookup_aset_self {α : Type} :
    ∀ (l : List (Nat × α)) (a : Nat) (v : α), alookup (aset l a v) a = some v := by
  intro l a v
  induction l with
  | nil => simp [aset, alookup]
  | cons h r ih =>
      by_cases hk : h.1 = a
      · simp [aset, hk, alookup]
      · simp [aset, hk, alookup, ih]

theorem alookup_aset_ne {α : Type} :
    ∀ (l : List (Nat × α)) (a b : Nat) (v : α), a ≠ b →
      alookup (aset l a v) b = alookup l b := by
  intro l a b v hab
  induction l with
  | nil => simp [aset, alookup, hab]
  | cons h r ih =>
      obtain ⟨k, w⟩ := h
      by_cases hk : k = a
      · subst hk
        simp [aset, alookup, hab, Ne.symm hab]
      · by_cases hb : k = b
        · subst hb
          simp [aset, hk, alookup]
        · simp [aset, hk, alookup, hb, ih]

/-- The heap: pointer cells, slice backings and map tables, keyed by
address. -/
def Heap : Type := List (Nat × Obj)

/-- The per-call cloning context (`cloneContext`) together with the
parts of the runtime the walker touches: the visited table mapping a
source address to the clone value created for it, the heap, and the
fresh-address allocator. -/
structure St where
  visited : List (Nat × Val)
  heap : List (Nat × Obj)
  next : Nat

/-- Read a pointer cell (`v.Elem()` for a non-nil pointer).  A dangling
address yields the invalid value (unreachable for well-formed heaps). -/
def readCell (h : List (Nat × Obj)) (a : Nat) : Val :=
  match alookup h a with
  | some (Obj.cell v) => v
  | _ => Val.invalidV

/-- Read a slice's backing array. -/
def readArr (h : List (Nat × Obj)) (a : Nat) : List Val :=
  match alookup h a with
  | some (Obj.arr es) => es
  | _ => []

/-- Read a map's entry table. -/
def readTable (h : List (Nat × Obj)) (a : Nat) : List (Val × Val) :=
  match alookup h a with
  | some (Obj.table es) => es
  | _ => []

/-- The two-element field-action domain of the struct-type cache. -/
inductive FieldAction where
  | copyField
  | cloneField
deriving DecidableEq, Repr

/-- The per-field action decision of `getStructTypeInfo`: slices, maps,
pointers, interfaces, arrays and structs need deep cloning; all other
kinds (scalars, strings, channels, funcs, unsafe pointers) are copied
by plain assignment. -/
def fieldActionOf (t : Ty) : FieldAction :=
  match t.kind with
  | .sliceK | .mapK | .ptrK | .ifaceK | .arrayK | .structK => .cloneField
  | _ => .copyField

/-- The needs-tracking predicate of `cloneSlice`: only slices whose
element kind is pointer, interface, slice, map or struct interact with
the visited table. -/
def needsTrackingK (e : Ty) : Bool :=
  match e.kind with
  | .ptrK | .ifaceK | .sliceK | .mapK | .structK => true
  | _ => false

/-- The visited-table consultation of `cloneSlice`: a cached clone for
the backing-storage address is reused only when its length and capacity
both equal the source's.  (A cached entry that is not a slice value is
ignored; for well-formed heaps an address never serves both as a pointer
target and as a backing store, so this branch is unreachable.) -/
def cachedSlice (st : St) (tracked : Bool) (d len cap : Nat) : Option Val :=
  if tracked then
    match alookup st.visited d with
    | some (Val.sliceV e1 d1 l1 c1) =>
        if l1 = len ∧ c1 = cap then some (Val.sliceV e1 d1 l1 c1) else none
    | _ => none
  else none

/-- The per-entry insertion decision of `cloneMap`: invalid key or value
drops the entry; a cloned value of exactly the declared element type is
inserted as-is; otherwise it is converted when convertible, inserted
as-is when assignable, and dropped when neither. -/
def mapInsertVal (k1 v1 : Val) (vt : Ty) : Option Val :=
  match k1, v1 with
  | .invalidV, _ => none
  | _, .invalidV => none
  | _, _ =>
      if v1.typeOf.beq vt then some v1
      else if v1.typeOf.convertibleTo vt then some (v1.convert vt)
      else if v1.typeOf.assignableTo vt then some v1
      else none

/-- An invalid cloned element leaves the zero value of the declared
element type in place (the `Set` on the fresh zeroed allocation is
skipped). -/
def orZero (e : Ty) (w : Val) : Val :=
  match w with
  | .invalidV => zeroVal e
  | w1 => w1

/-- Assign the cloned pointee into the freshly allocated cell; the
assignment is skipped when the clone is invalid. -/
def writeCell (st : St) (na : Nat) (w : Val) : St :=
  match w with
  | .invalidV => st
  | w1 => ⟨st.visited, aset st.heap na (.cell w1), st.next⟩

/-- Rewrap the cloned concrete value in a fresh interface value; an
invalid clone returns the original interface value. -/
def wrapIface (inner w : Val) : Val :=
  match w with
  | .invalidV => .ifaceV inner
  | w1 => .ifaceV w1

/-- Assignment of a cloned field into the destination field: an
invalid clone leaves the zero value; a clone whose type differs from
but is convertible to the declared field type is converted first. -/
def fieldAssign (t : Ty) (v1 : Val) : Val :=
  match v1 with
  | .invalidV => zeroVal t
  | w1 => if w1.typeOf.beq t then w1
          else if w1.typeOf.convertibleTo t then w1.convert t
          else w1

/-- Write the cloned elements of a slice over the zeroed fresh backing
array: an invalid cloned element leaves the zero value in place (`Set`
is skipped), and positions beyond the source length keep the zeros
`reflect.MakeSlice` put there. -/
def fillArr (e : Ty) (cap : Nat) (es : List Val) : List Val :=
  (es.map (orZero e)) ++ List.replicate (cap - es.length) (zeroVal e)

mutual

/-- The reflective walker `cloneContext.cloneValue`: dispatch on the
introspected kind.  Scalars, strings, funcs and unsafe pointers are
returned unchanged; channels become the zero value of their type; nil
references are returned as-is by the sub-cloners' nil checks (inlined
here); `counterV` is a struct of two `copyField` scalar fields, so its
reflective clone is itself.  The fuel argument only bounds recursion
depth; `none` means it ran out. -/
def cloneValue : Nat → St → Val → Option (St × Val)
  | 0, _, _ => none
  | f+1, st, v =>
    match v with
    | .invalidV => some (st, .invalidV)
    | .intV n => some (st, .intV n)
    | .i32V n => some (st, .i32V n)
    | .strV s => some (st, .strV s)
    | .boolV b => some (st, .boolV b)
    | .floatV q => some (st, .floatV q)
    | .ptrNil e => some (st, .ptrNil e)
    | .ptrV e a => clonePointer f st e a
    | .sliceNil e => some (st, .sliceNil e)
    | .sliceV e d l c => cloneSlice f st e d l c
    | .mapNil kt vt => some (st, .mapNil kt vt)
    | .mapV kt vt a => cloneMap f st kt vt a
    | .structV fs => cloneStruct f st fs
    | .arrV e es => cloneArray f st e es
    | .ifaceNil => some (st, .ifaceNil)
    | .ifaceV inner => cloneInterface f st inner
    | .chanNil => some (st, .chanNil)
    | .chanV _ => some (st, .chanNil)
    | .funcNil => some (st, .funcNil)
    | .funcV i => some (st, .funcV i)
    | .unsafeV i => some (st, .unsafeV i)
    | .counterV n s => some (st, .counterV n s)

/-- `cloneContext.clonePointer` on a non-nil pointer: a visited hit
returns the cached clone; otherwise a fresh reference to a zero value of
the pointee type is allocated, registered in the visited table *before*
the descent, and the cloned pointee (when valid) is assigned into it. -/
def clonePointer : Nat → St → Ty → Nat → Option (St × Val)
  | 0, _, _, _ => none
  | f+1, st, e, a =>
    match alookup st.visited a with
    | some c => some (st, c)
    | none =>
      let na := st.next
      let st1 : St := ⟨aset st.visited a (.ptrV e na),
                       aset st.heap na (.cell (zeroVal e)), st.next + 1⟩
      match cloneValue f st1 (readCell st.heap a) with
      | none => none
      | some (st2, w) => some (writeCell st2 na w, .ptrV e na)

/-- `cloneContext.cloneSlice` on a non-nil slice: tracked element kinds
consult the visited table (reuse only on exact length/capacity match),
a fresh backing array of the source capacity is allocated, tracked
slices register the new slice before the element walk, and the cloned
elements are written over the zeroed fresh backing. -/
def cloneSlice : Nat → St → Ty → Nat → Nat → Nat → Option (St × Val)
  | 0, _, _, _, _, _ => none
  | f+1, st, e, d, len, cap =>
    let tracked := needsTrackingK e
    match cachedSlice st tracked d len cap with
    | some c => some (st, c)
    | none =>
      let nd := st.next
      let st1 : St := ⟨(if tracked then aset st.visited d (.sliceV e nd len cap)
                        else st.visited),
                       aset st.heap nd (.arr (List.replicate cap (zeroVal e))),
                       st.next + 1⟩
      match cloneList f st1 ((readArr st.heap d).take len) with
      | none => none
      | some (st2, es) =>
          some ({ st2 with heap := aset st2.heap nd (.arr (fillArr e cap es)) },
                .sliceV e nd len cap)

/-- `cloneContext.cloneMap` on a non-nil map: a visited hit returns the
cached clone; otherwise a fresh empty map is allocated and registered in
the visited table *before* the entry iteration, and the cloned entries
(filtered by `mapInsertVal`) populate it. -/
def cloneMap : Nat → St → Ty → Ty → Nat → Option (St × Val)
  | 0, _, _, _, _ => none
  | f+1, st, kt, vt, a =>
    match alookup st.visited a with
    | some c => some (st, c)
    | none =>
      let na := st.next
      let st1 : St := ⟨aset st.visited a (.mapV kt vt na),
                       aset st.heap na (.table []), st.next + 1⟩
      match cloneEntries f st1 vt (readTable st.heap a) with
      | none => none
      | some (st2, es) =>
          some ({ st2 with heap := aset st2.heap na (.table es) }, .mapV kt vt na)

/-- The entry loop of `cloneMap`: key and value are walked
independently; `mapInsertVal` decides insertion, conversion or dropping. -/
def cloneEntries : Nat → St → Ty → List (Val × Val) → Option (St × List (Val × Val))
  | 0, _, _, _ => none
  | _+1, st, _, [] => some (st, [])
  | f+1, st, vt, (k, v) :: rest =>
    match cloneValue f st k with
    | none => none
    | some (st1, k1) =>
      match cloneValue f st1 v with
      | none => none
      | some (st2, v1) =>
        match mapInsertVal k1 v1 vt with
        | none => cloneEntries f st2 vt rest
        | some w =>
          match cloneEntries f st2 vt rest with
          | none => none
          | some (st3, es) => some (st3, (k1, w) :: es)

/-- `cloneContext.cloneStruct`: a zero struct of the same type is
allocated and each field is processed by its cached action (the actions
computed by `getStructTypeInfo` equal `fieldActionOf` of the declared
field type, so the walker consults that computation directly). -/
def cloneStruct : Nat → St → List (Bool × Ty × Val) → Option (St × Val)
  | 0, _, _ => none
  | f+1, st, fs =>
    match cloneFields f st fs with
    | none => none
    | some (st1, fs1) => some (st1, .structV fs1)

/-- The field loop of `cloneStruct`: unexported fields are skipped
(left at the zero value of the fresh struct); `copyField` fields are
assigned directly; `cloneField` fields are walked, converted when the
clone's type differs from but is convertible to the declared field
type, and left at zero when the clone is invalid. -/
def cloneFields : Nat → St → List (Bool × Ty × Val) →
    Option (St × List (Bool × Ty × Val))
  | 0, _, _ => none
  | _+1, st, [] => some (st, [])
  | f+1, st, (ex, t, v) :: rest =>
    if ex = false then
      match cloneFields f st rest with
      | none => none
      | some (st1, rest1) => some (st1, (ex, t, zeroVal t) :: rest1)
    else
      match fieldActionOf t with
      | .copyField =>
        match cloneFields f st rest with
        | none => none
        | some (st1, rest1) => some (st1, (ex, t, v) :: rest1)
      | .cloneField =>
        match cloneValue f st v with
        | none => none
        | some (st1, v1) =>
          match cloneFields f st1 rest with
          | none => none
          | some (st2, rest1) => some (st2, (ex, t, fieldAssign t v1) :: rest1)

/-- `cloneContext.cloneArray`: a fresh zero array, each element walked
and assigned (invalid clones leave the zero element in place). -/
def cloneArray : Nat → St → Ty → List Val → Option (St × Val)
  | 0, _, _, _ => none
  | f+1, st, e, es =>
    match cloneList f st es with
    | none => none
    | some (st1, es1) => some (st1, .arrV e (es1.map (orZero e)))

/-- `cloneContext.cloneInterface` on a non-nil interface: the concrete
inner value is walked and rewrapped; an invalid clone returns the
original interface value. -/
def cloneInterface : Nat → St → Val → Option (St × Val)
  | 0, _, _ => none
  | f+1, st, inner =>
    match cloneValue f st inner with
    | none => none
    | some (st1, w) => some (st1, wrapIface inner w)

/-- Walk a list of values left to right, threading the context. -/
def cloneList : Nat → St → List Val → Option (St × List Val)
  | 0, _, _ => none
  | _+1, st, [] => some (st, [])
  | f+1, st, v :: vs =>
    match cloneValue f st v with
    | none => none
    | some (st1, v1) =>
      match cloneList f st1 vs with
      | none => none
      | some (st2, vs1) => some (st2, v1 :: vs1)

end

/-- The capacity-preserving generic slice helper `cloneSliceExact`:
nil stays nil; otherwise a slice of the same length *and* capacity is
allocated and the `len` source elements are bit-copied. -/
def cloneSliceExact (h : List (Nat × Obj)) (nx : Nat) :
    Val → (List (Nat × Obj)) × Nat × Val
  | .sliceNil e => (h, nx, .sliceNil e)
  | .sliceV e d l c =>
      let src := (readArr h d).take l
      (aset h nx (.arr (src ++ List.replicate (c - src.length) (zeroVal e))),
       nx + 1, .sliceV e nx l c)
  | v => (h, nx, v)

/-- The element types whose slices take the `Clone` fast path
(`[]int`, `[]string`, `[]bool`, `[]float64`, `[]byte`); `i32T` models a
scalar element type outside this set (such as `int16`). -/
def fastSliceElem (e : Ty) : Bool :=
  match e with
  | .intT | .stringT | .boolT | .floatT => true
  | _ => false

/-- The map types with a `Clone` fast path: `map[string]int`,
`map[string]string` and `map[int]int`.  `map[string]any` is deliberately
not in this set. -/
def fastMapTy (t : Ty) : Bool :=
  match t with
  | .mapT .stringT .intT => true
  | .mapT .stringT .stringT => true
  | .mapT .intT .intT => true
  | _ => false

/-- `maps.Clone` on a non-nil map: a fresh table holding the same
entries (scalar keys and values, no recursion). -/
def mapsClone (h : List (Nat × Obj)) (nx : Nat) (kt vt : Ty) (a : Nat) :
    (List (Nat × Obj)) × Nat × Val :=
  (aset h nx (.table (readTable h a)), nx + 1, .mapV kt vt nx)

/-- `reflect.ValueOf` and the `any(src)` type switches see through
interface wrappers to the dynamic value. -/
def unwrapIface : Val → Val
  | .ifaceV v => unwrapIface v
  | v => v

/-- Steps 4-7 of the `Clone` dispatch: the reflective engine invoked
with a fresh visited table; an invalid result falls back to returning
the source. -/
def cloneReflect (fuel : Nat) (h : List (Nat × Obj)) (nx : Nat) (src : Val) :
    Option ((List (Nat × Obj)) × Nat × Val) :=
  match cloneValue fuel ⟨[], h, nx⟩ src with
  | none => none
  | some (st, .invalidV) => some (st.heap, st.next, src)
  | some (st, w) => some (st.heap, st.next, w)

/-- The top-level generic `Clone`: the five-layer dispatch.  Scalars and
strings return unchanged; fast-path slice types go through
`cloneSliceExact`; fast-path map types through `maps.Clone`; the
`Cloneable` hook (implemented in the model by the `Counter` example
type) is consulted next; nil pointers return as-is; everything else goes
to the reflective walker with a fresh visited table. -/
def CloneFn (fuel : Nat) (h : List (Nat × Obj)) (nx : Nat) (src0 : Val) :
    Option ((List (Nat × Obj)) × Nat × Val) :=
  let src := unwrapIface src0
  match src with
  | .intV n => some (h, nx, .intV n)
  | .i32V n => some (h, nx, .i32V n)
  | .strV s => some (h, nx, .strV s)
  | .boolV b => some (h, nx, .boolV b)
  | .floatV q => some (h, nx, .floatV q)
  | .sliceNil e =>
      if fastSliceElem e then some (cloneSliceExact h nx (.sliceNil e))
      else cloneReflect fuel h nx (.sliceNil e)
  | .sliceV e d l c =>
      if fastSliceElem e then some (cloneSliceExact h nx (.sliceV e d l c))
      else cloneReflect fuel h nx (.sliceV e d l c)
  | .mapNil kt vt =>
      if fastMapTy (.mapT kt vt) then some (h, nx, .mapNil kt vt)
      else cloneReflect fuel h nx (.mapNil kt vt)
  | .mapV kt vt a =>
      if fastMapTy (.mapT kt vt) then some (mapsClone h nx kt vt a)
      else cloneReflect fuel h nx (.mapV kt vt a)
  | .ifaceNil => some (h, nx, .ifaceNil)
  | .invalidV => some (h, nx, .invalidV)
  | .counterV n s => some (h, nx, .counterV (n + 1) (s ++ "_copy"))
  | .ptrNil e => some (h, nx, .ptrNil e)
  | v => cloneReflect fuel h nx v

/-! ## Basic lemmas about the association-list primitives -/

theorem aset_aset {α : Type} :
    ∀ (l : List (Nat × α)) (a : Nat) (v w : α), aset (aset l a v) a w = aset l a w := by
  intro l a v w
  induction l with
  | nil => simp [aset]
  | cons h r ih =>
      by_cases hk : h.1 = a
      · simp [aset, hk]
      · simp [aset, hk, ih]

/-- Values of the scalar family: returned unchanged by every layer of
the engine. -/
def isScalarVal : Val → Bool
  | .intV _ | .i32V _ | .strV _ | .boolV _ | .floatV _ => true
  | _ => false

/-- Scalar element types of sequences (the claim's "scalar element
type"): the fast-pathed ones plus `i32T`, which reaches the reflective
walker. -/
def scalarElemTy : Ty → Bool
  | .intT | .i32T | .stringT | .boolT | .floatT => true
  | _ => false

/-- The walker returns scalar values unchanged without touching the
context. -/
theorem cloneValue_scalar (f : Nat) (st : St) (w : Val)
    (hw : isScalarVal w = true) (hf : 1 ≤ f) : cloneValue f st w = some (st, w) := by
  obtain ⟨g, rfl⟩ : ∃ g, f = g + 1 := ⟨f - 1, by omega⟩
  cases w <;> simp_all [isScalarVal, cloneValue]

/-- The element loop maps a list of scalar values to itself, leaving the
context unchanged. -/
theorem cloneList_scalar :
    ∀ (ws : List Val) (f : Nat) (st : St), (∀ w ∈ ws, isScalarVal w = true) →
      ws.length + 1 ≤ f → cloneList f st ws = some (st, ws) := by
  intro ws
  induction ws with
  | nil =>
      intro f st _ hf
      obtain ⟨g, rfl⟩ : ∃ g, f = g + 1 := ⟨f - 1, by omega⟩
      simp [cloneList]
  | cons w ws ih =>
      intro f st hsc hf
      obtain ⟨g, rfl⟩ : ∃ g, f = g + 1 := ⟨f - 1, by omega⟩
      have h1 : cloneValue g st w = some (st, w) := by
        apply cloneValue_scalar
        · exact hsc w (by simp)
        · simp at hf; omega
      have h2 : cloneList g st ws = some (st, ws) := by
        apply ih
        · intro u hu; exact hsc u (by simp [hu])
        · simp at hf; omega
      simp [cloneList, h1, h2]

/-- Writing back a list of cloned elements none of which is invalid
just pads with the zeros `MakeSlice` provided. -/
theorem fillArr_no_invalid (e : Ty) (c : Nat) :
    ∀ es : List Val, (∀ w ∈ es, w ≠ Val.invalidV) →
      fillArr e c es = es ++ List.replicate (c - es.length) (zeroVal e) := by
  intro es hes
  unfold fillArr
  have hmap : es.map (orZero e) = es := by
    induction es with
    | nil => simp
    | cons w ws ih =>
        have hw : w ≠ Val.invalidV := hes w (by simp)
        have hws : ws.map (orZero e) = ws := by
          apply ih
          intro u hu; exact hes u (by simp [hu])
        cases w <;> simp_all [orZero]
  rw [hmap]

theorem scalar_ne_invalid (w : Val) (hw : isScalarVal w = true) : w ≠ Val.invalidV := by
  cases w <;> simp_all [isScalarVal]

/-- **C3.** For every non-nil sequence of scalar element type, `Clone`
returns a sequence of the same length and the same capacity, whose
first `len` elements (the visible ones) equal the source's, whose
backing storage is a fresh address distinct from the source's, and
which leaves the source backing storage unchanged.  Scalar element
types cover both the fast-pathed families (through `cloneSliceExact`)
and the remaining scalar family `i32T` (through the reflective
`cloneSlice`). -/
theorem C3_scalar_slice_len_cap_fresh (e : Ty) (h : List (Nat × Obj))
    (nx d l c fuel : Nat)
    (hty : scalarElemTy e = true)
    (hsc : ∀ w ∈ (readArr h d).take l, isScalarVal w = true)
    (hl : l ≤ (readArr h d).length)
    (hd : d < nx) (hfuel : l + 3 ≤ fuel) :
    ∃ h2, CloneFn fuel h nx (.sliceV e d l c) = some (h2, nx + 1, .sliceV e nx l c) ∧
      (readArr h2 nx).take l = (readArr h d).take l ∧
      nx ≠ d ∧
      readArr h2 d = readArr h d := by
  have hne : nx ≠ d := by omega
  have htl : ((readArr h d).take l).length = l := by
    simp [List.length_take]; omega
  have hread : ∀ L : List Val,
      readArr (aset h nx (Obj.arr L)) nx = L := by
    intro L
    simp [readArr, alookup_aset_self]
  have hread2 : ∀ L : List Val,
      readArr (aset h nx (Obj.arr L)) d = readArr h d := by
    intro L
    simp [readArr, alookup_aset_ne _ _ _ _ hne]
  have htake : ∀ L : List Val,
      (((readArr h d).take l) ++ L).take l = (readArr h d).take l := by
    intro L
    rw [List.take_append_eq_append_take, htl]
    simp [htl]
  have fastCase : fastSliceElem e = true →
      ∃ h2, CloneFn fuel h nx (.sliceV e d l c) = some (h2, nx + 1, .sliceV e nx l c) ∧
        (readArr h2 nx).take l = (readArr h d).take l ∧
        nx ≠ d ∧
        readArr h2 d = readArr h d := by
    intro hfast
    refine ⟨aset h nx (Obj.arr ((readArr h d).take l ++
        List.replicate (c - l) (zeroVal e))), ?_, ?_, hne, ?_⟩
    · simp [CloneFn, unwrapIface, hfast, cloneSliceExact, htl]
    · rw [hread]; exact htake _
    · exact hread2 _
  cases e with
  | intT => exact fastCase rfl
  | stringT => exact fastCase rfl
  | boolT => exact fastCase rfl
  | floatT => exact fastCase rfl
  | i32T =>
      obtain ⟨g, rfl⟩ : ∃ g, fuel = g + 2 := ⟨fuel - 2, by omega⟩
      have hlist : cloneList g ⟨[], aset h nx (Obj.arr (List.replicate c (zeroVal Ty.i32T))), nx + 1⟩
          ((readArr h d).take l) =
          some (⟨[], aset h nx (Obj.arr (List.replicate c (zeroVal Ty.i32T))), nx + 1⟩,
            (readArr h d).take l) := by
        apply cloneList_scalar _ _ _ hsc
        omega
      have hfill : fillArr Ty.i32T c ((readArr h d).take l) =
          ((readArr h d).take l) ++ List.replicate (c - l) (zeroVal Ty.i32T) := by
        rw [fillArr_no_invalid]
        · rw [htl]
        · intro w hw; exact scalar_ne_invalid w (hsc w hw)
      refine ⟨aset h nx (Obj.arr ((readArr h d).take l ++
          List.replicate (c - l) (zeroVal Ty.i32T))), ?_, ?_, hne, ?_⟩
      · simp only [CloneFn, unwrapIface, fastSliceElem, cloneReflect, cloneValue,
          cloneSlice, needsTrackingK, Ty.kind, cachedSlice, if_false, Bool.false_eq_true,
          hlist, hfill]
        simp [aset_aset]
      · rw [hread]; exact htake _
      · exact hread2 _
  | chanT => exact absurd hty (by simp [scalarElemTy])
  | funcT => exact absurd hty (by simp [scalarElemTy])
  | unsafeT => exact absurd hty (by simp [scalarElemTy])
  | ptrT e1 => exact absurd hty (by simp [scalarElemTy])
  | sliceT e1 => exact absurd hty (by simp [scalarElemTy])
  | mapT k1 v1 => exact absurd hty (by simp [scalarElemTy])
  | structT fs => exact absurd hty (by simp [scalarElemTy])
  | arrayT e1 n1 => exact absurd hty (by simp [scalarElemTy])
  | ifaceT => exact absurd hty (by simp [scalarElemTy])
  | namedT i1 u1 => exact absurd hty (by simp [scalarElemTy])

/-- Witness for C3 at a concrete slice: `[]int` of length 2 and
capacity 3 backed at address 0. -/
theorem C3_scalar_slice_len_cap_fresh_witness :
    ∃ h2, CloneFn 5 [(0, Obj.arr [Val.intV 1, Val.intV 2, Val.intV 3])] 1
        (.sliceV .intT 0 2 3) = some (h2, 2, .sliceV .intT 1 2 3) ∧
      (readArr h2 1).take 2 =
        (readArr [(0, Obj.arr [Val.intV 1, Val.intV 2, Val.intV 3])] 0).take 2 ∧
      (1 : Nat) ≠ 0 ∧
      readArr h2 0 = readArr [(0, Obj.arr [Val.intV 1, Val.intV 2, Val.intV 3])] 0 := by
  exact C3_scalar_slice_len_cap_fresh .intT _ 1 0 2 3 5 rfl
    (by intro w hw; simp [readArr, alookup] at hw; rcases hw with h | h <;> simp [h, isScalarVal])
    (by simp [readArr, alookup]) (by omega) (by omega)

/-- **C1.** Within a single invocation: (i) an arrival at a source
pointer address already in the visited table returns the cached cloned
pointer with the context unchanged, so two arrivals at the same source
pointer produce the same cloned pointer; (ii) a self-referencing
pointer (cell 0 holds a pointer to itself) clones to a fresh pointer
(address 1) whose cell holds a pointer to address 1 — the clone points
to its own clone, not back to the source; (iii) a diamond (a struct
holding the same pointer in two fields) clones to a struct whose two
fields hold the *same* fresh pointer. -/
theorem C1_visited_identity_and_cycles :
    (∀ (f : Nat) (st : St) (e : Ty) (a : Nat) (c : Val),
        alookup st.visited a = some c →
        clonePointer (f+1) st e a = some (st, c) ∧
        cloneValue (f+2) st (.ptrV e a) = some (st, c)) ∧
    (CloneFn 10 [(0, Obj.cell (Val.ptrV Ty.intT 0))] 1 (Val.ptrV Ty.intT 0) =
      some ([(0, Obj.cell (Val.ptrV Ty.intT 0)), (1, Obj.cell (Val.ptrV Ty.intT 1))], 2,
        Val.ptrV Ty.intT 1)) ∧
    (CloneFn 20 [(0, Obj.cell (Val.intV 99))] 1
        (Val.structV [(true, Ty.ptrT Ty.intT, Val.ptrV Ty.intT 0),
                      (true, Ty.ptrT Ty.intT, Val.ptrV Ty.intT 0)]) =
      some ([(0, Obj.cell (Val.intV 99)), (1, Obj.cell (Val.intV 99))], 2,
        Val.structV [(true, Ty.ptrT Ty.intT, Val.ptrV Ty.intT 1),
                     (true, Ty.ptrT Ty.intT, Val.ptrV Ty.intT 1)])) := by
  refine ⟨?_, ?_, ?_⟩
  · intro f st e a c hc
    constructor
    · simp [clonePointer, hc]
    · simp [cloneValue, clonePointer, hc]
  · simp [CloneFn, cloneReflect, unwrapIface, cloneValue, clonePointer, readCell,
      alookup, aset, zeroVal, writeCell, wrapIface, fieldAssign, orZero]
  · simp [CloneFn, cloneReflect, unwrapIface, cloneValue, clonePointer, cloneStruct,
      cloneFields, fieldActionOf, Ty.kind, readCell, alookup, aset, zeroVal,
      Val.typeOf, Ty.beq, writeCell, wrapIface, fieldAssign, orZero]

/-- Witness for C1's universally quantified part: a visited table
already mapping address 5 to a cloned pointer. -/
theorem C1_visited_identity_and_cycles_witness :
    clonePointer 1 ⟨[(5, Val.ptrV Ty.intT 7)], [], 9⟩ Ty.intT 5 =
      some (⟨[(5, Val.ptrV Ty.intT 7)], [], 9⟩, Val.ptrV Ty.intT 7) ∧
    cloneValue 2 ⟨[(5, Val.ptrV Ty.intT 7)], [], 9⟩ (.ptrV Ty.intT 5) =
      some (⟨[(5, Val.ptrV Ty.intT 7)], [], 9⟩, Val.ptrV Ty.intT 7) :=
  (C1_visited_identity_and_cycles.1 0 ⟨[(5, Val.ptrV Ty.intT 7)], [], 9⟩
    Ty.intT 5 (Val.ptrV Ty.intT 7) (by simp [alookup]))

/-- **C4.** A keyed mapping with erased-any value type is not in the
fast-path set (`fastMapTy` rejects `map[string]any`), so it is routed
through the reflective walker; the walker registers the fresh map in
the visited table before iterating, and consequently `Clone` of the
self-referential `map[string]any` whose only entry holds the map
itself terminates (returns `some`) and reproduces the cycle: the
cloned table's entry holds the *clone* map (address 1), not the
source (address 0). -/
theorem C4_any_map_reflective_cycle :
    fastMapTy (.mapT .stringT .ifaceT) = false ∧
    CloneFn 20 [(0, Obj.table [(Val.strV "self", Val.ifaceV (Val.mapV Ty.stringT Ty.ifaceT 0))])] 1
        (Val.mapV Ty.stringT Ty.ifaceT 0) =
      some ([(0, Obj.table [(Val.strV "self", Val.ifaceV (Val.mapV Ty.stringT Ty.ifaceT 0))]),
             (1, Obj.table [(Val.strV "self", Val.ifaceV (Val.mapV Ty.stringT Ty.ifaceT 1))])], 2,
        Val.mapV Ty.stringT Ty.ifaceT 1) := by
  constructor
  · rfl
  · simp [CloneFn, cloneReflect, unwrapIface, fastMapTy, cloneValue, cloneMap,
      cloneEntries, cloneInterface, mapInsertVal, readTable, alookup, aset,
      Val.typeOf, Ty.beq, aset_aset, writeCell, wrapIface, fieldAssign, orZero]

/-- A cached visited entry for a backing address whose length or
capacity differs from the source's is not reused. -/
theorem cachedSlice_mismatch (st : St) (tr : Bool) (d len cap : Nat)
    (e1 : Ty) (d1 l1 c1 : Nat)
    (hc : alookup st.visited d = some (.sliceV e1 d1 l1 c1))
    (hne : ¬(l1 = len ∧ c1 = cap)) :
    cachedSlice st tr d len cap = none := by
  cases tr <;> simp [cachedSlice, hc, hne]

/-- **C5.** (i) When the walker reaches a tracked sequence whose
backing address is in the visited table with *matching* length and
capacity, the cached clone is returned unchanged; (ii) when either
differs, the cached entry is not reused and the returned sequence is a
freshly allocated one (backed at the allocator's next address); and
(iii) concretely, a struct holding a sequence of length 3/capacity 5
and its prefix sub-sequence of length 2 (same backing address 0)
clones to two *distinct* fresh backing storages (addresses 3 and 4)
whose lengths 3 and 2 match their respective sources. -/
theorem C5_subslice_alias_avoidance :
    (∀ (f : Nat) (st : St) (e e1 : Ty) (d d1 len cap : Nat),
        needsTrackingK e = true →
        alookup st.visited d = some (.sliceV e1 d1 len cap) →
        cloneSlice (f+1) st e d len cap = some (st, .sliceV e1 d1 len cap)) ∧
    (∀ (f : Nat) (st : St) (e e1 : Ty) (d d1 len cap l1 c1 : Nat) (st2 : St) (r : Val),
        alookup st.visited d = some (.sliceV e1 d1 l1 c1) →
        ¬(l1 = len ∧ c1 = cap) →
        cloneSlice (f+1) st e d len cap = some (st2, r) →
        r = .sliceV e st.next len cap) ∧
    (CloneFn 30
        [(0, Obj.arr [Val.ifaceV (Val.strV "a"), Val.ifaceV (Val.strV "b"),
                      Val.ifaceV (Val.strV "c"), Val.ifaceNil, Val.ifaceNil]),
         (1, Obj.cell (Val.structV
              [(true, Ty.sliceT Ty.ifaceT, Val.sliceV Ty.ifaceT 0 3 5),
               (true, Ty.sliceT Ty.ifaceT, Val.sliceV Ty.ifaceT 0 2 5)]))] 2
        (Val.ptrV (Ty.structT [(true, Ty.sliceT Ty.ifaceT), (true, Ty.sliceT Ty.ifaceT)]) 1) =
      some ([(0, Obj.arr [Val.ifaceV (Val.strV "a"), Val.ifaceV (Val.strV "b"),
                          Val.ifaceV (Val.strV "c"), Val.ifaceNil, Val.ifaceNil]),
             (1, Obj.cell (Val.structV
                  [(true, Ty.sliceT Ty.ifaceT, Val.sliceV Ty.ifaceT 0 3 5),
                   (true, Ty.sliceT Ty.ifaceT, Val.sliceV Ty.ifaceT 0 2 5)])),
             (2, Obj.cell (Val.structV
                  [(true, Ty.sliceT Ty.ifaceT, Val.sliceV Ty.ifaceT 3 3 5),
                   (true, Ty.sliceT Ty.ifaceT, Val.sliceV Ty.ifaceT 4 2 5)])),
             (3, Obj.arr [Val.ifaceV (Val.strV "a"), Val.ifaceV (Val.strV "b"),
                          Val.ifaceV (Val.strV "c"), Val.ifaceNil, Val.ifaceNil]),
             (4, Obj.arr [Val.ifaceV (Val.strV "a"), Val.ifaceV (Val.strV "b"),
                          Val.ifaceNil, Val.ifaceNil, Val.ifaceNil])], 5,
        Val.ptrV (Ty.structT [(true, Ty.sliceT Ty.ifaceT), (true, Ty.sliceT Ty.ifaceT)]) 2)) := by
  refine ⟨?_, ?_, ?_⟩
  · intro f st e e1 d d1 len cap htr hc
    simp [cloneSlice, cachedSlice, htr, hc]
  · intro f st e e1 d d1 len cap l1 c1 st2 r hc hne hrun
    rw [cloneSlice] at hrun
    rw [cachedSlice_mismatch st _ d len cap e1 d1 l1 c1 hc hne] at hrun
    simp only [] at hrun
    rcases hmatch : cloneList f
        ⟨(if needsTrackingK e = true then aset st.visited d (.sliceV e st.next len cap)
          else st.visited),
         aset st.heap st.next (.arr (List.replicate cap (zeroVal e))), st.next + 1⟩
        ((readArr st.heap d).take len) with _ | ⟨st3, es⟩
    · rw [hmatch] at hrun; cases hrun
    · rw [hmatch] at hrun
      simp at hrun
      exact hrun.2.symm
  · simp [CloneFn, cloneReflect, unwrapIface, cloneValue, clonePointer, cloneStruct,
      cloneFields, cloneSlice, cloneList, cloneInterface, cachedSlice, needsTrackingK,
      fieldActionOf, Ty.kind, fillArr, readCell, readArr, alookup, aset, zeroVal,
      Val.typeOf, Ty.beq, beqFields, aset_aset, writeCell, wrapIface, fieldAssign, orZero]

/-- Witness for C5's universally quantified parts: an exact-match
cached reuse and a length-mismatched fresh allocation at concrete
inputs. -/
theorem C5_subslice_alias_avoidance_witness :
    cloneSlice 1 ⟨[(0, Val.sliceV Ty.ifaceT 9 2 5)], [], 7⟩ Ty.ifaceT 0 2 5 =
      some (⟨[(0, Val.sliceV Ty.ifaceT 9 2 5)], [], 7⟩, .sliceV Ty.ifaceT 9 2 5) ∧
    Val.sliceV Ty.ifaceT 7 2 5 = Val.sliceV Ty.ifaceT 7 2 5 := by
  constructor
  · exact C5_subslice_alias_avoidance.1 0 ⟨[(0, Val.sliceV Ty.ifaceT 9 2 5)], [], 7⟩
      Ty.ifaceT Ty.ifaceT 0 9 2 5 rfl (by simp [alookup])
  · exact C5_subslice_alias_avoidance.2.1 4
      ⟨[(0, Val.sliceV Ty.ifaceT 9 3 5)], [(0, Obj.arr [Val.ifaceNil, Val.ifaceNil])], 7⟩
      Ty.ifaceT Ty.ifaceT 0 9 2 5 3 5
      ⟨[(0, Val.sliceV Ty.ifaceT 7 2 5)],
       [(0, Obj.arr [Val.ifaceNil, Val.ifaceNil]),
        (7, Obj.arr [Val.ifaceNil, Val.ifaceNil, Val.ifaceNil, Val.ifaceNil, Val.ifaceNil])], 8⟩
      (Val.sliceV Ty.ifaceT 7 2 5)
      (by simp [alookup]) (by simp)
      (by simp [cloneSlice, cachedSlice, needsTrackingK, Ty.kind, cloneList, cloneValue,
        readArr, alookup, aset, zeroVal, fillArr, orZero])

/-- The dynamic type of a model value is never a defined (named) type
at its head: nominal identity lives in pointee/declared positions. -/
theorem typeOf_not_named (v : Val) : v.typeOf.isNamed = false := by
  cases v <;> simp [Val.typeOf, Ty.isNamed, counterTy]

/-- Conversion preserves engine-convertibility to the target type. -/
theorem convert_convertible (v1 : Val) (vt : Ty)
    (h : v1.typeOf.convertibleTo vt = true) :
    (v1.convert vt).typeOf.convertibleTo vt = true := by
  unfold Val.convert
  split
  · simp [Val.typeOf, Ty.convertibleTo, Ty.eraseNames, Ty.beq_refl]
  · simp [Val.typeOf, Ty.convertibleTo, Ty.eraseNames, Ty.beq_refl]
  · simp [Val.typeOf, Ty.convertibleTo, Ty.eraseNames, Ty.beq_refl]
  · simp [Val.typeOf, Ty.convertibleTo, Ty.eraseNames, Ty.beq_refl]
  · simp [Val.typeOf, Ty.convertibleTo, Ty.eraseNames, Ty.beq_refl]
  · simp [Val.typeOf, Ty.convertibleTo, Ty.eraseNames, Ty.beq_refl]
  · simp [Val.typeOf, Ty.convertibleTo, Ty.eraseNames, Ty.beq_refl]
  · simp [Val.typeOf, Ty.convertibleTo, Ty.eraseNames, Ty.beq_refl]
  · exact h

/-- Any value the map-entry logic decides to insert is assignable to
the mapping's declared value type, so `SetMapIndex` cannot abort. -/
theorem mapInsertVal_assignable (k1 v1 : Val) (vt : Ty) (w : Val)
    (hw : mapInsertVal k1 v1 vt = some w) :
    w.typeOf.assignableTo vt = true := by
  have hna : ∀ u : Val, u.typeOf.assignableTo vt =
      (u.typeOf.beq vt || u.typeOf.convertibleTo vt) := by
    intro u
    simp [Ty.assignableTo, typeOf_not_named u]
  unfold mapInsertVal at hw
  split at hw
  · cases hw
  · cases hw
  · split at hw
    · rename_i hbeq
      cases hw
      simp [hna, hbeq]
    · split at hw
      · rename_i hconv
        cases hw
        rw [hna]
        simp [convert_convertible v1 vt hconv]
      · split at hw
        · rename_i hass
          cases hw
          assumption
        · cases hw

/-- Every value inserted by the entry loop of `cloneMap` is assignable
to the declared value type. -/
theorem cloneEntries_assignable :
    ∀ (es : List (Val × Val)) (f : Nat) (st : St) (vt : Ty) (st2 : St)
      (es2 : List (Val × Val)),
      cloneEntries f st vt es = some (st2, es2) →
      ∀ p ∈ es2, (p.2).typeOf.assignableTo vt = true := by
  intro es
  induction es with
  | nil =>
      intro f st vt st2 es2 hrun p hp
      cases f with
      | zero => simp [cloneEntries] at hrun
      | succ g =>
          simp [cloneEntries] at hrun
          rw [hrun.2] at hp
          cases hp
  | cons kv rest ih =>
      intro f st vt st2 es2 hrun p hp
      obtain ⟨k, v⟩ := kv
      cases f with
      | zero => simp [cloneEntries] at hrun
      | succ g =>
          rw [cloneEntries] at hrun
          rcases h1 : cloneValue g st k with _ | ⟨st1, k1⟩
          · rw [h1] at hrun; simp at hrun
          · rw [h1] at hrun
            simp only [] at hrun
            rcases h2 : cloneValue g st1 v with _ | ⟨stv, v1⟩
            · rw [h2] at hrun; simp at hrun
            · rw [h2] at hrun
              simp only [] at hrun
              rcases h3 : mapInsertVal k1 v1 vt with _ | w
              · rw [h3] at hrun
                simp only [] at hrun
                exact ih g stv vt st2 es2 hrun p hp
              · rw [h3] at hrun
                simp only [] at hrun
                rcases h4 : cloneEntries g stv vt rest with _ | ⟨st3, es3⟩
                · rw [h4] at hrun; simp at hrun
                · rw [h4] at hrun
                  simp at hrun
                  rw [← hrun.2] at hp
                  rcases List.mem_cons.mp hp with hp1 | hp2
                  · rw [hp1]
                    exact mapInsertVal_assignable k1 v1 vt w h3
                  · exact ih g stv vt st3 es3 h4 p hp2

/-- **C6.** (i) For valid cloned keys and values, a map entry is
dropped exactly when the cloned value's type is neither the declared
value type, nor convertible, nor assignable to it; (ii) on a
visited-table miss, every value stored in the table produced by
`cloneMap` is assignable to the mapping's declared value type, so the
`SetMapIndex` assignment can never abort; (iii) concretely
(scenario F), a `map[string]*Property` holding a `*Schema`-typed entry
(identical underlying struct, distinct nominal identity) clones
without aborting to a map whose entry is a non-nil `*Property`
pointing at a fresh cell with the same field values as the source. -/
theorem C6_map_alias_conversion_no_abort :
    (∀ (k1 v1 : Val) (vt : Ty), k1 ≠ .invalidV → v1 ≠ .invalidV →
      (mapInsertVal k1 v1 vt = none ↔
        (v1.typeOf.beq vt = false ∧ v1.typeOf.convertibleTo vt = false ∧
         v1.typeOf.assignableTo vt = false))) ∧
    (∀ (f : Nat) (st : St) (kt vt kt2 vt2 : Ty) (a na : Nat) (st2 : St),
      alookup st.visited a = none →
      cloneMap (f+1) st kt vt a = some (st2, .mapV kt2 vt2 na) →
      ∀ p ∈ readTable st2.heap na, (p.2).typeOf.assignableTo vt = true) ∧
    (CloneFn 20
        [(0, Obj.table [(Val.strV "key",
            Val.ptrV (Ty.namedT 1 (Ty.structT [(true, Ty.stringT), (true, Ty.intT)])) 1)]),
         (1, Obj.cell (Val.structV [(true, Ty.stringT, Val.strV "test"),
                                    (true, Ty.intT, Val.intV 42)]))] 2
        (Val.mapV Ty.stringT
          (Ty.ptrT (Ty.namedT 1 (Ty.structT [(true, Ty.stringT), (true, Ty.intT)]))) 0) =
      some ([(0, Obj.table [(Val.strV "key",
                Val.ptrV (Ty.namedT 1 (Ty.structT [(true, Ty.stringT), (true, Ty.intT)])) 1)]),
             (1, Obj.cell (Val.structV [(true, Ty.stringT, Val.strV "test"),
                                        (true, Ty.intT, Val.intV 42)])),
             (2, Obj.table [(Val.strV "key",
                Val.ptrV (Ty.namedT 1 (Ty.structT [(true, Ty.stringT), (true, Ty.intT)])) 3)]),
             (3, Obj.cell (Val.structV [(true, Ty.stringT, Val.strV "test"),
                                        (true, Ty.intT, Val.intV 42)]))], 4,
        Val.mapV Ty.stringT
          (Ty.ptrT (Ty.namedT 1 (Ty.structT [(true, Ty.stringT), (true, Ty.intT)]))) 2)) := by
  refine ⟨?_, ?_, ?_⟩
  · intro k1 v1 vt hk hv
    constructor
    · intro hnone
      unfold mapInsertVal at hnone
      split at hnone
      · exact absurd rfl hk
      · exact absurd rfl hv
      · split at hnone
        · cases hnone
        · split at hnone
          · cases hnone
          · split at hnone
            · cases hnone
            · rename_i hb hc ha
              simp at hb hc ha
              exact ⟨hb, hc, ha⟩
    · intro ⟨hb, hc, ha⟩
      unfold mapInsertVal
      split
      · rfl
      · rfl
      · simp [hb, hc, ha]
  · intro f st kt vt kt2 vt2 a na st2 hmiss hrun p hp
    rw [cloneMap, hmiss] at hrun
    simp only [] at hrun
    rcases hE : cloneEntries f
        ⟨aset st.visited a (.mapV kt vt st.next), aset st.heap st.next (.table []),
         st.next + 1⟩ vt (readTable st.heap a) with _ | ⟨stE, es⟩
    · rw [hE] at hrun; simp at hrun
    · rw [hE] at hrun
      simp at hrun
      obtain ⟨hst2, hkt, hvt, hna⟩ := hrun
      rw [← hst2] at hp
      simp only at hp
      rw [← hna, readTable] at hp
      rw [alookup_aset_self] at hp
      exact cloneEntries_assignable _ _ _ _ _ _ hE p hp
  · simp [CloneFn, cloneReflect, unwrapIface, fastMapTy, cloneValue, cloneMap,
      cloneEntries, clonePointer, cloneStruct, cloneFields, cloneInterface,
      mapInsertVal, fieldActionOf, Ty.kind, readTable, readCell, alookup, aset,
      Val.typeOf, Val.convert, Ty.beq, Ty.convertibleTo, Ty.eraseNames, eraseNamesFields,
      beqFields, zeroVal, zeroFields, aset_aset, Ty.assignableTo, Ty.isNamed,
      writeCell, wrapIface, fieldAssign, orZero]

/-- Witness for C6's quantified parts: a dropped incompatible entry at
concrete types, and a concrete `cloneMap` run whose produced table
values are all assignable to the declared value type. -/
theorem C6_map_alias_conversion_no_abort_witness :
    (mapInsertVal (Val.strV "k") (Val.intV 1) Ty.stringT = none ↔
      ((Val.intV 1).typeOf.beq Ty.stringT = false ∧
       (Val.intV 1).typeOf.convertibleTo Ty.stringT = false ∧
       (Val.intV 1).typeOf.assignableTo Ty.stringT = false)) ∧
    (∀ p ∈ readTable [(0, Obj.table [(Val.strV "a", Val.intV 1)]),
                      (1, Obj.table [(Val.strV "a", Val.intV 1)])] 1,
      (p.2).typeOf.assignableTo Ty.intT = true) := by
  constructor
  · exact C6_map_alias_conversion_no_abort.1 (Val.strV "k") (Val.intV 1) Ty.stringT
      (by simp) (by simp)
  · exact C6_map_alias_conversion_no_abort.2.1 4
      ⟨[], [(0, Obj.table [(Val.strV "a", Val.intV 1)])], 1⟩
      Ty.stringT Ty.intT Ty.stringT Ty.intT 0 1
      ⟨[(0, Val.mapV Ty.stringT Ty.intT 1)],
       [(0, Obj.table [(Val.strV "a", Val.intV 1)]),
        (1, Obj.table [(Val.strV "a", Val.intV 1)])], 2⟩
      (by simp [alookup])
      (by simp [cloneMap, cloneEntries, cloneValue, mapInsertVal, readTable, alookup,
        aset, Val.typeOf, Ty.beq])

/-- **C7 counterexample.**  The claim says a channel appearing as a
field of an aggregate is replaced by the zero value of its type.  It is
not: a channel-typed struct field has the `copyField` action, so the
clone of `struct{C chan int}` carries the *same* non-zero channel
reference, which differs from the channel zero value. -/
theorem C7_chan_struct_field_not_zeroed :
    CloneFn 10 [] 0 (Val.structV [(true, Ty.chanT, Val.chanV 5)]) =
      some ([], 0, Val.structV [(true, Ty.chanT, Val.chanV 5)]) ∧
    Val.chanV 5 ≠ zeroVal Ty.chanT := by
  constructor
  · simp [CloneFn, cloneReflect, unwrapIface, cloneValue, cloneStruct, cloneFields,
      fieldActionOf, Ty.kind]
  · simp [zeroVal]

/-- **C7 amended.**  Channels reached by the walker's kind dispatch
(top level, container elements, pointees, interface inner values) are
replaced by the zero channel value; but a channel-typed aggregate field
has the COPY action and is copied by reference unchanged; function
references and opaque-address values are copied by reference unchanged
everywhere. -/
theorem C7_chan_zeroed_outside_struct_fields :
    (∀ (f : Nat) (st : St) (i : Nat),
        cloneValue (f+1) st (.chanV i) = some (st, .chanNil) ∧
        cloneValue (f+1) st .chanNil = some (st, .chanNil) ∧
        cloneValue (f+1) st (.funcV i) = some (st, .funcV i) ∧
        cloneValue (f+1) st (.unsafeV i) = some (st, .unsafeV i)) ∧
    (∀ (f : Nat) (st : St) (v : Val) (rest : List (Bool × Ty × Val))
        (st2 : St) (out : List (Bool × Ty × Val)),
        cloneFields (f+1) st ((true, .chanT, v) :: rest) = some (st2, out) →
        ∃ out1, out = (true, .chanT, v) :: out1) := by
  constructor
  · intro f st i
    refine ⟨?_, ?_, ?_, ?_⟩ <;> simp [cloneValue]
  · intro f st v rest st2 out hrun
    rw [cloneFields] at hrun
    simp only [fieldActionOf, Ty.kind] at hrun
    rcases hR : cloneFields f st rest with _ | ⟨st1, rest1⟩
    · rw [hR] at hrun; simp at hrun
    · rw [hR] at hrun
      simp at hrun
      exact ⟨rest1, hrun.2.symm⟩

/-- Witness for C7's amended theorem: a concrete struct field loop
keeping a live channel field unchanged. -/
theorem C7_chan_zeroed_outside_struct_fields_witness :
    (cloneValue 1 ⟨[], [], 0⟩ (.chanV 5) = some (⟨[], [], 0⟩, .chanNil)) ∧
    ∃ out1, [(true, Ty.chanT, Val.chanV 5)] = (true, Ty.chanT, Val.chanV 5) :: out1 := by
  constructor
  · exact (C7_chan_zeroed_outside_struct_fields.1 0 ⟨[], [], 0⟩ 5).1
  · exact C7_chan_zeroed_outside_struct_fields.2 1 ⟨[], [], 0⟩ (Val.chanV 5) []
      ⟨[], [], 0⟩ [(true, Ty.chanT, Val.chanV 5)]
      (by simp [cloneFields, fieldActionOf, Ty.kind])

mutual

/-- `Ty.beq` implies equality. -/
theorem Ty.eq_of_beq : ∀ a b : Ty, a.beq b = true → a = b
  | .intT, b => by cases b <;> simp [Ty.beq]
  | .i32T, b => by cases b <;> simp [Ty.beq]
  | .stringT, b => by cases b <;> simp [Ty.beq]
  | .boolT, b => by cases b <;> simp [Ty.beq]
  | .floatT, b => by cases b <;> simp [Ty.beq]
  | .chanT, b => by cases b <;> simp [Ty.beq]
  | .funcT, b => by cases b <;> simp [Ty.beq]
  | .unsafeT, b => by cases b <;> simp [Ty.beq]
  | .ptrT a, b => by
      cases b <;> simp [Ty.beq]
      exact fun h => Ty.eq_of_beq a _ h
  | .sliceT a, b => by
      cases b <;> simp [Ty.beq]
      exact fun h => Ty.eq_of_beq a _ h
  | .mapT k v, b => by
      cases b <;> simp [Ty.beq]
      exact fun h1 h2 => ⟨Ty.eq_of_beq k _ h1, Ty.eq_of_beq v _ h2⟩
  | .structT fs, b => by
      cases b <;> simp [Ty.beq]
      exact fun h => eqFields_of_beqFields fs _ h
  | .arrayT a m, b => by
      cases b <;> simp [Ty.beq]
      exact fun h1 h2 => ⟨Ty.eq_of_beq a _ h1, h2⟩
  | .ifaceT, b => by cases b <;> simp [Ty.beq]
  | .namedT i u, b => by
      cases b <;> simp [Ty.beq]
      exact fun h1 h2 => ⟨h1, Ty.eq_of_beq u _ h2⟩

/-- `beqFields` implies equality of field signatures. -/
theorem eqFields_of_beqFields : ∀ fs gs : List (Bool × Ty), beqFields fs gs = true → fs = gs
  | [], gs => by cases gs <;> simp [beqFields]
  | (e, t) :: r, gs => by
      cases gs with
      | nil => simp [beqFields]
      | cons g gs1 =>
          obtain ⟨e2, t2⟩ := g
          simp [beqFields]
          exact fun h1 h2 h3 => ⟨⟨h1, Ty.eq_of_beq t _ h2⟩, eqFields_of_beqFields r _ h3⟩

end

instance : DecidableEq Ty := fun a b =>
  if h : a.beq b = true then isTrue (Ty.eq_of_beq a b h)
  else isFalse (fun he => h (he ▸ Ty.beq_refl a))

/-- The struct type descriptor cached by `getStructTypeInfo`: the
parallel lists of field actions and field signatures. -/
structure StructTypeInfo where
  actions : List FieldAction
  fields : List (Bool × Ty)
deriving Repr

/-- The descriptor computation of `getStructTypeInfo`: unexported
fields get `copyField` (they are skipped at clone time); exported
fields get the action of their declared kind. -/
def computeStructInfo (fields : List (Bool × Ty)) : StructTypeInfo :=
  ⟨fields.map (fun f => if f.1 = false then FieldAction.copyField else fieldActionOf f.2),
   fields⟩

/-- Lookup in the process-wide `structCache`, keyed by interned type
identity. -/
def tlookup : List (Ty × StructTypeInfo) → Ty → Option StructTypeInfo
  | [], _ => none
  | (k, i) :: r, t => if k = t then some i else tlookup r t

/-- The write-locked critical section of `getStructTypeInfo`: the
double-check lookup, then compute-and-insert on a true miss.  The lock
makes this section atomic. -/
def cacheAcquire (c : List (Ty × StructTypeInfo)) (t : Ty)
    (fields : List (Bool × Ty)) : List (Ty × StructTypeInfo) × StructTypeInfo :=
  match tlookup c t with
  | some info => (c, info)
  | none => ((t, computeStructInfo fields) :: c, computeStructInfo fields)

/-- A full `getStructTypeInfo` call under concurrency: the read-locked
lookup observes some earlier cache state `r`; on a miss the write lock
is taken and the critical section runs against the (possibly newer)
state `c` left by other writers that won the race. -/
def getStructTypeInfo (r c : List (Ty × StructTypeInfo)) (t : Ty)
    (fields : List (Bool × Ty)) : List (Ty × StructTypeInfo) × StructTypeInfo :=
  match tlookup r t with
  | some info => (c, info)
  | none => cacheAcquire c t fields

/-- Number of cache entries recorded for a type. -/
def countKey (c : List (Ty × StructTypeInfo)) (t : Ty) : Nat :=
  c.countP (fun e => e.1 = t)

/-- Interleaved executions: because the critical section is atomic and
read hits do not mutate, every cache mutation in any concurrent
execution is one `cacheAcquire` step; a schedule is the sequence of
those steps. -/
def cacheRun : List (Ty × StructTypeInfo) → List (Ty × List (Bool × Ty)) →
    List (Ty × StructTypeInfo)
  | c, [] => c
  | c, (t, fs) :: ops => cacheRun (cacheAcquire c t fs).1 ops

theorem tlookup_none_countKey (c : List (Ty × StructTypeInfo)) (t : Ty)
    (h : tlookup c t = none) : countKey c t = 0 := by
  induction c with
  | nil => simp [countKey]
  | cons e r ih =>
      by_cases hk : e.1 = t
      · simp [tlookup, hk] at h
      · simp [tlookup, hk] at h
        simp [countKey, hk] at ih ⊢
        exact ih h

theorem countKey_cacheAcquire (c : List (Ty × StructTypeInfo)) (t u : Ty)
    (fs : List (Bool × Ty)) (hinv : countKey c u ≤ 1) :
    countKey (cacheAcquire c t fs).1 u ≤ 1 := by
  rcases hl : tlookup c t with _ | info
  · by_cases htu : t = u
    · subst htu
      have h0 := tlookup_none_countKey c t hl
      simp only [cacheAcquire, hl, countKey, List.countP_cons] at h0 ⊢
      simp [h0]
    · simp only [cacheAcquire, hl, countKey, List.countP_cons] at hinv ⊢
      simp [htu]
      simpa using hinv
  · simp only [cacheAcquire, hl]
    exact hinv

/-- **C8.** (i) Starting from the empty cache, after any interleaving
of critical sections (for any mix of struct types), the cache holds at
most one descriptor per type; (ii) a read-lock hit returns the
published descriptor and leaves the cache untouched; (iii) a writer
that lost the double-checked race (read miss, but the type appears in
the cache once the write lock is held) returns the already-published
descriptor and does not insert a second one; (iv) a true miss
publishes exactly the computed descriptor. -/
theorem C8_cache_single_entry_per_type :
    (∀ (ops : List (Ty × List (Bool × Ty))) (t : Ty),
        countKey (cacheRun [] ops) t ≤ 1) ∧
    (∀ (r c : List (Ty × StructTypeInfo)) (t : Ty) (fs : List (Bool × Ty))
        (info : StructTypeInfo), tlookup r t = some info →
        getStructTypeInfo r c t fs = (c, info)) ∧
    (∀ (r c : List (Ty × StructTypeInfo)) (t : Ty) (fs : List (Bool × Ty))
        (info : StructTypeInfo), tlookup r t = none → tlookup c t = some info →
        getStructTypeInfo r c t fs = (c, info)) ∧
    (∀ (r c : List (Ty × StructTypeInfo)) (t : Ty) (fs : List (Bool × Ty)),
        tlookup r t = none → tlookup c t = none →
        getStructTypeInfo r c t fs =
          ((t, computeStructInfo fs) :: c, computeStructInfo fs)) := by
  refine ⟨?_, ?_, ?_, ?_⟩
  · have main : ∀ (ops : List (Ty × List (Bool × Ty))) (c : List (Ty × StructTypeInfo)),
        (∀ u, countKey c u ≤ 1) → ∀ t, countKey (cacheRun c ops) t ≤ 1 := by
      intro ops
      induction ops with
      | nil => intro c hc t; simpa [cacheRun] using hc t
      | cons op rest ih =>
          intro c hc t
          obtain ⟨ot, ofs⟩ := op
          rw [cacheRun]
          exact ih _ (fun u => countKey_cacheAcquire c ot u ofs (hc u)) t
    intro ops t
    exact main ops [] (fun u => by simp [countKey]) t
  · intro r c t fs info h
    simp [getStructTypeInfo, h]
  · intro r c t fs info hr hc
    simp [getStructTypeInfo, cacheAcquire, hr, hc]
  · intro r c t fs hr hc
    simp [getStructTypeInfo, cacheAcquire, hr, hc]

/-- Witness for C8 at a concrete type and schedule: two competing
insertions of the `Counter` struct type leave one entry, and a
lost-race writer returns the published descriptor. -/
theorem C8_cache_single_entry_per_type_witness :
    countKey (cacheRun [] [(counterTy, [(true, Ty.intT), (true, Ty.stringT)]),
                           (counterTy, [(true, Ty.intT), (true, Ty.stringT)])]) counterTy ≤ 1 ∧
    getStructTypeInfo [] [(counterTy, computeStructInfo [(true, Ty.intT), (true, Ty.stringT)])]
        counterTy [(true, Ty.intT), (true, Ty.stringT)] =
      ([(counterTy, computeStructInfo [(true, Ty.intT), (true, Ty.stringT)])],
       computeStructInfo [(true, Ty.intT), (true, Ty.stringT)]) := by
  constructor
  · exact C8_cache_single_entry_per_type.1 _ counterTy
  · exact C8_cache_single_entry_per_type.2.2.1 [] _ counterTy _ _
      (by simp [tlookup]) (by simp [tlookup])

/-! ## The frame property: the walker never mutates pre-existing heap objects -/

/-- Every allocated heap address lies below the fresh-address counter
(true of any state whose heap was built by the allocator). -/
def heapBounded (st : St) : Prop :=
  ∀ a, (alookup st.heap a).isSome = true → a < st.next

/-- Relation between the context at entry and at exit of a walker
call: the allocator only moves forward, boundedness is maintained, and
every heap entry that existed at entry (address below the entry
counter) is unchanged at exit. -/
def Frame (st st2 : St) : Prop :=
  heapBounded st2 ∧ st.next ≤ st2.next ∧
    ∀ a, a < st.next → alookup st2.heap a = alookup st.heap a

theorem frame_refl (st : St) (hb : heapBounded st) : Frame st st :=
  ⟨hb, Nat.le_refl _, fun _ _ => rfl⟩

theorem frame_trans {st1 st2 st3 : St} (h12 : Frame st1 st2) (h23 : Frame st2 st3) :
    Frame st1 st3 := by
  obtain ⟨b2, n12, p12⟩ := h12
  obtain ⟨b3, n23, p23⟩ := h23
  exact ⟨b3, Nat.le_trans n12 n23,
    fun a ha => (p23 a (Nat.lt_of_lt_of_le ha n12)).trans (p12 a ha)⟩

theorem isSome_alookup_aset {α : Type} (l : List (Nat × α)) (k a : Nat) (v : α)
    (h : (alookup (aset l k v) a).isSome = true) :
    a = k ∨ (alookup l a).isSome = true := by
  by_cases hk : a = k
  · exact Or.inl hk
  · right
    rwa [alookup_aset_ne l k a v (fun he => hk he.symm)] at h

/-- Allocating a fresh object at the current counter (with any visited
table) is a frame extension. -/
theorem frame_alloc (st : St) (vis : List (Nat × Val)) (o : Obj)
    (hb : heapBounded st) :
    Frame st ⟨vis, aset st.heap st.next o, st.next + 1⟩ := by
  refine ⟨?_, by show st.next ≤ st.next + 1; omega, ?_⟩
  · intro a ha
    rcases isSome_alookup_aset _ _ _ _ ha with h | h
    · show a < st.next + 1
      omega
    · have := hb a h
      show a < st.next + 1
      omega
  · intro a ha
    exact alookup_aset_ne _ _ _ _ (by omega)

/-- Writing back into the object allocated at the entry counter
preserves the frame from the entry state. -/
theorem frame_write_old (st0 st2 : St) (o : Obj) (hfr : Frame st0 st2)
    (hn : st0.next < st2.next) :
    Frame st0 ⟨st2.visited, aset st2.heap st0.next o, st2.next⟩ := by
  obtain ⟨b2, n02, p02⟩ := hfr
  refine ⟨?_, by show st0.next ≤ st2.next; exact n02, ?_⟩
  · intro a ha
    rcases isSome_alookup_aset _ _ _ _ ha with h | h
    · show a < st2.next
      omega
    · have := b2 a h
      show a < st2.next
      omega
  · intro a ha
    rw [alookup_aset_ne _ _ _ _ (by omega)]
    exact p02 a ha

/-- Writing the cloned pointee back into the cell allocated at the entry
counter preserves the frame (an invalid clone skips the write). -/
theorem frame_writeCell (st0 st3 : St) (w : Val) (hfr : Frame st0 st3)
    (hn : st0.next < st3.next) : Frame st0 (writeCell st3 st0.next w) := by
  cases w <;> simp only [writeCell] <;>
    first
      | exact hfr
      | exact frame_write_old st0 st3 _ hfr hn

/-- The frame property of every walker operation, by induction on the
fuel: whatever the walker returns, every heap object that existed at
entry is untouched at exit, and allocation only moves forward. -/
theorem frame_main : ∀ f : Nat,
    (∀ st v st2 r, heapBounded st → cloneValue f st v = some (st2, r) → Frame st st2) ∧
    (∀ st e a st2 r, heapBounded st → clonePointer f st e a = some (st2, r) → Frame st st2) ∧
    (∀ st e d l c st2 r, heapBounded st → cloneSlice f st e d l c = some (st2, r) → Frame st st2) ∧
    (∀ st kt vt a st2 r, heapBounded st → cloneMap f st kt vt a = some (st2, r) → Frame st st2) ∧
    (∀ st vt es st2 es2, heapBounded st → cloneEntries f st vt es = some (st2, es2) → Frame st st2) ∧
    (∀ st fs st2 r, heapBounded st → cloneStruct f st fs = some (st2, r) → Frame st st2) ∧
    (∀ st fs st2 fs2, heapBounded st → cloneFields f st fs = some (st2, fs2) → Frame st st2) ∧
    (∀ st e es st2 r, heapBounded st → cloneArray f st e es = some (st2, r) → Frame st st2) ∧
    (∀ st v st2 r, heapBounded st → cloneInterface f st v = some (st2, r) → Frame st st2) ∧
    (∀ st vs st2 vs2, heapBounded st → cloneList f st vs = some (st2, vs2) → Frame st st2) := by
  intro f
  induction f with
  | zero =>
      refine ⟨?_, ?_, ?_, ?_, ?_, ?_, ?_, ?_, ?_, ?_⟩
      · intro st v st2 r _ hrun; simp [cloneValue] at hrun
      · intro st e a st2 r _ hrun; simp [clonePointer] at hrun
      · intro st e d l c st2 r _ hrun; simp [cloneSlice] at hrun
      · intro st kt vt a st2 r _ hrun; simp [cloneMap] at hrun
      · intro st vt es st2 es2 _ hrun; simp [cloneEntries] at hrun
      · intro st fs st2 r _ hrun; simp [cloneStruct] at hrun
      · intro st fs st2 fs2 _ hrun; simp [cloneFields] at hrun
      · intro st e es st2 r _ hrun; simp [cloneArray] at hrun
      · intro st v st2 r _ hrun; simp [cloneInterface] at hrun
      · intro st vs st2 vs2 _ hrun; simp [cloneList] at hrun
  | succ g ih =>
      obtain ⟨ihV, ihP, ihS, ihM, ihE, ihSt, ihF, ihA, ihI, ihL⟩ := ih
      have compP : ∀ st e a st2 r, heapBounded st →
          clonePointer (g+1) st e a = some (st2, r) → Frame st st2 := by
        intro st e a st2 r hb hrun
        rw [clonePointer] at hrun
        rcases hv : alookup st.visited a with _ | c
        · rw [hv] at hrun
          simp only [] at hrun
          rcases hc : cloneValue g
              ⟨aset st.visited a (.ptrV e st.next),
               aset st.heap st.next (.cell (zeroVal e)), st.next + 1⟩
              (readCell st.heap a) with _ | ⟨st3, w⟩
          · rw [hc] at hrun; simp at hrun
          · rw [hc] at hrun
            simp at hrun
            obtain ⟨rfl, rfl⟩ := hrun
            have hf1 : Frame st ⟨aset st.visited a (.ptrV e st.next),
                aset st.heap st.next (.cell (zeroVal e)), st.next + 1⟩ :=
              frame_alloc st _ _ hb
            have hf2 : Frame ⟨aset st.visited a (.ptrV e st.next),
                aset st.heap st.next (.cell (zeroVal e)), st.next + 1⟩ st3 :=
              ihV _ _ _ _ hf1.1 hc
            have hf3 : Frame st st3 := frame_trans hf1 hf2
            have hlt : st.next < st3.next := by
              have := hf2.2.1
              simp only [] at this
              omega
            exact frame_writeCell st st3 w hf3 hlt
        · rw [hv] at hrun
          simp at hrun
          obtain ⟨rfl, rfl⟩ := hrun
          exact frame_refl st hb
      have compS : ∀ st e d l c st2 r, heapBounded st →
          cloneSlice (g+1) st e d l c = some (st2, r) → Frame st st2 := by
        intro st e d l c st2 r hb hrun
        rw [cloneSlice] at hrun
        simp only [] at hrun
        rcases hcs : cachedSlice st (needsTrackingK e) d l c with _ | cv
        · rw [hcs] at hrun
          simp only [] at hrun
          rcases hl : cloneList g
              ⟨(if needsTrackingK e = true then aset st.visited d (.sliceV e st.next l c)
                else st.visited),
               aset st.heap st.next (.arr (List.replicate c (zeroVal e))), st.next + 1⟩
              ((readArr st.heap d).take l) with _ | ⟨st3, es⟩
          · rw [hl] at hrun; simp at hrun
          · rw [hl] at hrun
            simp at hrun
            obtain ⟨rfl, rfl⟩ := hrun
            have hf1 : Frame st ⟨(if needsTrackingK e = true
                then aset st.visited d (.sliceV e st.next l c) else st.visited),
                aset st.heap st.next (.arr (List.replicate c (zeroVal e))), st.next + 1⟩ :=
              frame_alloc st _ _ hb
            have hf2 := ihL _ _ _ _ hf1.1 hl
            have hf3 : Frame st st3 := frame_trans hf1 hf2
            have hlt : st.next < st3.next := by
              have := hf2.2.1
              simp only [] at this
              omega
            exact frame_write_old st st3 _ hf3 hlt
        · rw [hcs] at hrun
          simp at hrun
          obtain ⟨rfl, rfl⟩ := hrun
          exact frame_refl st hb
      have compM : ∀ st kt vt a st2 r, heapBounded st →
          cloneMap (g+1) st kt vt a = some (st2, r) → Frame st st2 := by
        intro st kt vt a st2 r hb hrun
        rw [cloneMap] at hrun
        rcases hv : alookup st.visited a with _ | c
        · rw [hv] at hrun
          simp only [] at hrun
          rcases he : cloneEntries g
              ⟨aset st.visited a (.mapV kt vt st.next),
               aset st.heap st.next (.table []), st.next + 1⟩ vt
              (readTable st.heap a) with _ | ⟨st3, es⟩
          · rw [he] at hrun; simp at hrun
          · rw [he] at hrun
            simp at hrun
            obtain ⟨rfl, rfl⟩ := hrun
            have hf1 : Frame st ⟨aset st.visited a (.mapV kt vt st.next),
                aset st.heap st.next (.table []), st.next + 1⟩ :=
              frame_alloc st _ _ hb
            have hf2 := ihE _ _ _ _ _ hf1.1 he
            have hf3 : Frame st st3 := frame_trans hf1 hf2
            have hlt : st.next < st3.next := by
              have := hf2.2.1
              simp only [] at this
              omega
            exact frame_write_old st st3 _ hf3 hlt
        · rw [hv] at hrun
          simp at hrun
          obtain ⟨rfl, rfl⟩ := hrun
          exact frame_refl st hb
      have compE : ∀ st vt es st2 es2, heapBounded st →
          cloneEntries (g+1) st vt es = some (st2, es2) → Frame st st2 := by
        intro st vt es st2 es2 hb hrun
        cases es with
        | nil =>
            simp [cloneEntries] at hrun
            obtain ⟨rfl, rfl⟩ := hrun
            exact frame_refl st hb
        | cons kv rest =>
            obtain ⟨k, v⟩ := kv
            rw [cloneEntries] at hrun
            rcases h1 : cloneValue g st k with _ | ⟨st1, k1⟩
            · rw [h1] at hrun; simp at hrun
            · rw [h1] at hrun
              simp only [] at hrun
              rcases h2 : cloneValue g st1 v with _ | ⟨stv, v1⟩
              · rw [h2] at hrun; simp at hrun
              · rw [h2] at hrun
                simp only [] at hrun
                have hfa : Frame st st1 := ihV _ _ _ _ hb h1
                have hfb : Frame st1 stv := ihV _ _ _ _ hfa.1 h2
                have hfc : Frame st stv := frame_trans hfa hfb
                rcases h3 : mapInsertVal k1 v1 vt with _ | w
                · rw [h3] at hrun
                  simp only [] at hrun
                  exact frame_trans hfc (ihE _ _ _ _ _ hfc.1 hrun)
                · rw [h3] at hrun
                  simp only [] at hrun
                  rcases h4 : cloneEntries g stv vt rest with _ | ⟨st3, es3⟩
                  · rw [h4] at hrun; simp at hrun
                  · rw [h4] at hrun
                    simp at hrun
                    obtain ⟨rfl, rfl⟩ := hrun
                    exact frame_trans hfc (ihE _ _ _ _ _ hfc.1 h4)
      have compF : ∀ st fs st2 fs2, heapBounded st →
          cloneFields (g+1) st fs = some (st2, fs2) → Frame st st2 := by
        intro st fs st2 fs2 hb hrun
        cases fs with
        | nil =>
            simp [cloneFields] at hrun
            obtain ⟨rfl, rfl⟩ := hrun
            exact frame_refl st hb
        | cons fld rest =>
            obtain ⟨ex, t, v⟩ := fld
            rw [cloneFields] at hrun
            by_cases hex : ex = false
            · rw [if_pos hex] at hrun
              rcases hR : cloneFields g st rest with _ | ⟨st1, rest1⟩
              · rw [hR] at hrun; simp at hrun
              · rw [hR] at hrun
                simp at hrun
                obtain ⟨rfl, rfl⟩ := hrun
                exact ihF _ _ _ _ hb hR
            · rw [if_neg hex] at hrun
              rcases hact : fieldActionOf t with _ | _
              · rw [hact] at hrun
                simp only [] at hrun
                rcases hR : cloneFields g st rest with _ | ⟨st1, rest1⟩
                · rw [hR] at hrun; simp at hrun
                · rw [hR] at hrun
                  simp at hrun
                  obtain ⟨rfl, rfl⟩ := hrun
                  exact ihF _ _ _ _ hb hR
              · rw [hact] at hrun
                simp only [] at hrun
                rcases h1 : cloneValue g st v with _ | ⟨st1, v1⟩
                · rw [h1] at hrun; simp at hrun
                · rw [h1] at hrun
                  simp only [] at hrun
                  rcases hR : cloneFields g st1 rest with _ | ⟨st3, rest1⟩
                  · rw [hR] at hrun; simp at hrun
                  · rw [hR] at hrun
                    simp at hrun
                    obtain ⟨rfl, rfl⟩ := hrun
                    have hfa : Frame st st1 := ihV _ _ _ _ hb h1
                    exact frame_trans hfa (ihF _ _ _ _ hfa.1 hR)
      have compL : ∀ st vs st2 vs2, heapBounded st →
          cloneList (g+1) st vs = some (st2, vs2) → Frame st st2 := by
        intro st vs st2 vs2 hb hrun
        cases vs with
        | nil =>
            simp [cloneList] at hrun
            obtain ⟨rfl, rfl⟩ := hrun
            exact frame_refl st hb
        | cons v vsr =>
            rw [cloneList] at hrun
            rcases h1 : cloneValue g st v with _ | ⟨st1, v1⟩
            · rw [h1] at hrun; simp at hrun
            · rw [h1] at hrun
              simp only [] at hrun
              rcases h2 : cloneList g st1 vsr with _ | ⟨st3, vs3⟩
              · rw [h2] at hrun; simp at hrun
              · rw [h2] at hrun
                simp at hrun
                obtain ⟨rfl, rfl⟩ := hrun
                have hfa : Frame st st1 := ihV _ _ _ _ hb h1
                exact frame_trans hfa (ihL _ _ _ _ hfa.1 h2)
      have compSt : ∀ st fs st2 r, heapBounded st →
          cloneStruct (g+1) st fs = some (st2, r) → Frame st st2 := by
        intro st fs st2 r hb hrun
        rw [cloneStruct] at hrun
        rcases hF : cloneFields g st fs with _ | ⟨st1, fs1⟩
        · rw [hF] at hrun; simp at hrun
        · rw [hF] at hrun
          simp at hrun
          obtain ⟨rfl, rfl⟩ := hrun
          exact ihF _ _ _ _ hb hF
      have compA : ∀ st e es st2 r, heapBounded st →
          cloneArray (g+1) st e es = some (st2, r) → Frame st st2 := by
        intro st e es st2 r hb hrun
        rw [cloneArray] at hrun
        rcases hL : cloneList g st es with _ | ⟨st1, es1⟩
        · rw [hL] at hrun; simp at hrun
        · rw [hL] at hrun
          simp at hrun
          obtain ⟨rfl, rfl⟩ := hrun
          exact ihL _ _ _ _ hb hL
      have compI : ∀ st v st2 r, heapBounded st →
          cloneInterface (g+1) st v = some (st2, r) → Frame st st2 := by
        intro st v st2 r hb hrun
        rw [cloneInterface] at hrun
        rcases h1 : cloneValue g st v with _ | ⟨st1, w⟩
        · rw [h1] at hrun; simp at hrun
        · rw [h1] at hrun
          simp at hrun
          obtain ⟨rfl, rfl⟩ := hrun
          exact ihV _ _ _ _ hb h1
      have compV : ∀ st v st2 r, heapBounded st →
          cloneValue (g+1) st v = some (st2, r) → Frame st st2 := by
        intro st v st2 r hb hrun
        cases v with
        | intV n => simp [cloneValue] at hrun; obtain ⟨rfl, rfl⟩ := hrun; exact frame_refl st hb
        | i32V n => simp [cloneValue] at hrun; obtain ⟨rfl, rfl⟩ := hrun; exact frame_refl st hb
        | strV s => simp [cloneValue] at hrun; obtain ⟨rfl, rfl⟩ := hrun; exact frame_refl st hb
        | boolV b => simp [cloneValue] at hrun; obtain ⟨rfl, rfl⟩ := hrun; exact frame_refl st hb
        | floatV q => simp [cloneValue] at hrun; obtain ⟨rfl, rfl⟩ := hrun; exact frame_refl st hb
        | chanNil => simp [cloneValue] at hrun; obtain ⟨rfl, rfl⟩ := hrun; exact frame_refl st hb
        | chanV i => simp [cloneValue] at hrun; obtain ⟨rfl, rfl⟩ := hrun; exact frame_refl st hb
        | funcNil => simp [cloneValue] at hrun; obtain ⟨rfl, rfl⟩ := hrun; exact frame_refl st hb
        | funcV i => simp [cloneValue] at hrun; obtain ⟨rfl, rfl⟩ := hrun; exact frame_refl st hb
        | unsafeV i => simp [cloneValue] at hrun; obtain ⟨rfl, rfl⟩ := hrun; exact frame_refl st hb
        | ptrNil e => simp [cloneValue] at hrun; obtain ⟨rfl, rfl⟩ := hrun; exact frame_refl st hb
        | ptrV e a =>
            simp only [cloneValue] at hrun
            exact ihP _ _ _ _ _ hb hrun
        | sliceNil e => simp [cloneValue] at hrun; obtain ⟨rfl, rfl⟩ := hrun; exact frame_refl st hb
        | sliceV e d l c =>
            simp only [cloneValue] at hrun
            exact ihS _ _ _ _ _ _ _ hb hrun
        | mapNil kt vt => simp [cloneValue] at hrun; obtain ⟨rfl, rfl⟩ := hrun; exact frame_refl st hb
        | mapV kt vt a =>
            simp only [cloneValue] at hrun
            exact ihM _ _ _ _ _ _ hb hrun
        | structV fs =>
            simp only [cloneValue] at hrun
            exact ihSt _ _ _ _ hb hrun
        | arrV e es =>
            simp only [cloneValue] at hrun
            exact ihA _ _ _ _ _ hb hrun
        | ifaceNil => simp [cloneValue] at hrun; obtain ⟨rfl, rfl⟩ := hrun; exact frame_refl st hb
        | ifaceV inner =>
            simp only [cloneValue] at hrun
            exact ihI _ _ _ _ hb hrun
        | counterV n s => simp [cloneValue] at hrun; obtain ⟨rfl, rfl⟩ := hrun; exact frame_refl st hb
        | invalidV => simp [cloneValue] at hrun; obtain ⟨rfl, rfl⟩ := hrun; exact frame_refl st hb
      exact ⟨compV, compP, compS, compM, compE, compSt, compF, compA, compI, compL⟩

/-- The reflective engine entry preserves every pre-existing heap
object. -/
theorem cloneReflect_frame (fuel : Nat) (h : List (Nat × Obj)) (nx : Nat)
    (v : Val) (h2 : List (Nat × Obj)) (nx2 : Nat) (r : Val)
    (hb : heapBounded ⟨[], h, nx⟩)
    (hrun : cloneReflect fuel h nx v = some (h2, nx2, r)) :
    ∀ a, a < nx → alookup h2 a = alookup h a := by
  intro a ha
  rw [cloneReflect] at hrun
  rcases hc : cloneValue fuel ⟨[], h, nx⟩ v with _ | ⟨st, w⟩
  · rw [hc] at hrun; simp at hrun
  · rw [hc] at hrun
    have hfr : Frame ⟨[], h, nx⟩ st := (frame_main fuel).1 _ _ _ _ hb hc
    have hp : alookup st.heap a = alookup h a := hfr.2.2 a ha
    cases w <;> simp at hrun <;> rw [← hrun.1] <;> exact hp

/-- **C10.** `Clone` never mutates its argument: whatever the dispatch
path (scalar, fast-path slice or map, capability hook, nil, or the
reflective walker), every heap object that existed when `Clone` was
invoked — the source value and everything reachable from it — is
unchanged in the returned heap. -/
theorem C10_clone_never_mutates_source (fuel : Nat) (h : List (Nat × Obj))
    (nx : Nat) (src : Val) (h2 : List (Nat × Obj)) (nx2 : Nat) (r : Val)
    (hb : ∀ a, (alookup h a).isSome = true → a < nx)
    (hrun : CloneFn fuel h nx src = some (h2, nx2, r)) :
    ∀ a, a < nx → alookup h2 a = alookup h a := by
  intro a ha
  have hbs : heapBounded ⟨[], h, nx⟩ := hb
  have haset : ∀ o : Obj, alookup (aset h nx o) a = alookup h a :=
    fun o => alookup_aset_ne _ _ _ _ (by omega)
  rw [CloneFn] at hrun
  cases hu : unwrapIface src with
  | intV n => rw [hu] at hrun; simp at hrun; rw [← hrun.1]
  | i32V n => rw [hu] at hrun; simp at hrun; rw [← hrun.1]
  | strV s => rw [hu] at hrun; simp at hrun; rw [← hrun.1]
  | boolV b => rw [hu] at hrun; simp at hrun; rw [← hrun.1]
  | floatV q => rw [hu] at hrun; simp at hrun; rw [← hrun.1]
  | chanNil =>
      rw [hu] at hrun; simp only [] at hrun
      exact cloneReflect_frame _ _ _ _ _ _ _ hbs hrun a ha
  | chanV i =>
      rw [hu] at hrun; simp only [] at hrun
      exact cloneReflect_frame _ _ _ _ _ _ _ hbs hrun a ha
  | funcNil =>
      rw [hu] at hrun; simp only [] at hrun
      exact cloneReflect_frame _ _ _ _ _ _ _ hbs hrun a ha
  | funcV i =>
      rw [hu] at hrun; simp only [] at hrun
      exact cloneReflect_frame _ _ _ _ _ _ _ hbs hrun a ha
  | unsafeV i =>
      rw [hu] at hrun; simp only [] at hrun
      exact cloneReflect_frame _ _ _ _ _ _ _ hbs hrun a ha
  | ptrNil e => rw [hu] at hrun; simp at hrun; rw [← hrun.1]
  | ptrV e a1 =>
      rw [hu] at hrun; simp only [] at hrun
      exact cloneReflect_frame _ _ _ _ _ _ _ hbs hrun a ha
  | sliceNil e =>
      rw [hu] at hrun
      simp only [] at hrun
      by_cases hf : fastSliceElem e = true
      · rw [if_pos hf] at hrun
        simp [cloneSliceExact] at hrun
        rw [← hrun.1]
      · rw [if_neg hf] at hrun
        exact cloneReflect_frame _ _ _ _ _ _ _ hbs hrun a ha
  | sliceV e d l c =>
      rw [hu] at hrun
      simp only [] at hrun
      by_cases hf : fastSliceElem e = true
      · rw [if_pos hf] at hrun
        simp [cloneSliceExact] at hrun
        rw [← hrun.1]
        exact haset _
      · rw [if_neg hf] at hrun
        exact cloneReflect_frame _ _ _ _ _ _ _ hbs hrun a ha
  | mapNil kt vt =>
      rw [hu] at hrun
      simp only [] at hrun
      by_cases hf : fastMapTy (.mapT kt vt) = true
      · rw [if_pos hf] at hrun
        simp at hrun
        rw [← hrun.1]
      · rw [if_neg hf] at hrun
        exact cloneReflect_frame _ _ _ _ _ _ _ hbs hrun a ha
  | mapV kt vt a1 =>
      rw [hu] at hrun
      simp only [] at hrun
      by_cases hf : fastMapTy (.mapT kt vt) = true
      · rw [if_pos hf] at hrun
        simp [mapsClone] at hrun
        rw [← hrun.1]
        exact haset _
      · rw [if_neg hf] at hrun
        exact cloneReflect_frame _ _ _ _ _ _ _ hbs hrun a ha
  | structV fs =>
      rw [hu] at hrun; simp only [] at hrun
      exact cloneReflect_frame _ _ _ _ _ _ _ hbs hrun a ha
  | arrV e es =>
      rw [hu] at hrun; simp only [] at hrun
      exact cloneReflect_frame _ _ _ _ _ _ _ hbs hrun a ha
  | ifaceNil => rw [hu] at hrun; simp at hrun; rw [← hrun.1]
  | ifaceV inner =>
      rw [hu] at hrun; simp only [] at hrun
      exact cloneReflect_frame _ _ _ _ _ _ _ hbs hrun a ha
  | counterV n s => rw [hu] at hrun; simp at hrun; rw [← hrun.1]
  | invalidV => rw [hu] at hrun; simp at hrun; rw [← hrun.1]

/-- Witness for C10 at the concrete self-referencing pointer run: the
source cell at address 0 is unchanged in the returned heap. -/
theorem C10_clone_never_mutates_source_witness :
    alookup ([(0, Obj.cell (Val.ptrV Ty.intT 0)), (1, Obj.cell (Val.ptrV Ty.intT 1))]
        : List (Nat × Obj)) 0 =
      alookup ([(0, Obj.cell (Val.ptrV Ty.intT 0))] : List (Nat × Obj)) 0 := by
  have := C10_clone_never_mutates_source 10 [(0, Obj.cell (Val.ptrV Ty.intT 0))] 1
    (Val.ptrV Ty.intT 0)
    [(0, Obj.cell (Val.ptrV Ty.intT 0)), (1, Obj.cell (Val.ptrV Ty.intT 1))] 2
    (Val.ptrV Ty.intT 1)
    (by intro a hsome
        by_cases h0 : (0 : Nat) = a
        · omega
        · simp [alookup, h0] at hsome)
    C1_visited_identity_and_cycles.2.1
  exact this 0 (by omega)

/-! ## Structural equality via depth-indexed denotations

`den n h v` unfolds the object graph rooted at `v` to depth `n`,
reading pointer cells, slice backings and map tables from the heap.
Two rooted graphs are structurally equal when all their truncations
agree (this captures equality of possibly cyclic graphs).  Nominal
type tags are not part of the denotation, capacities are not observed
(`reflect.DeepEqual` ignores them), and — since the engine leaves
unexported fields at their zero value by design — only exported struct
fields are denoted. -/

/-- Depth-truncated unfoldings of a heap value. -/
inductive GTree where
  | bot
  | leafI (n : Int)
  | leafI32 (n : Int)
  | leafS (s : String)
  | leafB (b : Bool)
  | leafF (q : Int)
  | leafChan (id : Option Nat)
  | leafFunc (id : Option Nat)
  | leafUnsafe (id : Nat)
  | ptrNilD
  | ptrD (pointee : GTree)
  | sliceNilD
  | sliceD (elems : List GTree)
  | mapNilD
  | mapD (entries : List (GTree × GTree))
  | structD (fields : List GTree)
  | arrD (elems : List GTree)
  | ifaceNilD
  | ifaceD (inner : GTree)
  | counterD (value : Int) (name : String)
  | invalidD
deriving Repr

/-- The depth-`n` unfolding of a value over a heap. -/
def den : Nat → List (Nat × Obj) → Val → GTree
  | 0, _, _ => .bot
  | n+1, h, v =>
    match v with
    | .intV k => .leafI k
    | .i32V k => .leafI32 k
    | .strV s => .leafS s
    | .boolV b => .leafB b
    | .floatV q => .leafF q
    | .chanNil => .leafChan none
    | .chanV i => .leafChan (some i)
    | .funcNil => .leafFunc none
    | .funcV i => .leafFunc (some i)
    | .unsafeV i => .leafUnsafe i
    | .ptrNil _ => .ptrNilD
    | .ptrV _ a => .ptrD (den n h (readCell h a))
    | .sliceNil _ => .sliceNilD
    | .sliceV _ d l _ => .sliceD (((readArr h d).take l).map (fun w => den n h w))
    | .mapNil _ _ => .mapNilD
    | .mapV _ _ a => .mapD ((readTable h a).map (fun p => (den n h p.1, den n h p.2)))
    | .structV fs => .structD ((fs.filter (fun f => f.1 = true)).map (fun f => den n h f.2.2))
    | .arrV _ es => .arrD (es.map (fun w => den n h w))
    | .ifaceNil => .ifaceNilD
    | .ifaceV w => .ifaceD (den n h w)
    | .counterV k s => .counterD k s
    | .invalidV => .invalidD
termination_by n _ _ => n

/-- Structural equality of rooted heap values: all depth-truncations
agree. -/
def structEq (h1 : List (Nat × Obj)) (v1 : Val) (h2 : List (Nat × Obj)) (v2 : Val) : Prop :=
  ∀ n, den n h1 v1 = den n h2 v2

/-- **C2 counterexample.**  The claim says the result of `Clone` is
structurally equal to the source for *every* source value.  A live
channel refutes it: `Clone` of a channel returns the zero (nil)
channel, which is not structurally equal to the source channel. -/
theorem C2_channel_clone_not_equal :
    CloneFn 10 [] 0 (Val.chanV 5) = some ([], 0, Val.chanNil) ∧
    ¬ structEq [] Val.chanNil [] (Val.chanV 5) := by
  constructor
  · simp [CloneFn, cloneReflect, unwrapIface, cloneValue]
  · intro hEq
    have h1 := hEq 1
    simp [den] at h1

/-- **C9 counterexample.**  The claim says `Clone (Clone x)` is
structurally equal to `Clone x` for *every* `x`.  The repository's own
`Counter` example type (a `Cloneable` implementor whose hook increments
`Value` and suffixes `Name`) refutes it: two applications increment
twice. -/
theorem C9_counter_hook_not_idempotent :
    CloneFn 10 [] 0 (Val.counterV 10 "main") = some ([], 0, Val.counterV 11 "main_copy") ∧
    CloneFn 10 [] 0 (Val.counterV 11 "main_copy") =
      some ([], 0, Val.counterV 12 "main_copy_copy") ∧
    ¬ structEq [] (Val.counterV 12 "main_copy_copy") [] (Val.counterV 11 "main_copy") := by
  refine ⟨?_, ?_, ?_⟩
  · simp [CloneFn, unwrapIface]
  · simp [CloneFn, unwrapIface]
  · intro hEq
    have h1 := hEq 1
    simp [den] at h1

/-! ## The clone relation and its coherence invariants -/

/-- Ghost pairing of source storage addresses with their clones:
pointer cells, slice backings (with the pairing length), map tables. -/
structure GPairs where
  cells : List (Nat × Nat)
  arrs : List (Nat × Nat × Nat)
  tables : List (Nat × Nat)

/-- Componentwise containment of pair sets. -/
def GPairs.sub (P Q : GPairs) : Prop :=
  (∀ p ∈ P.cells, p ∈ Q.cells) ∧ (∀ p ∈ P.arrs, p ∈ Q.arrs) ∧
  (∀ p ∈ P.tables, p ∈ Q.tables)

theorem GPairs.sub_refl (P : GPairs) : P.sub P :=
  ⟨fun _ h => h, fun _ h => h, fun _ h => h⟩

theorem GPairs.sub_trans {P Q R : GPairs} (h1 : P.sub Q) (h2 : Q.sub R) : P.sub R :=
  ⟨fun p hp => h2.1 p (h1.1 p hp), fun p hp => h2.2.1 p (h1.2.1 p hp),
   fun p hp => h2.2.2 p (h1.2.2 p hp)⟩

mutual

/-- The clone relation: `CRel P v w` says `w` is what the walker makes
of `v`, with heap-backed parts going through the storage pairs `P`.
A live channel is related to the nil channel (the walker zeroes every
channel it dispatches on).  Type tags on the clone may differ from the
source's only up to name erasure (the engine's `Convert` calls only
retag within a convertibility class, which the denotation ignores). -/
inductive CRel (P : GPairs) : Val → Val → Prop where
  | intR (n : Int) : CRel P (.intV n) (.intV n)
  | i32R (n : Int) : CRel P (.i32V n) (.i32V n)
  | strR (s : String) : CRel P (.strV s) (.strV s)
  | boolR (b : Bool) : CRel P (.boolV b) (.boolV b)
  | floatR (q : Int) : CRel P (.floatV q) (.floatV q)
  | chanNilR : CRel P .chanNil .chanNil
  | chanR (i : Nat) : CRel P (.chanV i) .chanNil
  | funcNilR : CRel P .funcNil .funcNil
  | funcR (i : Nat) : CRel P (.funcV i) (.funcV i)
  | unsafeR (i : Nat) : CRel P (.unsafeV i) (.unsafeV i)
  | ptrNilR (e e1 : Ty) : e1.eraseNames = e.eraseNames →
      CRel P (.ptrNil e) (.ptrNil e1)
  | ptrR (e e1 : Ty) (a a1 : Nat) : (a, a1) ∈ P.cells →
      e1.eraseNames = e.eraseNames → CRel P (.ptrV e a) (.ptrV e1 a1)
  | sliceNilR (e e1 : Ty) : e1.eraseNames = e.eraseNames →
      CRel P (.sliceNil e) (.sliceNil e1)
  | sliceR (e e1 : Ty) (d d1 l c c1 : Nat) : (d, d1, l) ∈ P.arrs → l ≤ c1 →
      e1.eraseNames = e.eraseNames → CRel P (.sliceV e d l c) (.sliceV e1 d1 l c1)
  | mapNilR (kt vt kt1 vt1 : Ty) : kt1.eraseNames = kt.eraseNames →
      vt1.eraseNames = vt.eraseNames → CRel P (.mapNil kt vt) (.mapNil kt1 vt1)
  | mapR (kt vt kt1 vt1 : Ty) (a a1 : Nat) : (a, a1) ∈ P.tables →
      kt1.eraseNames = kt.eraseNames → vt1.eraseNames = vt.eraseNames →
      CRel P (.mapV kt vt a) (.mapV kt1 vt1 a1)
  | structR (fs gs : List (Bool × Ty × Val)) : FieldsRel P fs gs →
      CRel P (.structV fs) (.structV gs)
  | arrR (e e1 : Ty) (es gs : List Val) : e1.eraseNames = e.eraseNames →
      ValsRel P es gs → CRel P (.arrV e es) (.arrV e1 gs)
  | ifaceNilR : CRel P .ifaceNil .ifaceNil
  | ifaceR (v w : Val) : CRel P v w → CRel P (.ifaceV v) (.ifaceV w)
  | counterR (n : Int) (s : String) : CRel P (.counterV n s) (.counterV n s)

/-- Pointwise clone relation on element lists. -/
inductive ValsRel (P : GPairs) : List Val → List Val → Prop where
  | nilR : ValsRel P [] []
  | consR (v w : Val) (vs ws : List Val) : CRel P v w → ValsRel P vs ws →
      ValsRel P (v :: vs) (w :: ws)

/-- Pairwise clone relation on map tables (no dropped entries). -/
inductive EntsRel (P : GPairs) : List (Val × Val) → List (Val × Val) → Prop where
  | nilR : EntsRel P [] []
  | consR (k v k1 v1 : Val) (rest rest1 : List (Val × Val)) :
      CRel P k k1 → CRel P v v1 → EntsRel P rest rest1 →
      EntsRel P ((k, v) :: rest) ((k1, v1) :: rest1)

/-- The per-field relation of `cloneStruct`: unexported fields are
zeroed, COPY fields are copied verbatim, CLONE fields are cloned. -/
inductive FieldsRel (P : GPairs) : List (Bool × Ty × Val) → List (Bool × Ty × Val) → Prop where
  | nilR : FieldsRel P [] []
  | skipR (t : Ty) (v : Val) (rest rest1 : List (Bool × Ty × Val)) :
      FieldsRel P rest rest1 →
      FieldsRel P ((false, t, v) :: rest) ((false, t, zeroVal t) :: rest1)
  | copyR (t : Ty) (v : Val) (rest rest1 : List (Bool × Ty × Val)) :
      fieldActionOf t = .copyField → FieldsRel P rest rest1 →
      FieldsRel P ((true, t, v) :: rest) ((true, t, v) :: rest1)
  | cloneR (t : Ty) (v w : Val) (rest rest1 : List (Bool × Ty × Val)) :
      fieldActionOf t = .cloneField → CRel P v w → FieldsRel P rest rest1 →
      FieldsRel P ((true, t, v) :: rest) ((true, t, w) :: rest1)

end

mutual

/-- The clone relation is monotone in the pair set. -/
theorem CRel.mono {P Q : GPairs} (hs : P.sub Q) :
    ∀ {v w : Val}, CRel P v w → CRel Q v w
  | _, _, .intR n => .intR n
  | _, _, .i32R n => .i32R n
  | _, _, .strR s => .strR s
  | _, _, .boolR b => .boolR b
  | _, _, .floatR q => .floatR q
  | _, _, .chanNilR => .chanNilR
  | _, _, .chanR i => .chanR i
  | _, _, .funcNilR => .funcNilR
  | _, _, .funcR i => .funcR i
  | _, _, .unsafeR i => .unsafeR i
  | _, _, .ptrNilR e e1 he => .ptrNilR e e1 he
  | _, _, .ptrR e e1 a a1 hp he => .ptrR e e1 a a1 (hs.1 _ hp) he
  | _, _, .sliceNilR e e1 he => .sliceNilR e e1 he
  | _, _, .sliceR e e1 d d1 l c c1 hp hl he => .sliceR e e1 d d1 l c c1 (hs.2.1 _ hp) hl he
  | _, _, .mapNilR kt vt kt1 vt1 hk hv => .mapNilR kt vt kt1 vt1 hk hv
  | _, _, .mapR kt vt kt1 vt1 a a1 hp hk hv => .mapR kt vt kt1 vt1 a a1 (hs.2.2 _ hp) hk hv
  | _, _, .structR fs gs hf => .structR fs gs (fieldsRel_mono hs hf)
  | _, _, .arrR e e1 es gs he hv => .arrR e e1 es gs he (valsRel_mono hs hv)
  | _, _, .ifaceNilR => .ifaceNilR
  | _, _, .ifaceR v w hr => .ifaceR v w (CRel.mono hs hr)
  | _, _, .counterR n s => .counterR n s

/-- Monotonicity of the element-list relation. -/
theorem valsRel_mono {P Q : GPairs} (hs : P.sub Q) :
    ∀ {vs ws : List Val}, ValsRel P vs ws → ValsRel Q vs ws
  | _, _, .nilR => .nilR
  | _, _, .consR v w vs ws hr hl => .consR v w vs ws (CRel.mono hs hr) (valsRel_mono hs hl)

/-- Monotonicity of the table relation. -/
theorem entsRel_mono {P Q : GPairs} (hs : P.sub Q) :
    ∀ {es gs : List (Val × Val)}, EntsRel P es gs → EntsRel Q es gs
  | _, _, .nilR => .nilR
  | _, _, .consR k v k1 v1 r r1 hk hv hl =>
      .consR k v k1 v1 r r1 (CRel.mono hs hk) (CRel.mono hs hv) (entsRel_mono hs hl)

/-- Monotonicity of the field relation. -/
theorem fieldsRel_mono {P Q : GPairs} (hs : P.sub Q) :
    ∀ {fs gs : List (Bool × Ty × Val)}, FieldsRel P fs gs → FieldsRel Q fs gs
  | _, _, .nilR => .nilR
  | _, _, .skipR t v r r1 hl => .skipR t v r r1 (fieldsRel_mono hs hl)
  | _, _, .copyR t v r r1 ha hl => .copyR t v r r1 ha (fieldsRel_mono hs hl)
  | _, _, .cloneR t v w r r1 ha hr hl =>
      .cloneR t v w r r1 ha (CRel.mono hs hr) (fieldsRel_mono hs hl)

end

/-- A clone is never the invalid value. -/
theorem CRel.ne_invalid {P : GPairs} {v w : Val} (h : CRel P v w) : w ≠ Val.invalidV := by
  cases h <;> simp

theorem ValsRel.length {P : GPairs} :
    ∀ {vs ws : List Val}, ValsRel P vs ws → ws.length = vs.length
  | _, _, .nilR => rfl
  | _, _, .consR _ _ _ _ _ hl => by simp [ValsRel.length hl]

/-- The field relation preserves the struct signature (flags and
declared field types). -/
theorem FieldsRel.sig {P : GPairs} :
    ∀ {fs gs : List (Bool × Ty × Val)}, FieldsRel P fs gs →
      gs.map (fun f => (f.1, f.2.1)) = fs.map (fun f => (f.1, f.2.1))
  | _, _, .nilR => rfl
  | _, _, .skipR t v r r1 hl => by simp [FieldsRel.sig hl]
  | _, _, .copyR t v r r1 _ hl => by simp [FieldsRel.sig hl]
  | _, _, .cloneR t v w r r1 _ _ hl => by simp [FieldsRel.sig hl]

/-- A clone's dynamic type agrees with the source's up to name
erasure. -/
theorem CRel.typeOf_erase {P : GPairs} {v w : Val} (h : CRel P v w) :
    w.typeOf.eraseNames = v.typeOf.eraseNames := by
  cases h with
  | ptrNilR e e1 he => simp [Val.typeOf, Ty.eraseNames, he]
  | ptrR e e1 a a1 hp he => simp [Val.typeOf, Ty.eraseNames, he]
  | sliceNilR e e1 he => simp [Val.typeOf, Ty.eraseNames, he]
  | sliceR e e1 d d1 l c c1 hp hl he => simp [Val.typeOf, Ty.eraseNames, he]
  | mapNilR kt vt kt1 vt1 hk hv => simp [Val.typeOf, Ty.eraseNames, hk, hv]
  | mapR kt vt kt1 vt1 a a1 hp hk hv => simp [Val.typeOf, Ty.eraseNames, hk, hv]
  | structR fs gs hf =>
      simp only [Val.typeOf]
      have hs := FieldsRel.sig hf
      -- erasing the two signatures gives the same list because the
      -- signatures are equal
      simp [Ty.eraseNames, hs]
  | arrR e e1 es gs he hv =>
      simp [Val.typeOf, Ty.eraseNames, he, ValsRel.length hv]
  | _ => rfl

theorem CRel.ptr_inv {P : GPairs} {v : Val} {e1 : Ty} {a1 : Nat}
    (h : CRel P v (.ptrV e1 a1)) :
    ∃ e a, v = .ptrV e a ∧ (a, a1) ∈ P.cells ∧ e1.eraseNames = e.eraseNames := by
  cases h
  exact ⟨_, _, rfl, by assumption, by assumption⟩

theorem CRel.ptrNil_inv {P : GPairs} {v : Val} {e1 : Ty}
    (h : CRel P v (.ptrNil e1)) :
    ∃ e, v = .ptrNil e ∧ e1.eraseNames = e.eraseNames := by
  cases h
  exact ⟨_, rfl, by assumption⟩

theorem CRel.slice_inv {P : GPairs} {v : Val} {e1 : Ty} {d1 l1 c1 : Nat}
    (h : CRel P v (.sliceV e1 d1 l1 c1)) :
    ∃ e d c, v = .sliceV e d l1 c ∧ (d, d1, l1) ∈ P.arrs ∧ l1 ≤ c1 ∧
      e1.eraseNames = e.eraseNames := by
  cases h
  exact ⟨_, _, _, rfl, by assumption, by assumption, by assumption⟩

theorem CRel.sliceNil_inv {P : GPairs} {v : Val} {e1 : Ty}
    (h : CRel P v (.sliceNil e1)) :
    ∃ e, v = .sliceNil e ∧ e1.eraseNames = e.eraseNames := by
  cases h
  exact ⟨_, rfl, by assumption⟩

theorem CRel.map_inv {P : GPairs} {v : Val} {kt1 vt1 : Ty} {a1 : Nat}
    (h : CRel P v (.mapV kt1 vt1 a1)) :
    ∃ kt vt a, v = .mapV kt vt a ∧ (a, a1) ∈ P.tables ∧
      kt1.eraseNames = kt.eraseNames ∧ vt1.eraseNames = vt.eraseNames := by
  cases h
  exact ⟨_, _, _, rfl, by assumption, by assumption, by assumption⟩

theorem CRel.mapNil_inv {P : GPairs} {v : Val} {kt1 vt1 : Ty}
    (h : CRel P v (.mapNil kt1 vt1)) :
    ∃ kt vt, v = .mapNil kt vt ∧
      kt1.eraseNames = kt.eraseNames ∧ vt1.eraseNames = vt.eraseNames := by
  cases h
  exact ⟨_, _, rfl, by assumption, by assumption⟩

/-- `Convert` to an engine-convertible target preserves the clone
relation (it only retags within the erasure class). -/
theorem CRel.convert {P : GPairs} {v w : Val} (t : Ty) (h : CRel P v w)
    (hc : w.typeOf.convertibleTo t = true) : CRel P v (w.convert t) := by
  unfold Val.convert
  split
  · rename_i x y1 e2
    obtain ⟨e, a, rfl, hp, he⟩ := CRel.ptr_inv h
    refine CRel.ptrR e e2 a y1 hp ?_
    simp only [Val.typeOf, Ty.convertibleTo, Ty.eraseNames] at hc
    have h2 := Ty.eq_of_beq _ _ hc
    injection h2 with h3
    rw [h3.symm, he]
  · rename_i x e2
    obtain ⟨e, rfl, he⟩ := CRel.ptrNil_inv h
    refine CRel.ptrNilR e e2 ?_
    simp only [Val.typeOf, Ty.convertibleTo, Ty.eraseNames] at hc
    have h2 := Ty.eq_of_beq _ _ hc
    injection h2 with h3
    rw [h3.symm, he]
  · rename_i x y1 y2 y3 e2
    obtain ⟨e, d, c, rfl, hp, hl, he⟩ := CRel.slice_inv h
    refine CRel.sliceR e e2 d y1 y2 c y3 hp hl ?_
    simp only [Val.typeOf, Ty.convertibleTo, Ty.eraseNames] at hc
    have h2 := Ty.eq_of_beq _ _ hc
    injection h2 with h3
    rw [h3.symm, he]
  · rename_i x e2
    obtain ⟨e, rfl, he⟩ := CRel.sliceNil_inv h
    refine CRel.sliceNilR e e2 ?_
    simp only [Val.typeOf, Ty.convertibleTo, Ty.eraseNames] at hc
    have h2 := Ty.eq_of_beq _ _ hc
    injection h2 with h3
    rw [h3.symm, he]
  · rename_i xk xv y1 k2 v2
    obtain ⟨kt, vt, a, rfl, hp, hk, hv⟩ := CRel.map_inv h
    simp only [Val.typeOf, Ty.convertibleTo, Ty.eraseNames] at hc
    have h2 := Ty.eq_of_beq _ _ hc
    injection h2 with h3 h4
    exact CRel.mapR kt vt k2 v2 a y1 hp (by rw [h3.symm, hk]) (by rw [h4.symm, hv])
  · rename_i xk xv k2 v2
    obtain ⟨kt, vt, rfl, hk, hv⟩ := CRel.mapNil_inv h
    simp only [Val.typeOf, Ty.convertibleTo, Ty.eraseNames] at hc
    have h2 := Ty.eq_of_beq _ _ hc
    injection h2 with h3 h4
    exact CRel.mapNilR kt vt k2 v2 (by rw [h3.symm, hk]) (by rw [h4.symm, hv])
  · rename_i x y1 nid e2
    obtain ⟨e, a, rfl, hp, he⟩ := CRel.ptr_inv h
    refine CRel.ptrR e e2 a y1 hp ?_
    simp only [Val.typeOf, Ty.convertibleTo, Ty.eraseNames] at hc
    have h2 := Ty.eq_of_beq _ _ hc
    injection h2 with h3
    rw [h3.symm, he]
  · rename_i x nid e2
    obtain ⟨e, rfl, he⟩ := CRel.ptrNil_inv h
    refine CRel.ptrNilR e e2 ?_
    simp only [Val.typeOf, Ty.convertibleTo, Ty.eraseNames] at hc
    have h2 := Ty.eq_of_beq _ _ hc
    injection h2 with h3
    rw [h3.symm, he]
  · exact h

/-- `fieldAssign` of a clone into a declared field type preserves the
clone relation: invalid clones cannot occur, identical types are kept,
convertible types are retagged, and incompatible types are kept
unchanged. -/
theorem CRel.field_assign {P : GPairs} {v w : Val} (t : Ty) (h : CRel P v w) :
    CRel P v (fieldAssign t w) := by
  unfold fieldAssign
  split
  · exact absurd rfl (CRel.ne_invalid h)
  · by_cases hb : w.typeOf.beq t = true
    · rw [if_pos hb]
      exact h
    · rw [if_neg hb]
      by_cases hcv : w.typeOf.convertibleTo t = true
      · rw [if_pos hcv]
        exact CRel.convert t h hcv
      · rw [if_neg hcv]
        exact h

mutual

/-- Well-formed channel-free source values: live channels and invalid
values are excluded; heap references resolve, inside the source zone
(addresses below `nx0`), to the right kind of object, and all type
tags agree with the erased-type assignment `tyE` (Go's type system
guarantees all of this for real values). -/
def good (nx0 : Nat) (tyE : Nat → Ty) (H : List (Nat × Obj)) : Val → Prop
  | .chanV _ => False
  | .invalidV => False
  | .ptrV e a => a < nx0 ∧ e.eraseNames = tyE a ∧ (∃ w, alookup H a = some (.cell w))
  | .sliceV e d l c => d < nx0 ∧ e.eraseNames = tyE d ∧ l ≤ c ∧
      (∃ es, alookup H d = some (.arr es) ∧ l ≤ es.length)
  | .mapV kt vt a => a < nx0 ∧ (Ty.mapT kt vt).eraseNames = tyE a ∧
      (∃ es, alookup H a = some (.table es))
  | .structV fs => goodFields nx0 tyE H fs
  | .arrV e es => goodElems nx0 tyE H e.eraseNames es
  | .ifaceV w => good nx0 tyE H w
  | _ => True

/-- Fields of a good struct: values are good and have their declared
(erased) field type. -/
def goodFields (nx0 : Nat) (tyE : Nat → Ty) (H : List (Nat × Obj)) :
    List (Bool × Ty × Val) → Prop
  | [] => True
  | (_, t, v) :: r => good nx0 tyE H v ∧ v.typeOf.eraseNames = t.eraseNames ∧
      goodFields nx0 tyE H r

/-- Elements of a good sequence: good values of the expected erased
element type `etE`. -/
def goodElems (nx0 : Nat) (tyE : Nat → Ty) (H : List (Nat × Obj)) (etE : Ty) :
    List Val → Prop
  | [] => True
  | v :: r => good nx0 tyE H v ∧ v.typeOf.eraseNames = etE ∧
      goodElems nx0 tyE H etE r

/-- Entries of a good table: keys and values good, of the expected
erased key/value types. -/
def goodEntries (nx0 : Nat) (tyE : Nat → Ty) (H : List (Nat × Obj)) (keE veE : Ty) :
    List (Val × Val) → Prop
  | [] => True
  | (k, v) :: r => good nx0 tyE H k ∧ k.typeOf.eraseNames = keE ∧
      good nx0 tyE H v ∧ v.typeOf.eraseNames = veE ∧
      goodEntries nx0 tyE H keE veE r

end

/-- Goodness of a source-zone heap object at address `a`. -/
def objGood (nx0 : Nat) (tyE : Nat → Ty) (H : List (Nat × Obj)) (a : Nat) : Obj → Prop
  | .cell w => good nx0 tyE H w ∧ w.typeOf.eraseNames = tyE a
  | .arr es => goodElems nx0 tyE H (tyE a) es
  | .table es =>
      match tyE a with
      | .mapT keE veE => goodEntries nx0 tyE H keE veE es
      | _ => False

/-- The source zone (addresses below `nx0`) is good and typed. -/
def GoodSrc (nx0 : Nat) (tyE : Nat → Ty) (H : List (Nat × Obj)) : Prop :=
  ∀ a o, a < nx0 → alookup H a = some o → objGood nx0 tyE H a o

mutual

/-- All heap addresses mentioned in a value are at or above `k`. -/
def addrsGe (k : Nat) : Val → Prop
  | .ptrV _ a => k ≤ a
  | .sliceV _ d _ _ => k ≤ d
  | .mapV _ _ a => k ≤ a
  | .structV fs => addrsGeFields k fs
  | .arrV _ es => addrsGeList k es
  | .ifaceV w => addrsGe k w
  | _ => True

/-- Field values with addresses at or above `k`. -/
def addrsGeFields (k : Nat) : List (Bool × Ty × Val) → Prop
  | [] => True
  | (_, _, v) :: r => addrsGe k v ∧ addrsGeFields k r

/-- Elements with addresses at or above `k`. -/
def addrsGeList (k : Nat) : List Val → Prop
  | [] => True
  | v :: r => addrsGe k v ∧ addrsGeList k r

/-- Entries with addresses at or above `k`. -/
def addrsGeEntries (k : Nat) : List (Val × Val) → Prop
  | [] => True
  | (kv, vv) :: r => addrsGe k kv ∧ addrsGe k vv ∧ addrsGeEntries k r

end

/-- Heap-object contents with addresses at or above `k`. -/
def objAddrsGe (k : Nat) : Obj → Prop
  | .cell w => addrsGe k w
  | .arr es => addrsGeList k es
  | .table es => addrsGeEntries k es

/-- The clone zone (addresses at or above `k`) is closed: its objects
reference only clone-zone addresses. -/
def ZoneGe (k : Nat) (H : List (Nat × Obj)) : Prop :=
  ∀ a o, k ≤ a → alookup H a = some o → objAddrsGe k o

/-- Coherence of the established pairs, exempting the pending ones
whose clones are still being filled: paired cells hold related values,
paired backings hold pointwise related visible elements, paired tables
hold pairwise related entries. -/
def CohP (H : List (Nat × Obj)) (P : GPairs) (pc : List (Nat × Nat))
    (pa : List (Nat × Nat × Nat)) (pt : List (Nat × Nat)) : Prop :=
  (∀ p ∈ P.cells, p ∉ pc → CRel P (readCell H p.1) (readCell H p.2)) ∧
  (∀ p ∈ P.arrs, p ∉ pa →
      ValsRel P ((readArr H p.1).take p.2.2) ((readArr H p.2.1).take p.2.2)) ∧
  (∀ p ∈ P.tables, p ∉ pt → EntsRel P (readTable H p.1) (readTable H p.2))

/-- Both sides of every pair resolve to the right kind of object (with
enough backing elements on both sides of an array pair). -/
def WfPairs (H : List (Nat × Obj)) (P : GPairs) : Prop :=
  (∀ p ∈ P.cells, (∃ w, alookup H p.1 = some (.cell w)) ∧
      (∃ w, alookup H p.2 = some (.cell w))) ∧
  (∀ p ∈ P.arrs, (∃ es, alookup H p.1 = some (.arr es) ∧ p.2.2 ≤ es.length) ∧
      (∃ es, alookup H p.2.1 = some (.arr es) ∧ p.2.2 ≤ es.length)) ∧
  (∀ p ∈ P.tables, (∃ es, alookup H p.1 = some (.table es)) ∧
      (∃ es, alookup H p.2 = some (.table es)))

/-- Pair sources live in the source zone, pair clones in the clone
zone below the allocation counter. -/
def PZone (nx0 nx : Nat) (P : GPairs) : Prop :=
  (∀ p ∈ P.cells, p.1 < nx0 ∧ nx0 ≤ p.2 ∧ p.2 < nx) ∧
  (∀ p ∈ P.arrs, p.1 < nx0 ∧ nx0 ≤ p.2.1 ∧ p.2.1 < nx) ∧
  (∀ p ∈ P.tables, p.1 < nx0 ∧ nx0 ≤ p.2 ∧ p.2 < nx)

/-- Every visited-table entry corresponds to an established pair, with
a clone tag in the source's erasure class. -/
def VisP (tyE : Nat → Ty) (vis : List (Nat × Val)) (P : GPairs) : Prop :=
  ∀ q ∈ vis,
    match q.2 with
    | Val.ptrV e1 na => (q.1, na) ∈ P.cells ∧ e1.eraseNames = tyE q.1
    | Val.sliceV e1 nd l c => (q.1, nd, l) ∈ P.arrs ∧ e1.eraseNames = tyE q.1
    | Val.mapV kt1 vt1 na => (q.1, na) ∈ P.tables ∧
        (Ty.mapT kt1 vt1).eraseNames = tyE q.1
    | _ => False

/-! ## Ownership, distinctness and padding of the clone zone -/

/-- Every clone-zone heap entry is the clone side of some pair. -/
def Owned (nx0 : Nat) (H : List (Nat × Obj)) (P : GPairs) : Prop :=
  ∀ b, nx0 ≤ b → (alookup H b).isSome = true →
    (∃ p ∈ P.cells, p.2 = b) ∨ (∃ p ∈ P.arrs, p.2.1 = b) ∨ (∃ p ∈ P.tables, p.2 = b)

/-- Clone addresses are pairwise distinct, within and across the three
pair components (each allocation creates one fresh clone address). -/
def CDis (P : GPairs) : Prop :=
  (∀ p ∈ P.cells, ∀ q ∈ P.cells, p.2 = q.2 → p = q) ∧
  (∀ p ∈ P.arrs, ∀ q ∈ P.arrs, p.2.1 = q.2.1 → p = q) ∧
  (∀ p ∈ P.tables, ∀ q ∈ P.tables, p.2 = q.2 → p = q) ∧
  (∀ p ∈ P.cells, ∀ q ∈ P.arrs, p.2 ≠ q.2.1) ∧
  (∀ p ∈ P.cells, ∀ q ∈ P.tables, p.2 ≠ q.2) ∧
  (∀ p ∈ P.arrs, ∀ q ∈ P.tables, p.2.1 ≠ q.2)

/-- Beyond the paired visible length, a cloned backing array holds
zero values of the element type (put there by `reflect.MakeSlice`). -/
def PadOk (tyE : Nat → Ty) (H : List (Nat × Obj)) (P : GPairs) : Prop :=
  ∀ p ∈ P.arrs, ∀ w ∈ (readArr H p.2.1).drop p.2.2,
    ∃ e, w = zeroVal e ∧ e.eraseNames = tyE p.1

def GPairs.addCell (P : GPairs) (a b : Nat) : GPairs :=
  ⟨(a, b) :: P.cells, P.arrs, P.tables⟩

def GPairs.addArr (P : GPairs) (a b l : Nat) : GPairs :=
  ⟨P.cells, (a, b, l) :: P.arrs, P.tables⟩

def GPairs.addTable (P : GPairs) (a b : Nat) : GPairs :=
  ⟨P.cells, P.arrs, (a, b) :: P.tables⟩

/-- New pairs introduced by a sub-run have clone addresses at or above
the sub-run's entry counter. -/
def NewAbove (nx : Nat) (P Q : GPairs) : Prop :=
  (∀ p ∈ Q.cells, p ∉ P.cells → nx ≤ p.2) ∧
  (∀ p ∈ Q.arrs, p ∉ P.arrs → nx ≤ p.2.1) ∧
  (∀ p ∈ Q.tables, p ∉ P.tables → nx ≤ p.2)

theorem goodFields_mem {nx0 : Nat} {tyE : Nat → Ty} {H : List (Nat × Obj)} :
    ∀ {fs : List (Bool × Ty × Val)}, goodFields nx0 tyE H fs →
      ∀ {ex t v}, (ex, t, v) ∈ fs → good nx0 tyE H v ∧ v.typeOf.eraseNames = t.eraseNames := by
  intro fs
  induction fs with
  | nil => intro _ _ _ _ h; cases h
  | cons f r ih =>
      obtain ⟨ex1, t1, v1⟩ := f
      intro hg ex t v hmem
      simp only [goodFields] at hg
      rcases List.mem_cons.mp hmem with h | h
      · cases h
        exact ⟨hg.1, hg.2.1⟩
      · exact ih hg.2.2 h

theorem goodElems_mem {nx0 : Nat} {tyE : Nat → Ty} {H : List (Nat × Obj)} {etE : Ty} :
    ∀ {es : List Val}, goodElems nx0 tyE H etE es →
      ∀ {v}, v ∈ es → good nx0 tyE H v ∧ v.typeOf.eraseNames = etE := by
  intro es
  induction es with
  | nil => intro _ _ h; cases h
  | cons w r ih =>
      intro hg v hmem
      simp only [goodElems] at hg
      rcases List.mem_cons.mp hmem with h | h
      · cases h
        exact ⟨hg.1, hg.2.1⟩
      · exact ih hg.2.2 h

theorem goodEntries_mem {nx0 : Nat} {tyE : Nat → Ty} {H : List (Nat × Obj)} {keE veE : Ty} :
    ∀ {es : List (Val × Val)}, goodEntries nx0 tyE H keE veE es →
      ∀ {k v}, (k, v) ∈ es →
        (good nx0 tyE H k ∧ k.typeOf.eraseNames = keE) ∧
        (good nx0 tyE H v ∧ v.typeOf.eraseNames = veE) := by
  intro es
  induction es with
  | nil => intro _ _ _ h; cases h
  | cons p r ih =>
      obtain ⟨k1, v1⟩ := p
      intro hg k v hmem
      simp only [goodEntries] at hg
      rcases List.mem_cons.mp hmem with h | h
      · cases h
        exact ⟨⟨hg.1, hg.2.1⟩, hg.2.2.1, hg.2.2.2.1⟩
      · exact ih hg.2.2.2.2 h

theorem goodElems_take {nx0 : Nat} {tyE : Nat → Ty} {H : List (Nat × Obj)} {etE : Ty}
    {es : List Val} (h : goodElems nx0 tyE H etE es) (l : Nat) :
    goodElems nx0 tyE H etE (es.take l) := by
  induction es generalizing l with
  | nil => simp [goodElems]
  | cons w r ih =>
      cases l with
      | zero => simp [goodElems]
      | succ m =>
          simp only [goodElems] at h
          simp only [List.take, goodElems]
          exact ⟨h.1, h.2.1, ih h.2.2 m⟩

mutual

/-- Goodness only inspects source-zone lookups, so it survives any
heap change outside the source zone. -/
theorem good_stable {nx0 : Nat} {tyE : Nat → Ty} {H H2 : List (Nat × Obj)}
    (hag : ∀ a, a < nx0 → alookup H2 a = alookup H a) :
    ∀ (v : Val), good nx0 tyE H v → good nx0 tyE H2 v
  | .chanV _, hg => hg
  | .invalidV, hg => hg
  | .ptrV e a, hg => ⟨hg.1, hg.2.1, by rw [hag a hg.1]; exact hg.2.2⟩
  | .sliceV e d l c, hg => ⟨hg.1, hg.2.1, hg.2.2.1, by rw [hag d hg.1]; exact hg.2.2.2⟩
  | .mapV kt vt a, hg => ⟨hg.1, hg.2.1, by rw [hag a hg.1]; exact hg.2.2⟩
  | .structV fs, hg => goodFields_stable hag fs hg
  | .arrV e es, hg => goodElems_stable hag e.eraseNames es hg
  | .ifaceV w, hg => good_stable hag w hg
  | .intV _, hg => hg
  | .i32V _, hg => hg
  | .strV _, hg => hg
  | .boolV _, hg => hg
  | .floatV _, hg => hg
  | .chanNil, hg => hg
  | .funcNil, hg => hg
  | .funcV _, hg => hg
  | .unsafeV _, hg => hg
  | .ptrNil _, hg => hg
  | .sliceNil _, hg => hg
  | .mapNil _ _, hg => hg
  | .ifaceNil, hg => hg
  | .counterV _ _, hg => hg
termination_by v _ => sizeOf v

theorem goodFields_stable {nx0 : Nat} {tyE : Nat → Ty} {H H2 : List (Nat × Obj)}
    (hag : ∀ a, a < nx0 → alookup H2 a = alookup H a) :
    ∀ (fs : List (Bool × Ty × Val)), goodFields nx0 tyE H fs → goodFields nx0 tyE H2 fs
  | [], hg => hg
  | (_, _, v) :: r, hg =>
      ⟨good_stable hag v hg.1, hg.2.1, goodFields_stable hag r hg.2.2⟩
termination_by fs _ => sizeOf fs

theorem goodElems_stable {nx0 : Nat} {tyE : Nat → Ty} {H H2 : List (Nat × Obj)}
    (hag : ∀ a, a < nx0 → alookup H2 a = alookup H a) :
    ∀ (etE : Ty) (es : List Val), goodElems nx0 tyE H etE es → goodElems nx0 tyE H2 etE es
  | _, [], hg => hg
  | etE, v :: r, hg =>
      ⟨good_stable hag v hg.1, hg.2.1, goodElems_stable hag etE r hg.2.2⟩
termination_by _ es _ => sizeOf es

theorem goodEntries_stable {nx0 : Nat} {tyE : Nat → Ty} {H H2 : List (Nat × Obj)}
    (hag : ∀ a, a < nx0 → alookup H2 a = alookup H a) :
    ∀ (keE veE : Ty) (es : List (Val × Val)),
      goodEntries nx0 tyE H keE veE es → goodEntries nx0 tyE H2 keE veE es
  | _, _, [], hg => hg
  | keE, veE, (k, v) :: r, hg =>
      ⟨good_stable hag k hg.1, hg.2.1, good_stable hag v hg.2.2.1, hg.2.2.2.1,
       goodEntries_stable hag keE veE r hg.2.2.2.2⟩
termination_by _ _ es _ => sizeOf es

end

theorem objGood_stable {nx0 : Nat} {tyE : Nat → Ty} {H H2 : List (Nat × Obj)}
    (hag : ∀ a, a < nx0 → alookup H2 a = alookup H a) {a : Nat} {o : Obj}
    (hg : objGood nx0 tyE H a o) : objGood nx0 tyE H2 a o := by
  cases o with
  | cell w => exact ⟨good_stable hag w hg.1, hg.2⟩
  | arr es => exact goodElems_stable hag _ es hg
  | table es =>
      simp only [objGood] at hg ⊢
      revert hg
      cases tyE a <;> intro hg <;>
        first
          | exact goodEntries_stable hag _ _ es hg
          | exact hg

theorem GoodSrc_stable {nx0 : Nat} {tyE : Nat → Ty} {H H2 : List (Nat × Obj)}
    (hag : ∀ a, a < nx0 → alookup H2 a = alookup H a)
    (hg : GoodSrc nx0 tyE H) : GoodSrc nx0 tyE H2 := by
  intro a o ha ho
  rw [hag a ha] at ho
  exact objGood_stable hag (hg a o ha ho)

/-! ## Kind, zero-value and copy-kind lemmas -/

/-- Name erasure preserves the kind. -/
theorem Ty.kind_erase : ∀ t : Ty, t.eraseNames.kind = t.kind
  | .intT => rfl
  | .i32T => rfl
  | .stringT => rfl
  | .boolT => rfl
  | .floatT => rfl
  | .chanT => rfl
  | .funcT => rfl
  | .unsafeT => rfl
  | .ptrT _ => rfl
  | .sliceT _ => rfl
  | .mapT _ _ => rfl
  | .structT _ => rfl
  | .arrayT _ _ => rfl
  | .ifaceT => rfl
  | .namedT _ u => by simp [Ty.eraseNames, Ty.kind, Ty.kind_erase u]

mutual

/-- The zero value of a type has that type up to name erasure. -/
theorem typeOf_zeroVal_erase : ∀ t : Ty, (zeroVal t).typeOf.eraseNames = t.eraseNames
  | .intT => rfl
  | .i32T => rfl
  | .stringT => rfl
  | .boolT => rfl
  | .floatT => rfl
  | .chanT => rfl
  | .funcT => rfl
  | .unsafeT => rfl
  | .ptrT _ => rfl
  | .sliceT _ => rfl
  | .mapT _ _ => rfl
  | .structT fs => by
      simp only [zeroVal, Val.typeOf, Ty.eraseNames]
      rw [sig_zeroFields fs]
  | .arrayT e n => by
      simp [zeroVal, Val.typeOf, Ty.eraseNames]
  | .ifaceT => rfl
  | .namedT i u => by
      simp only [zeroVal, Ty.eraseNames]
      exact typeOf_zeroVal_erase u

/-- The signature of a zeroed field list erases to the erased source
signature. -/
theorem sig_zeroFields : ∀ fs : List (Bool × Ty),
    eraseNamesFields ((zeroFields fs).map (fun f => (f.1, f.2.1))) = eraseNamesFields fs
  | [] => rfl
  | (ex, t) :: r => by
      simp only [zeroFields, List.map, eraseNamesFields]
      rw [sig_zeroFields r]

end

mutual

/-- Zero values carry no heap addresses. -/
theorem addrsGe_zeroVal (k : Nat) : ∀ t : Ty, addrsGe k (zeroVal t)
  | .intT => trivial
  | .i32T => trivial
  | .stringT => trivial
  | .boolT => trivial
  | .floatT => trivial
  | .chanT => trivial
  | .funcT => trivial
  | .unsafeT => trivial
  | .ptrT _ => trivial
  | .sliceT _ => trivial
  | .mapT _ _ => trivial
  | .structT fs => addrsGe_zeroFields k fs
  | .arrayT e n => by
      simp only [zeroVal, addrsGe]
      exact addrsGe_replicate k n e
  | .ifaceT => trivial
  | .namedT _ u => addrsGe_zeroVal k u

/-- Zeroed field lists carry no heap addresses. -/
theorem addrsGe_zeroFields (k : Nat) : ∀ fs : List (Bool × Ty),
    addrsGeFields k (zeroFields fs)
  | [] => trivial
  | (ex, t) :: r => ⟨addrsGe_zeroVal k t, addrsGe_zeroFields k r⟩

/-- Replicated zero elements carry no heap addresses. -/
theorem addrsGe_replicate (k : Nat) : ∀ (n : Nat) (e : Ty),
    addrsGeList k (List.replicate n (zeroVal e))
  | 0, _ => trivial
  | n+1, e => by
      simp only [List.replicate, addrsGeList]
      exact ⟨addrsGe_zeroVal k e, addrsGe_replicate k n e⟩

end

mutual

/-- Zero values are good in any context (they contain no live channels
and no addresses). -/
theorem good_zeroVal (nx0 : Nat) (tyE : Nat → Ty) (H : List (Nat × Obj)) :
    ∀ t : Ty, good nx0 tyE H (zeroVal t)
  | .intT => trivial
  | .i32T => trivial
  | .stringT => trivial
  | .boolT => trivial
  | .floatT => trivial
  | .chanT => trivial
  | .funcT => trivial
  | .unsafeT => trivial
  | .ptrT _ => trivial
  | .sliceT _ => trivial
  | .mapT _ _ => trivial
  | .structT fs => good_zeroFields nx0 tyE H fs
  | .arrayT e n => by
      simp only [zeroVal, good]
      exact good_zeroReplicate nx0 tyE H n e
  | .ifaceT => trivial
  | .namedT _ u => good_zeroVal nx0 tyE H u

/-- Zeroed field lists are good in any context. -/
theorem good_zeroFields (nx0 : Nat) (tyE : Nat → Ty) (H : List (Nat × Obj)) :
    ∀ fs : List (Bool × Ty), goodFields nx0 tyE H (zeroFields fs)
  | [] => trivial
  | (ex, t) :: r =>
      ⟨good_zeroVal nx0 tyE H t, typeOf_zeroVal_erase t, good_zeroFields nx0 tyE H r⟩

/-- Replicated zero elements are good in any context. -/
theorem good_zeroReplicate (nx0 : Nat) (tyE : Nat → Ty) (H : List (Nat × Obj)) :
    ∀ (n : Nat) (e : Ty), goodElems nx0 tyE H e.eraseNames (List.replicate n (zeroVal e))
  | 0, _ => trivial
  | n+1, e => by
      simp only [List.replicate, goodElems]
      exact ⟨good_zeroVal nx0 tyE H e, typeOf_zeroVal_erase e,
             good_zeroReplicate nx0 tyE H n e⟩

end

/-- A value whose dynamic type has the COPY action carries no heap
addresses (scalar, string, func and unsafe shapes are address-free, and
channel shapes carry only an identifier, not an address the engine
dereferences). -/
theorem addrsGe_of_copy (k : Nat) (v : Val)
    (h : fieldActionOf v.typeOf = .copyField) : addrsGe k v := by
  cases v <;> first
    | trivial
    | simp [Val.typeOf, fieldActionOf, Ty.kind, counterTy] at h

/-- A good value whose dynamic type has the COPY action is good in any
context (it has no heap references and is not a live channel). -/
theorem good_of_copy (v : Val) {nx0 : Nat} {tyE : Nat → Ty} {H : List (Nat × Obj)}
    (hg : good nx0 tyE H v) (h : fieldActionOf v.typeOf = .copyField)
    (nx1 : Nat) (tyE1 : Nat → Ty) (H1 : List (Nat × Obj)) : good nx1 tyE1 H1 v := by
  cases v <;> first
    | trivial
    | exact hg.elim
    | simp [Val.typeOf, fieldActionOf, Ty.kind, counterTy] at h

/-! ## Channel-tolerant goodness for the walker simulation -/

mutual

/-- Channel-tolerant well-formedness of source values: like `good` but
live channels are allowed in every position (the walker zeroes them to
the nil channel); invalid values are still excluded, heap references
resolve, inside the source zone (addresses below `nx0`), to the right
kind of object, and all type tags agree with the erased-type assignment
`tyE` (Go's type system guarantees all of this for real values). -/
def goodW (nx0 : Nat) (tyE : Nat → Ty) (H : List (Nat × Obj)) : Val → Prop
  | .chanV _ => True
  | .invalidV => False
  | .ptrV e a => a < nx0 ∧ e.eraseNames = tyE a ∧ (∃ w, alookup H a = some (.cell w))
  | .sliceV e d l c => d < nx0 ∧ e.eraseNames = tyE d ∧ l ≤ c ∧
      (∃ es, alookup H d = some (.arr es) ∧ l ≤ es.length)
  | .mapV kt vt a => a < nx0 ∧ (Ty.mapT kt vt).eraseNames = tyE a ∧
      (∃ es, alookup H a = some (.table es))
  | .structV fs => goodWFields nx0 tyE H fs
  | .arrV e es => goodWElems nx0 tyE H e.eraseNames es
  | .ifaceV w => goodW nx0 tyE H w
  | _ => True

/-- Fields of a goodW struct: values are goodW and have their declared
(erased) field type. -/
def goodWFields (nx0 : Nat) (tyE : Nat → Ty) (H : List (Nat × Obj)) :
    List (Bool × Ty × Val) → Prop
  | [] => True
  | (_, t, v) :: r => goodW nx0 tyE H v ∧ v.typeOf.eraseNames = t.eraseNames ∧
      goodWFields nx0 tyE H r

/-- Elements of a goodW sequence: goodW values of the expected erased
element type `etE`. -/
def goodWElems (nx0 : Nat) (tyE : Nat → Ty) (H : List (Nat × Obj)) (etE : Ty) :
    List Val → Prop
  | [] => True
  | v :: r => goodW nx0 tyE H v ∧ v.typeOf.eraseNames = etE ∧
      goodWElems nx0 tyE H etE r

/-- Entries of a goodW table: keys and values goodW, of the expected
erased key/value types. -/
def goodWEntries (nx0 : Nat) (tyE : Nat → Ty) (H : List (Nat × Obj)) (keE veE : Ty) :
    List (Val × Val) → Prop
  | [] => True
  | (k, v) :: r => goodW nx0 tyE H k ∧ k.typeOf.eraseNames = keE ∧
      goodW nx0 tyE H v ∧ v.typeOf.eraseNames = veE ∧
      goodWEntries nx0 tyE H keE veE r

end

/-- Goodness of a source-zone heap object at address `a`. -/
def objGoodW (nx0 : Nat) (tyE : Nat → Ty) (H : List (Nat × Obj)) (a : Nat) : Obj → Prop
  | .cell w => goodW nx0 tyE H w ∧ w.typeOf.eraseNames = tyE a
  | .arr es => goodWElems nx0 tyE H (tyE a) es
  | .table es =>
      match tyE a with
      | .mapT keE veE => goodWEntries nx0 tyE H keE veE es
      | _ => False

/-- The source zone (addresses below `nx0`) is goodW and typed. -/
def GoodSrcW (nx0 : Nat) (tyE : Nat → Ty) (H : List (Nat × Obj)) : Prop :=
  ∀ a o, a < nx0 → alookup H a = some o → objGoodW nx0 tyE H a o

theorem goodWFields_mem {nx0 : Nat} {tyE : Nat → Ty} {H : List (Nat × Obj)} :
    ∀ {fs : List (Bool × Ty × Val)}, goodWFields nx0 tyE H fs →
      ∀ {ex t v}, (ex, t, v) ∈ fs → goodW nx0 tyE H v ∧ v.typeOf.eraseNames = t.eraseNames := by
  intro fs
  induction fs with
  | nil => intro _ _ _ _ h; cases h
  | cons f r ih =>
      obtain ⟨ex1, t1, v1⟩ := f
      intro hg ex t v hmem
      simp only [goodWFields] at hg
      rcases List.mem_cons.mp hmem with h | h
      · cases h
        exact ⟨hg.1, hg.2.1⟩
      · exact ih hg.2.2 h

theorem goodWElems_mem {nx0 : Nat} {tyE : Nat → Ty} {H : List (Nat × Obj)} {etE : Ty} :
    ∀ {es : List Val}, goodWElems nx0 tyE H etE es →
      ∀ {v}, v ∈ es → goodW nx0 tyE H v ∧ v.typeOf.eraseNames = etE := by
  intro es
  induction es with
  | nil => intro _ _ h; cases h
  | cons w r ih =>
      intro hg v hmem
      simp only [goodWElems] at hg
      rcases List.mem_cons.mp hmem with h | h
      · cases h
        exact ⟨hg.1, hg.2.1⟩
      · exact ih hg.2.2 h

theorem goodWEntries_mem {nx0 : Nat} {tyE : Nat → Ty} {H : List (Nat × Obj)} {keE veE : Ty} :
    ∀ {es : List (Val × Val)}, goodWEntries nx0 tyE H keE veE es →
      ∀ {k v}, (k, v) ∈ es →
        (goodW nx0 tyE H k ∧ k.typeOf.eraseNames = keE) ∧
        (goodW nx0 tyE H v ∧ v.typeOf.eraseNames = veE) := by
  intro es
  induction es with
  | nil => intro _ _ _ h; cases h
  | cons p r ih =>
      obtain ⟨k1, v1⟩ := p
      intro hg k v hmem
      simp only [goodWEntries] at hg
      rcases List.mem_cons.mp hmem with h | h
      · cases h
        exact ⟨⟨hg.1, hg.2.1⟩, hg.2.2.1, hg.2.2.2.1⟩
      · exact ih hg.2.2.2.2 h

theorem goodWElems_take {nx0 : Nat} {tyE : Nat → Ty} {H : List (Nat × Obj)} {etE : Ty}
    {es : List Val} (h : goodWElems nx0 tyE H etE es) (l : Nat) :
    goodWElems nx0 tyE H etE (es.take l) := by
  induction es generalizing l with
  | nil => simp [goodWElems]
  | cons w r ih =>
      cases l with
      | zero => simp [goodWElems]
      | succ m =>
          simp only [goodWElems] at h
          simp only [List.take, goodWElems]
          exact ⟨h.1, h.2.1, ih h.2.2 m⟩

mutual

/-- Goodness only inspects source-zone lookups, so it survives any
heap change outside the source zone. -/
theorem goodW_stable {nx0 : Nat} {tyE : Nat → Ty} {H H2 : List (Nat × Obj)}
    (hag : ∀ a, a < nx0 → alookup H2 a = alookup H a) :
    ∀ (v : Val), goodW nx0 tyE H v → goodW nx0 tyE H2 v
  | .chanV _, hg => hg
  | .invalidV, hg => hg
  | .ptrV e a, hg => ⟨hg.1, hg.2.1, by rw [hag a hg.1]; exact hg.2.2⟩
  | .sliceV e d l c, hg => ⟨hg.1, hg.2.1, hg.2.2.1, by rw [hag d hg.1]; exact hg.2.2.2⟩
  | .mapV kt vt a, hg => ⟨hg.1, hg.2.1, by rw [hag a hg.1]; exact hg.2.2⟩
  | .structV fs, hg => goodWFields_stable hag fs hg
  | .arrV e es, hg => goodWElems_stable hag e.eraseNames es hg
  | .ifaceV w, hg => goodW_stable hag w hg
  | .intV _, hg => hg
  | .i32V _, hg => hg
  | .strV _, hg => hg
  | .boolV _, hg => hg
  | .floatV _, hg => hg
  | .chanNil, hg => hg
  | .funcNil, hg => hg
  | .funcV _, hg => hg
  | .unsafeV _, hg => hg
  | .ptrNil _, hg => hg
  | .sliceNil _, hg => hg
  | .mapNil _ _, hg => hg
  | .ifaceNil, hg => hg
  | .counterV _ _, hg => hg
termination_by v _ => sizeOf v

theorem goodWFields_stable {nx0 : Nat} {tyE : Nat → Ty} {H H2 : List (Nat × Obj)}
    (hag : ∀ a, a < nx0 → alookup H2 a = alookup H a) :
    ∀ (fs : List (Bool × Ty × Val)), goodWFields nx0 tyE H fs → goodWFields nx0 tyE H2 fs
  | [], hg => hg
  | (_, _, v) :: r, hg =>
      ⟨goodW_stable hag v hg.1, hg.2.1, goodWFields_stable hag r hg.2.2⟩
termination_by fs _ => sizeOf fs

theorem goodWElems_stable {nx0 : Nat} {tyE : Nat → Ty} {H H2 : List (Nat × Obj)}
    (hag : ∀ a, a < nx0 → alookup H2 a = alookup H a) :
    ∀ (etE : Ty) (es : List Val), goodWElems nx0 tyE H etE es → goodWElems nx0 tyE H2 etE es
  | _, [], hg => hg
  | etE, v :: r, hg =>
      ⟨goodW_stable hag v hg.1, hg.2.1, goodWElems_stable hag etE r hg.2.2⟩
termination_by _ es _ => sizeOf es

theorem goodWEntries_stable {nx0 : Nat} {tyE : Nat → Ty} {H H2 : List (Nat × Obj)}
    (hag : ∀ a, a < nx0 → alookup H2 a = alookup H a) :
    ∀ (keE veE : Ty) (es : List (Val × Val)),
      goodWEntries nx0 tyE H keE veE es → goodWEntries nx0 tyE H2 keE veE es
  | _, _, [], hg => hg
  | keE, veE, (k, v) :: r, hg =>
      ⟨goodW_stable hag k hg.1, hg.2.1, goodW_stable hag v hg.2.2.1, hg.2.2.2.1,
       goodWEntries_stable hag keE veE r hg.2.2.2.2⟩
termination_by _ _ es _ => sizeOf es

end

theorem objGoodW_stable {nx0 : Nat} {tyE : Nat → Ty} {H H2 : List (Nat × Obj)}
    (hag : ∀ a, a < nx0 → alookup H2 a = alookup H a) {a : Nat} {o : Obj}
    (hg : objGoodW nx0 tyE H a o) : objGoodW nx0 tyE H2 a o := by
  cases o with
  | cell w => exact ⟨goodW_stable hag w hg.1, hg.2⟩
  | arr es => exact goodWElems_stable hag _ es hg
  | table es =>
      simp only [objGoodW] at hg ⊢
      revert hg
      cases tyE a <;> intro hg <;>
        first
          | exact goodWEntries_stable hag _ _ es hg
          | exact hg

theorem GoodSrcW_stable {nx0 : Nat} {tyE : Nat → Ty} {H H2 : List (Nat × Obj)}
    (hag : ∀ a, a < nx0 → alookup H2 a = alookup H a)
    (hg : GoodSrcW nx0 tyE H) : GoodSrcW nx0 tyE H2 := by
  intro a o ha ho
  rw [hag a ha] at ho
  exact objGoodW_stable hag (hg a o ha ho)

mutual

/-- Zero values are goodW in any context (they contain no live channels
and no addresses). -/
theorem goodW_zeroVal (nx0 : Nat) (tyE : Nat → Ty) (H : List (Nat × Obj)) :
    ∀ t : Ty, goodW nx0 tyE H (zeroVal t)
  | .intT => trivial
  | .i32T => trivial
  | .stringT => trivial
  | .boolT => trivial
  | .floatT => trivial
  | .chanT => trivial
  | .funcT => trivial
  | .unsafeT => trivial
  | .ptrT _ => trivial
  | .sliceT _ => trivial
  | .mapT _ _ => trivial
  | .structT fs => goodW_zeroFields nx0 tyE H fs
  | .arrayT e n => by
      simp only [zeroVal, goodW]
      exact goodW_zeroReplicate nx0 tyE H n e
  | .ifaceT => trivial
  | .namedT _ u => goodW_zeroVal nx0 tyE H u

/-- Zeroed field lists are goodW in any context. -/
theorem goodW_zeroFields (nx0 : Nat) (tyE : Nat → Ty) (H : List (Nat × Obj)) :
    ∀ fs : List (Bool × Ty), goodWFields nx0 tyE H (zeroFields fs)
  | [] => trivial
  | (ex, t) :: r =>
      ⟨goodW_zeroVal nx0 tyE H t, typeOf_zeroVal_erase t, goodW_zeroFields nx0 tyE H r⟩

/-- Replicated zero elements are goodW in any context. -/
theorem goodW_zeroReplicate (nx0 : Nat) (tyE : Nat → Ty) (H : List (Nat × Obj)) :
    ∀ (n : Nat) (e : Ty), goodWElems nx0 tyE H e.eraseNames (List.replicate n (zeroVal e))
  | 0, _ => trivial
  | n+1, e => by
      simp only [List.replicate, goodWElems]
      exact ⟨goodW_zeroVal nx0 tyE H e, typeOf_zeroVal_erase e,
             goodW_zeroReplicate nx0 tyE H n e⟩

end

/-- Erased-equal types get the same field action. -/
theorem fieldActionOf_erase_eq {a b : Ty} (h : a.eraseNames = b.eraseNames) :
    fieldActionOf a = fieldActionOf b := by
  unfold fieldActionOf
  rw [← Ty.kind_erase a, ← Ty.kind_erase b, h]

/-- A value whose dynamic type has the COPY action is channel-tolerantly
good in any context: scalar, string, func, unsafe and channel shapes
carry no heap references. -/
theorem goodW_of_copy (v : Val) (h : fieldActionOf v.typeOf = .copyField)
    (nx1 : Nat) (tyE1 : Nat → Ty) (H1 : List (Nat × Obj)) : goodW nx1 tyE1 H1 v := by
  cases v <;> first
    | trivial
    | simp [Val.typeOf, fieldActionOf, Ty.kind, counterTy] at h

mutual

/-- Channel-free goodness implies channel-tolerant goodness. -/
theorem goodW_of_good {nx0 : Nat} {tyE : Nat → Ty} {H : List (Nat × Obj)} :
    ∀ (v : Val), good nx0 tyE H v → goodW nx0 tyE H v
  | .chanV _, hg => hg.elim
  | .invalidV, hg => hg
  | .ptrV e a, hg => ⟨hg.1, hg.2.1, hg.2.2⟩
  | .sliceV e d l c, hg => ⟨hg.1, hg.2.1, hg.2.2.1, hg.2.2.2⟩
  | .mapV kt vt a, hg => ⟨hg.1, hg.2.1, hg.2.2⟩
  | .structV fs, hg => goodWFields_of_good fs hg
  | .arrV e es, hg => goodWElems_of_good e.eraseNames es hg
  | .ifaceV w, hg => goodW_of_good w hg
  | .intV _, hg => hg
  | .i32V _, hg => hg
  | .strV _, hg => hg
  | .boolV _, hg => hg
  | .floatV _, hg => hg
  | .chanNil, hg => hg
  | .funcNil, hg => hg
  | .funcV _, hg => hg
  | .unsafeV _, hg => hg
  | .ptrNil _, hg => hg
  | .sliceNil _, hg => hg
  | .mapNil _ _, hg => hg
  | .ifaceNil, hg => hg
  | .counterV _ _, hg => hg
termination_by v _ => sizeOf v

/-- Field version of `goodW_of_good`. -/
theorem goodWFields_of_good {nx0 : Nat} {tyE : Nat → Ty} {H : List (Nat × Obj)} :
    ∀ (fs : List (Bool × Ty × Val)), goodFields nx0 tyE H fs → goodWFields nx0 tyE H fs
  | [], hg => hg
  | (_, _, v) :: r, hg =>
      ⟨goodW_of_good v hg.1, hg.2.1, goodWFields_of_good r hg.2.2⟩
termination_by fs _ => sizeOf fs

/-- Element version of `goodW_of_good`. -/
theorem goodWElems_of_good {nx0 : Nat} {tyE : Nat → Ty} {H : List (Nat × Obj)} :
    ∀ (etE : Ty) (es : List Val), goodElems nx0 tyE H etE es → goodWElems nx0 tyE H etE es
  | _, [], hg => hg
  | etE, v :: r, hg =>
      ⟨goodW_of_good v hg.1, hg.2.1, goodWElems_of_good etE r hg.2.2⟩
termination_by _ es _ => sizeOf es

/-- Entry version of `goodW_of_good`. -/
theorem goodWEntries_of_good {nx0 : Nat} {tyE : Nat → Ty} {H : List (Nat × Obj)} :
    ∀ (keE veE : Ty) (es : List (Val × Val)),
      goodEntries nx0 tyE H keE veE es → goodWEntries nx0 tyE H keE veE es
  | _, _, [], hg => hg
  | keE, veE, (k, v) :: r, hg =>
      ⟨goodW_of_good k hg.1, hg.2.1, goodW_of_good v hg.2.2.1, hg.2.2.2.1,
       goodWEntries_of_good keE veE r hg.2.2.2.2⟩
termination_by _ _ es _ => sizeOf es

end

/-- Object version of `goodW_of_good`. -/
theorem objGoodW_of_objGood {nx0 : Nat} {tyE : Nat → Ty} {H : List (Nat × Obj)}
    {a : Nat} {o : Obj} (hg : objGood nx0 tyE H a o) : objGoodW nx0 tyE H a o := by
  cases o with
  | cell w => exact ⟨goodW_of_good w hg.1, hg.2⟩
  | arr es => exact goodWElems_of_good _ es hg
  | table es =>
      simp only [objGood, objGoodW] at hg ⊢
      revert hg
      cases tyE a <;> intro hg <;>
        first
          | exact goodWEntries_of_good _ _ es hg
          | exact hg

/-- Zone version of `goodW_of_good`. -/
theorem GoodSrcW_of_GoodSrc {nx0 : Nat} {tyE : Nat → Ty} {H : List (Nat × Obj)}
    (hgs : GoodSrc nx0 tyE H) : GoodSrcW nx0 tyE H :=
  fun a o ha hl => objGoodW_of_objGood (hgs a o ha hl)

/-- The full invariant carried through the walker run. -/
def SimInv (nx0 : Nat) (tyE : Nat → Ty) (st : St) (P : GPairs)
    (pc : List (Nat × Nat)) (pa : List (Nat × Nat × Nat)) (pt : List (Nat × Nat)) : Prop :=
  heapBounded st ∧ nx0 ≤ st.next ∧
  GoodSrcW nx0 tyE st.heap ∧
  WfPairs st.heap P ∧ PZone nx0 st.next P ∧
  VisP tyE st.visited P ∧
  (∀ p ∈ pc, p ∈ P.cells) ∧ (∀ p ∈ pa, p ∈ P.arrs) ∧ (∀ p ∈ pt, p ∈ P.tables) ∧
  CohP st.heap P pc pa pt ∧
  ZoneGe nx0 st.heap ∧
  Owned nx0 st.heap P ∧ CDis P ∧ PadOk tyE st.heap P

/-! ## Banded goodness: channels only in COPY-action positions -/

mutual

/-- Banded goodness of a value: every heap reference lands inside the
band `[lo, hi)`, live channels are excluded from every position the
walker dispatches on (they may sit only in COPY-action struct fields),
and all type tags agree with the assignment `tyE`.  A first clone
satisfies this over its clone band, which is exactly what a second run
of the engine preserves denotationally. -/
def goodB (lo hi : Nat) (tyE : Nat → Ty) (H : List (Nat × Obj)) : Val → Prop
  | .chanV _ => False
  | .invalidV => False
  | .ptrV e a => lo ≤ a ∧ a < hi ∧ e.eraseNames = tyE a ∧
      (∃ w, alookup H a = some (.cell w))
  | .sliceV e d l c => lo ≤ d ∧ d < hi ∧ e.eraseNames = tyE d ∧ l ≤ c ∧
      (∃ es, alookup H d = some (.arr es) ∧ l ≤ es.length)
  | .mapV kt vt a => lo ≤ a ∧ a < hi ∧ (Ty.mapT kt vt).eraseNames = tyE a ∧
      (∃ es, alookup H a = some (.table es))
  | .structV fs => goodBFields lo hi tyE H fs
  | .arrV e es => goodBElems lo hi tyE H e.eraseNames es
  | .ifaceV w => goodB lo hi tyE H w
  | _ => True

/-- Fields of a banded-good struct: exported CLONE-action fields and
unexported fields are recursively banded-good, COPY-action fields are
constrained only by their type tag (a live channel may sit there), and
every tag matches the declared field type. -/
def goodBFields (lo hi : Nat) (tyE : Nat → Ty) (H : List (Nat × Obj)) :
    List (Bool × Ty × Val) → Prop
  | [] => True
  | (ex, t, v) :: r =>
      (ex = true → fieldActionOf t = .cloneField → goodB lo hi tyE H v) ∧
      (ex = false → goodB lo hi tyE H v) ∧
      v.typeOf.eraseNames = t.eraseNames ∧ goodBFields lo hi tyE H r

/-- Elements of a banded-good sequence. -/
def goodBElems (lo hi : Nat) (tyE : Nat → Ty) (H : List (Nat × Obj)) (etE : Ty) :
    List Val → Prop
  | [] => True
  | v :: r => goodB lo hi tyE H v ∧ v.typeOf.eraseNames = etE ∧
      goodBElems lo hi tyE H etE r

/-- Entries of a banded-good table. -/
def goodBEntries (lo hi : Nat) (tyE : Nat → Ty) (H : List (Nat × Obj)) (keE veE : Ty) :
    List (Val × Val) → Prop
  | [] => True
  | (k, v) :: r => goodB lo hi tyE H k ∧ k.typeOf.eraseNames = keE ∧
      goodB lo hi tyE H v ∧ v.typeOf.eraseNames = veE ∧
      goodBEntries lo hi tyE H keE veE r

end

/-- Banded goodness of a heap object at address `a`. -/
def objGoodB (lo hi : Nat) (tyE : Nat → Ty) (H : List (Nat × Obj)) (a : Nat) : Obj → Prop
  | .cell w => goodB lo hi tyE H w ∧ w.typeOf.eraseNames = tyE a
  | .arr es => goodBElems lo hi tyE H (tyE a) es
  | .table es =>
      match tyE a with
      | .mapT keE veE => goodBEntries lo hi tyE H keE veE es
      | _ => False

/-- The band `[lo, hi)` of the heap is banded-good and typed. -/
def GoodSrcB (lo hi : Nat) (tyE : Nat → Ty) (H : List (Nat × Obj)) : Prop :=
  ∀ a o, lo ≤ a → a < hi → alookup H a = some o → objGoodB lo hi tyE H a o

theorem goodBElems_take {lo hi : Nat} {tyE : Nat → Ty} {H : List (Nat × Obj)} {etE : Ty}
    {es : List Val} (h : goodBElems lo hi tyE H etE es) (l : Nat) :
    goodBElems lo hi tyE H etE (es.take l) := by
  induction es generalizing l with
  | nil => simp [goodBElems]
  | cons w r ih =>
      cases l with
      | zero => simp [goodBElems]
      | succ m =>
          simp only [goodBElems] at h
          simp only [List.take, goodBElems]
          exact ⟨h.1, h.2.1, ih h.2.2 m⟩

mutual

/-- Banded goodness only inspects lookups below the band's upper end,
so it survives any heap change at or above it. -/
theorem goodB_stable {lo hi : Nat} {tyE : Nat → Ty} {H H2 : List (Nat × Obj)}
    (hag : ∀ a, a < hi → alookup H2 a = alookup H a) :
    ∀ (v : Val), goodB lo hi tyE H v → goodB lo hi tyE H2 v
  | .chanV _, hg => hg
  | .invalidV, hg => hg
  | .ptrV e a, hg => ⟨hg.1, hg.2.1, hg.2.2.1, by rw [hag a hg.2.1]; exact hg.2.2.2⟩
  | .sliceV e d l c, hg =>
      ⟨hg.1, hg.2.1, hg.2.2.1, hg.2.2.2.1, by rw [hag d hg.2.1]; exact hg.2.2.2.2⟩
  | .mapV kt vt a, hg => ⟨hg.1, hg.2.1, hg.2.2.1, by rw [hag a hg.2.1]; exact hg.2.2.2⟩
  | .structV fs, hg => goodBFields_stable hag fs hg
  | .arrV e es, hg => goodBElems_stable hag e.eraseNames es hg
  | .ifaceV w, hg => goodB_stable hag w hg
  | .intV _, hg => hg
  | .i32V _, hg => hg
  | .strV _, hg => hg
  | .boolV _, hg => hg
  | .floatV _, hg => hg
  | .chanNil, hg => hg
  | .funcNil, hg => hg
  | .funcV _, hg => hg
  | .unsafeV _, hg => hg
  | .ptrNil _, hg => hg
  | .sliceNil _, hg => hg
  | .mapNil _ _, hg => hg
  | .ifaceNil, hg => hg
  | .counterV _ _, hg => hg
termination_by v _ => sizeOf v

/-- Field version of `goodB_stable`. -/
theorem goodBFields_stable {lo hi : Nat} {tyE : Nat → Ty} {H H2 : List (Nat × Obj)}
    (hag : ∀ a, a < hi → alookup H2 a = alookup H a) :
    ∀ (fs : List (Bool × Ty × Val)), goodBFields lo hi tyE H fs → goodBFields lo hi tyE H2 fs
  | [], hg => hg
  | (ex, t, v) :: r, hg =>
      ⟨fun he ha => goodB_stable hag v (hg.1 he ha),
       fun he => goodB_stable hag v (hg.2.1 he),
       hg.2.2.1, goodBFields_stable hag r hg.2.2.2⟩
termination_by fs _ => sizeOf fs

/-- Element version of `goodB_stable`. -/
theorem goodBElems_stable {lo hi : Nat} {tyE : Nat → Ty} {H H2 : List (Nat × Obj)}
    (hag : ∀ a, a < hi → alookup H2 a = alookup H a) :
    ∀ (etE : Ty) (es : List Val), goodBElems lo hi tyE H etE es → goodBElems lo hi tyE H2 etE es
  | _, [], hg => hg
  | etE, v :: r, hg =>
      ⟨goodB_stable hag v hg.1, hg.2.1, goodBElems_stable hag etE r hg.2.2⟩
termination_by _ es _ => sizeOf es

/-- Entry version of `goodB_stable`. -/
theorem goodBEntries_stable {lo hi : Nat} {tyE : Nat → Ty} {H H2 : List (Nat × Obj)}
    (hag : ∀ a, a < hi → alookup H2 a = alookup H a) :
    ∀ (keE veE : Ty) (es : List (Val × Val)),
      goodBEntries lo hi tyE H keE veE es → goodBEntries lo hi tyE H2 keE veE es
  | _, _, [], hg => hg
  | keE, veE, (k, v) :: r, hg =>
      ⟨goodB_stable hag k hg.1, hg.2.1, goodB_stable hag v hg.2.2.1, hg.2.2.2.1,
       goodBEntries_stable hag keE veE r hg.2.2.2.2⟩
termination_by _ _ es _ => sizeOf es

end

/-- Object version of `goodB_stable`. -/
theorem objGoodB_stable {lo hi : Nat} {tyE : Nat → Ty} {H H2 : List (Nat × Obj)}
    (hag : ∀ a, a < hi → alookup H2 a = alookup H a) {a : Nat} {o : Obj}
    (hg : objGoodB lo hi tyE H a o) : objGoodB lo hi tyE H2 a o := by
  cases o with
  | cell w => exact ⟨goodB_stable hag w hg.1, hg.2⟩
  | arr es => exact goodBElems_stable hag _ es hg
  | table es =>
      simp only [objGoodB] at hg ⊢
      revert hg
      cases tyE a <;> intro hg <;>
        first
          | exact goodBEntries_stable hag _ _ es hg
          | exact hg

/-- Band version of `goodB_stable`. -/
theorem GoodSrcB_stable {lo hi : Nat} {tyE : Nat → Ty} {H H2 : List (Nat × Obj)}
    (hag : ∀ a, a < hi → alookup H2 a = alookup H a)
    (hg : GoodSrcB lo hi tyE H) : GoodSrcB lo hi tyE H2 := by
  intro a o hal hah ho
  rw [hag a hah] at ho
  exact objGoodB_stable hag (hg a o hal hah ho)

mutual

/-- Zero values are banded-good in any context: the zero of a channel
type is the nil channel, and zeros carry no heap addresses. -/
theorem goodB_zeroVal (lo hi : Nat) (tyE : Nat → Ty) (H : List (Nat × Obj)) :
    ∀ t : Ty, goodB lo hi tyE H (zeroVal t)
  | .intT => trivial
  | .i32T => trivial
  | .stringT => trivial
  | .boolT => trivial
  | .floatT => trivial
  | .chanT => trivial
  | .funcT => trivial
  | .unsafeT => trivial
  | .ptrT _ => trivial
  | .sliceT _ => trivial
  | .mapT _ _ => trivial
  | .structT fs => goodB_zeroFields lo hi tyE H fs
  | .arrayT e n => by
      simp only [zeroVal, goodB]
      exact goodB_zeroReplicate lo hi tyE H n e
  | .ifaceT => trivial
  | .namedT _ u => goodB_zeroVal lo hi tyE H u

/-- Zeroed field lists are banded-good in any context. -/
theorem goodB_zeroFields (lo hi : Nat) (tyE : Nat → Ty) (H : List (Nat × Obj)) :
    ∀ fs : List (Bool × Ty), goodBFields lo hi tyE H (zeroFields fs)
  | [] => trivial
  | (ex, t) :: r =>
      ⟨fun _ _ => goodB_zeroVal lo hi tyE H t, fun _ => goodB_zeroVal lo hi tyE H t,
       typeOf_zeroVal_erase t, goodB_zeroFields lo hi tyE H r⟩

/-- Replicated zero elements are banded-good in any context. -/
theorem goodB_zeroReplicate (lo hi : Nat) (tyE : Nat → Ty) (H : List (Nat × Obj)) :
    ∀ (n : Nat) (e : Ty), goodBElems lo hi tyE H e.eraseNames (List.replicate n (zeroVal e))
  | 0, _ => trivial
  | n+1, e => by
      simp only [List.replicate, goodBElems]
      exact ⟨goodB_zeroVal lo hi tyE H e, typeOf_zeroVal_erase e,
             goodB_zeroReplicate lo hi tyE H n e⟩

end

theorem goodBElems_append {lo hi : Nat} {tyE : Nat → Ty} {H : List (Nat × Obj)} {etE : Ty} :
    ∀ {l1 l2 : List Val}, goodBElems lo hi tyE H etE l1 → goodBElems lo hi tyE H etE l2 →
      goodBElems lo hi tyE H etE (l1 ++ l2)
  | [], _, _, h2 => h2
  | v :: r, l2, h1, h2 => ⟨h1.1, h1.2.1, goodBElems_append h1.2.2 h2⟩

theorem goodBElems_of_mem {lo hi : Nat} {tyE : Nat → Ty} {H : List (Nat × Obj)} {etE : Ty} :
    ∀ es : List Val, (∀ w ∈ es, goodB lo hi tyE H w ∧ w.typeOf.eraseNames = etE) →
      goodBElems lo hi tyE H etE es
  | [], _ => trivial
  | v :: r, h =>
      ⟨(h v (List.mem_cons_self _ _)).1, (h v (List.mem_cons_self _ _)).2,
       goodBElems_of_mem r (fun w hw => h w (List.mem_cons_of_mem _ hw))⟩

theorem goodBEntries_of_mem {lo hi : Nat} {tyE : Nat → Ty} {H : List (Nat × Obj)}
    {keE veE : Ty} :
    ∀ es : List (Val × Val),
      (∀ p ∈ es, (goodB lo hi tyE H p.1 ∧ p.1.typeOf.eraseNames = keE) ∧
        (goodB lo hi tyE H p.2 ∧ p.2.typeOf.eraseNames = veE)) →
      goodBEntries lo hi tyE H keE veE es
  | [], _ => trivial
  | (k, v) :: r, h =>
      ⟨(h (k, v) (List.mem_cons_self _ _)).1.1, (h (k, v) (List.mem_cons_self _ _)).1.2,
       (h (k, v) (List.mem_cons_self _ _)).2.1, (h (k, v) (List.mem_cons_self _ _)).2.2,
       goodBEntries_of_mem r (fun p hp => h p (List.mem_cons_of_mem _ hp))⟩

/-- A value of a fast-path scalar element type is banded-good in any
context (fast-path element types are never channels). -/
theorem goodB_of_fastElem {e : Ty} {w : Val} (lo hi : Nat) (tyE : Nat → Ty)
    (H : List (Nat × Obj)) (hf : fastSliceElem e = true)
    (ht : w.typeOf.eraseNames = e.eraseNames) : goodB lo hi tyE H w := by
  cases e <;> simp [fastSliceElem] at hf <;>
    cases w <;> first
      | trivial
      | simp [Val.typeOf, Ty.eraseNames, counterTy, eraseNamesFields] at ht

mutual

/-- Channel-free goodness is banded goodness at band `[0, nx0)`. -/
theorem goodB_of_good {nx0 : Nat} {tyE : Nat → Ty} {H : List (Nat × Obj)} :
    ∀ (v : Val), good nx0 tyE H v → goodB 0 nx0 tyE H v
  | .chanV _, hg => hg.elim
  | .invalidV, hg => hg
  | .ptrV e a, hg => ⟨Nat.zero_le _, hg.1, hg.2.1, hg.2.2⟩
  | .sliceV e d l c, hg => ⟨Nat.zero_le _, hg.1, hg.2.1, hg.2.2.1, hg.2.2.2⟩
  | .mapV kt vt a, hg => ⟨Nat.zero_le _, hg.1, hg.2.1, hg.2.2⟩
  | .structV fs, hg => goodBFields_of_good fs hg
  | .arrV e es, hg => goodBElems_of_good e.eraseNames es hg
  | .ifaceV w, hg => goodB_of_good w hg
  | .intV _, hg => hg
  | .i32V _, hg => hg
  | .strV _, hg => hg
  | .boolV _, hg => hg
  | .floatV _, hg => hg
  | .chanNil, hg => hg
  | .funcNil, hg => hg
  | .funcV _, hg => hg
  | .unsafeV _, hg => hg
  | .ptrNil _, hg => hg
  | .sliceNil _, hg => hg
  | .mapNil _ _, hg => hg
  | .ifaceNil, hg => hg
  | .counterV _ _, hg => hg
termination_by v _ => sizeOf v

/-- Field version of `goodB_of_good`. -/
theorem goodBFields_of_good {nx0 : Nat} {tyE : Nat → Ty} {H : List (Nat × Obj)} :
    ∀ (fs : List (Bool × Ty × Val)), goodFields nx0 tyE H fs → goodBFields 0 nx0 tyE H fs
  | [], hg => hg
  | (ex, t, v) :: r, hg =>
      ⟨fun _ _ => goodB_of_good v hg.1, fun _ => goodB_of_good v hg.1,
       hg.2.1, goodBFields_of_good r hg.2.2⟩
termination_by fs _ => sizeOf fs

/-- Element version of `goodB_of_good`. -/
theorem goodBElems_of_good {nx0 : Nat} {tyE : Nat → Ty} {H : List (Nat × Obj)} :
    ∀ (etE : Ty) (es : List Val), goodElems nx0 tyE H etE es → goodBElems 0 nx0 tyE H etE es
  | _, [], hg => hg
  | etE, v :: r, hg =>
      ⟨goodB_of_good v hg.1, hg.2.1, goodBElems_of_good etE r hg.2.2⟩
termination_by _ es _ => sizeOf es

/-- Entry version of `goodB_of_good`. -/
theorem goodBEntries_of_good {nx0 : Nat} {tyE : Nat → Ty} {H : List (Nat × Obj)} :
    ∀ (keE veE : Ty) (es : List (Val × Val)),
      goodEntries nx0 tyE H keE veE es → goodBEntries 0 nx0 tyE H keE veE es
  | _, _, [], hg => hg
  | keE, veE, (k, v) :: r, hg =>
      ⟨goodB_of_good k hg.1, hg.2.1, goodB_of_good v hg.2.2.1, hg.2.2.2.1,
       goodBEntries_of_good keE veE r hg.2.2.2.2⟩
termination_by _ _ es _ => sizeOf es

end

/-- Object version of `goodB_of_good`. -/
theorem objGoodB_of_objGood {nx0 : Nat} {tyE : Nat → Ty} {H : List (Nat × Obj)}
    {a : Nat} {o : Obj} (hg : objGood nx0 tyE H a o) : objGoodB 0 nx0 tyE H a o := by
  cases o with
  | cell w => exact ⟨goodB_of_good w hg.1, hg.2⟩
  | arr es => exact goodBElems_of_good _ es hg
  | table es =>
      simp only [objGood, objGoodB] at hg ⊢
      revert hg
      cases tyE a <;> intro hg <;>
        first
          | exact goodBEntries_of_good _ _ es hg
          | exact hg

/-- Zone version of `goodB_of_good`. -/
theorem GoodSrcB_of_GoodSrc {nx0 : Nat} {tyE : Nat → Ty} {H : List (Nat × Obj)}
    (hgs : GoodSrc nx0 tyE H) : GoodSrcB 0 nx0 tyE H :=
  fun a o _ ha hl => objGoodB_of_objGood (hgs a o ha hl)

mutual

/-- Banded goodness implies channel-tolerant goodness at the band's
upper end: COPY-action fields are channel-tolerantly good because their
type kind carries no heap references. -/
theorem goodW_of_goodB {lo hi : Nat} {tyE : Nat → Ty} {H : List (Nat × Obj)} :
    ∀ (v : Val), goodB lo hi tyE H v → goodW hi tyE H v
  | .chanV _, hg => hg.elim
  | .invalidV, hg => hg
  | .ptrV e a, hg => ⟨hg.2.1, hg.2.2.1, hg.2.2.2⟩
  | .sliceV e d l c, hg => ⟨hg.2.1, hg.2.2.1, hg.2.2.2.1, hg.2.2.2.2⟩
  | .mapV kt vt a, hg => ⟨hg.2.1, hg.2.2.1, hg.2.2.2⟩
  | .structV fs, hg => goodWFields_of_goodB fs hg
  | .arrV e es, hg => goodWElems_of_goodB e.eraseNames es hg
  | .ifaceV w, hg => goodW_of_goodB w hg
  | .intV _, hg => hg
  | .i32V _, hg => hg
  | .strV _, hg => hg
  | .boolV _, hg => hg
  | .floatV _, hg => hg
  | .chanNil, hg => hg
  | .funcNil, hg => hg
  | .funcV _, hg => hg
  | .unsafeV _, hg => hg
  | .ptrNil _, hg => hg
  | .sliceNil _, hg => hg
  | .mapNil _ _, hg => hg
  | .ifaceNil, hg => hg
  | .counterV _ _, hg => hg
termination_by v _ => sizeOf v

/-- Field version of `goodW_of_goodB`. -/
theorem goodWFields_of_goodB {lo hi : Nat} {tyE : Nat → Ty} {H : List (Nat × Obj)} :
    ∀ (fs : List (Bool × Ty × Val)), goodBFields lo hi tyE H fs → goodWFields hi tyE H fs
  | [], hg => hg
  | (ex, t, v) :: r, hg => by
      refine ⟨?_, hg.2.2.1, goodWFields_of_goodB r hg.2.2.2⟩
      cases ex with
      | false => exact goodW_of_goodB v (hg.2.1 rfl)
      | true =>
          rcases hact : fieldActionOf t with _ | _
          · exact goodW_of_copy v
              (by rw [fieldActionOf_erase_eq hg.2.2.1]; exact hact) _ _ _
          · exact goodW_of_goodB v (hg.1 rfl hact)
termination_by fs _ => sizeOf fs

/-- Element version of `goodW_of_goodB`. -/
theorem goodWElems_of_goodB {lo hi : Nat} {tyE : Nat → Ty} {H : List (Nat × Obj)} :
    ∀ (etE : Ty) (es : List Val), goodBElems lo hi tyE H etE es → goodWElems hi tyE H etE es
  | _, [], hg => hg
  | etE, v :: r, hg =>
      ⟨goodW_of_goodB v hg.1, hg.2.1, goodWElems_of_goodB etE r hg.2.2⟩
termination_by _ es _ => sizeOf es

/-- Entry version of `goodW_of_goodB`. -/
theorem goodWEntries_of_goodB {lo hi : Nat} {tyE : Nat → Ty} {H : List (Nat × Obj)} :
    ∀ (keE veE : Ty) (es : List (Val × Val)),
      goodBEntries lo hi tyE H keE veE es → goodWEntries hi tyE H keE veE es
  | _, _, [], hg => hg
  | keE, veE, (k, v) :: r, hg =>
      ⟨goodW_of_goodB k hg.1, hg.2.1, goodW_of_goodB v hg.2.2.1, hg.2.2.2.1,
       goodWEntries_of_goodB keE veE r hg.2.2.2.2⟩
termination_by _ _ es _ => sizeOf es

end

/-- Object version of `goodW_of_goodB`. -/
theorem objGoodW_of_objGoodB {lo hi : Nat} {tyE : Nat → Ty} {H : List (Nat × Obj)}
    {a : Nat} {o : Obj} (hg : objGoodB lo hi tyE H a o) : objGoodW hi tyE H a o := by
  cases o with
  | cell w => exact ⟨goodW_of_goodB w hg.1, hg.2⟩
  | arr es => exact goodWElems_of_goodB _ es hg
  | table es =>
      simp only [objGoodB, objGoodW] at hg ⊢
      revert hg
      cases tyE a <;> intro hg <;>
        first
          | exact goodWEntries_of_goodB _ _ es hg
          | exact hg


/-! ## Association-list and reader congruence lemmas -/

theorem mem_aset {α : Type} :
    ∀ (l : List (Nat × α)) (k : Nat) (v : α) (q : Nat × α),
      q ∈ aset l k v → q = (k, v) ∨ q ∈ l := by
  intro l k v q
  induction l with
  | nil => intro h; simp [aset] at h; exact Or.inl h
  | cons p r ih =>
      obtain ⟨a, w⟩ := p
      by_cases hk : a = k
      · subst hk
        intro h
        simp only [aset, if_pos rfl] at h
        rcases List.mem_cons.mp h with h | h
        · exact Or.inl h
        · exact Or.inr (List.mem_cons_of_mem _ h)
      · intro h
        simp only [aset, if_neg hk] at h
        rcases List.mem_cons.mp h with h | h
        · exact Or.inr (h ▸ List.mem_cons_self _ _)
        · rcases ih h with h1 | h1
          · exact Or.inl h1
          · exact Or.inr (List.mem_cons_of_mem _ h1)

theorem readCell_aset_ne (H : List (Nat × Obj)) (b a : Nat) (o : Obj) (h : a ≠ b) :
    readCell (aset H b o) a = readCell H a := by
  simp [readCell, alookup_aset_ne H b a o (fun he => h he.symm)]

theorem readArr_aset_ne (H : List (Nat × Obj)) (b a : Nat) (o : Obj) (h : a ≠ b) :
    readArr (aset H b o) a = readArr H a := by
  simp [readArr, alookup_aset_ne H b a o (fun he => h he.symm)]

theorem readTable_aset_ne (H : List (Nat × Obj)) (b a : Nat) (o : Obj) (h : a ≠ b) :
    readTable (aset H b o) a = readTable H a := by
  simp [readTable, alookup_aset_ne H b a o (fun he => h he.symm)]

/-- `VisP` is monotone in the pair set. -/
theorem visP_mono {tyE : Nat → Ty} {vis : List (Nat × Val)} {P Q : GPairs}
    (hs : P.sub Q) (h : VisP tyE vis P) : VisP tyE vis Q := by
  intro q hq
  have h1 := h q hq
  cases hv : q.2 <;> rw [hv] at h1 <;> try exact h1
  · exact ⟨hs.1 _ h1.1, h1.2⟩
  · exact ⟨hs.2.1 _ h1.1, h1.2⟩
  · exact ⟨hs.2.2 _ h1.1, h1.2⟩

/-! ## From the clone relation to denotation equality -/

theorem valsRel_map_den {P : GPairs} {lo hi : Nat} {tyE : Nat → Ty}
    {H : List (Nat × Obj)} {n : Nat}
    (ih : ∀ v w, CRel P v w → goodB lo hi tyE H v → den n H v = den n H w) :
    ∀ {etE : Ty} {vs ws : List Val}, ValsRel P vs ws → goodBElems lo hi tyE H etE vs →
      vs.map (fun w => den n H w) = ws.map (fun w => den n H w)
  | _, _, _, .nilR, _ => rfl
  | etE, _, _, .consR v w vs ws hr hl, hg => by
      simp only [List.map]
      rw [ih v w hr hg.1, valsRel_map_den ih hl hg.2.2]

theorem entsRel_map_den {P : GPairs} {lo hi : Nat} {tyE : Nat → Ty}
    {H : List (Nat × Obj)} {n : Nat}
    (ih : ∀ v w, CRel P v w → goodB lo hi tyE H v → den n H v = den n H w) :
    ∀ {keE veE : Ty} {es gs : List (Val × Val)}, EntsRel P es gs →
      goodBEntries lo hi tyE H keE veE es →
      es.map (fun p => (den n H p.1, den n H p.2)) =
        gs.map (fun p => (den n H p.1, den n H p.2))
  | _, _, _, _, .nilR, _ => rfl
  | keE, veE, _, _, .consR k v k1 v1 r r1 hk hv hl, hg => by
      simp only [List.map]
      rw [ih k k1 hk hg.1, ih v v1 hv hg.2.2.1, entsRel_map_den ih hl hg.2.2.2.2]

theorem fieldsRel_map_den {P : GPairs} {lo hi : Nat} {tyE : Nat → Ty}
    {H : List (Nat × Obj)} {n : Nat}
    (ih : ∀ v w, CRel P v w → goodB lo hi tyE H v → den n H v = den n H w) :
    ∀ {fs gs : List (Bool × Ty × Val)}, FieldsRel P fs gs → goodBFields lo hi tyE H fs →
      (fs.filter (fun f => f.1 = true)).map (fun f => den n H f.2.2) =
        (gs.filter (fun f => f.1 = true)).map (fun f => den n H f.2.2)
  | _, _, .nilR, _ => rfl
  | _, _, .skipR t v r r1 hl, hg => by
      simp only [List.filter]
      exact fieldsRel_map_den ih hl hg.2.2.2
  | _, _, .copyR t v r r1 _ hl, hg => by
      simp only [List.filter, decide_True, List.map]
      rw [fieldsRel_map_den ih hl hg.2.2.2]
  | _, _, .cloneR t v w r r1 ha hr hl, hg => by
      simp only [List.filter, decide_True, List.map]
      rw [ih v w hr (hg.1 rfl ha), fieldsRel_map_den ih hl hg.2.2.2]

/-- Coherent pairs make related values denote the same tree at every
depth, provided the source is banded-good over a banded-good heap band:
the banding rules out live channels exactly at the positions the walker
dispatches on (a COPY-action channel field is copied verbatim to the
clone, so it never decides equality), and every address the comparison
follows stays inside the band. -/
theorem den_eq_B {P : GPairs} {lo hi : Nat} {tyE : Nat → Ty} {H : List (Nat × Obj)}
    (hcoh : CohP H P [] [] []) (hgs : GoodSrcB lo hi tyE H) :
    ∀ n, ∀ v w : Val, CRel P v w → goodB lo hi tyE H v → den n H v = den n H w := by
  intro n
  induction n with
  | zero => intro v w _ _; simp [den]
  | succ n ih =>
      intro v w h hg
      cases h with
      | ptrR e e1 a a1 hp he =>
          obtain ⟨hlo, hhi, _, w0, hw0⟩ := hg
          simp only [den]
          refine congrArg GTree.ptrD (ih _ _ (hcoh.1 (a, a1) hp (by simp)) ?_)
          have hog := hgs a _ hlo hhi hw0
          rw [show readCell H a = w0 from by simp [readCell, hw0]]
          exact hog.1
      | sliceR e e1 d d1 l c c1 hp hl he =>
          obtain ⟨hlo, hhi, _, _, es, hes, hlen⟩ := hg
          simp only [den]
          have hog := hgs d _ hlo hhi hes
          have hels : goodBElems lo hi tyE H (tyE d) ((readArr H d).take l) := by
            rw [show readArr H d = es from by simp [readArr, hes]]
            exact goodBElems_take hog l
          exact congrArg GTree.sliceD
            (valsRel_map_den ih (hcoh.2.1 (d, d1, l) hp (by simp)) hels)
      | mapR kt vt kt1 vt1 a a1 hp hk hv =>
          obtain ⟨hlo, hhi, hty, es, hes⟩ := hg
          simp only [den]
          have hog := hgs a _ hlo hhi hes
          simp only [objGoodB] at hog
          have hta : tyE a = Ty.mapT kt.eraseNames vt.eraseNames := by
            rw [← hty]; rfl
          rw [hta] at hog
          have hents : goodBEntries lo hi tyE H kt.eraseNames vt.eraseNames
              (readTable H a) := by
            rw [show readTable H a = es from by simp [readTable, hes]]
            exact hog
          exact congrArg GTree.mapD
            (entsRel_map_den ih (hcoh.2.2 (a, a1) hp (by simp)) hents)
      | structR fs gs hf =>
          simp only [den]
          exact congrArg GTree.structD (fieldsRel_map_den ih hf hg)
      | arrR e e1 es gs he hv =>
          simp only [den]
          exact congrArg GTree.arrD (valsRel_map_den ih hv hg)
      | ifaceR v1 w1 hr =>
          simp only [den]
          exact congrArg GTree.ifaceD (ih _ _ hr hg)
      | chanR i => exact hg.elim
      | _ => simp [den]

/-! ## Clone-side zone and goodness transport -/

mutual

/-- Clones of goodW sources live entirely in the clone zone: every
address they carry is a pair's clone side (or the value is
address-free). -/
theorem CRel.clone_addrsGe {P : GPairs} {nx0 nx : Nat} {tyE : Nat → Ty}
    {H : List (Nat × Obj)} (hz : PZone nx0 nx P) :
    ∀ {v w : Val}, CRel P v w → goodW nx0 tyE H v → addrsGe nx0 w
  | _, _, .intR _, _ => trivial
  | _, _, .i32R _, _ => trivial
  | _, _, .strR _, _ => trivial
  | _, _, .boolR _, _ => trivial
  | _, _, .floatR _, _ => trivial
  | _, _, .chanNilR, _ => trivial
  | _, _, .chanR _, _ => trivial
  | _, _, .funcNilR, _ => trivial
  | _, _, .funcR _, _ => trivial
  | _, _, .unsafeR _, _ => trivial
  | _, _, .ptrNilR _ _ _, _ => trivial
  | _, _, .ptrR _ _ _ _ hp _, _ => (hz.1 _ hp).2.1
  | _, _, .sliceNilR _ _ _, _ => trivial
  | _, _, .sliceR _ _ _ _ _ _ _ hp _ _, _ => (hz.2.1 _ hp).2.1
  | _, _, .mapNilR _ _ _ _ _ _, _ => trivial
  | _, _, .mapR _ _ _ _ _ _ hp _ _, _ => (hz.2.2 _ hp).2.1
  | _, _, .structR fs gs hf, hg => fieldsRel_clone_addrsGe hz hf hg
  | _, _, .arrR e _ es gs _ hv, hg =>
      valsRel_clone_addrsGe hz e.eraseNames hv hg
  | _, _, .ifaceNilR, _ => trivial
  | _, _, .ifaceR v1 w1 hr, hg =>
      (CRel.clone_addrsGe hz hr hg : addrsGe nx0 w1)
  | _, _, .counterR _ _, _ => trivial

/-- Element-list version of `CRel.clone_addrsGe`. -/
theorem valsRel_clone_addrsGe {P : GPairs} {nx0 nx : Nat} {tyE : Nat → Ty}
    {H : List (Nat × Obj)} (hz : PZone nx0 nx P) :
    ∀ (etE : Ty) {vs ws : List Val}, ValsRel P vs ws →
      goodWElems nx0 tyE H etE vs → addrsGeList nx0 ws
  | _, _, _, .nilR, _ => trivial
  | etE, _, _, .consR v w vs ws hr hl, hg =>
      ⟨CRel.clone_addrsGe hz hr hg.1, valsRel_clone_addrsGe hz etE hl hg.2.2⟩

/-- Entry-list version of `CRel.clone_addrsGe`. -/
theorem entsRel_clone_addrsGe {P : GPairs} {nx0 nx : Nat} {tyE : Nat → Ty}
    {H : List (Nat × Obj)} (hz : PZone nx0 nx P) :
    ∀ (keE veE : Ty) {es gs : List (Val × Val)}, EntsRel P es gs →
      goodWEntries nx0 tyE H keE veE es → addrsGeEntries nx0 gs
  | _, _, _, _, .nilR, _ => trivial
  | keE, veE, _, _, .consR k v k1 v1 r r1 hk hv hl, hg =>
      ⟨CRel.clone_addrsGe hz hk hg.1, CRel.clone_addrsGe hz hv hg.2.2.1,
       entsRel_clone_addrsGe hz keE veE hl hg.2.2.2.2⟩

/-- Field-list version of `CRel.clone_addrsGe`. -/
theorem fieldsRel_clone_addrsGe {P : GPairs} {nx0 nx : Nat} {tyE : Nat → Ty}
    {H : List (Nat × Obj)} (hz : PZone nx0 nx P) :
    ∀ {fs gs : List (Bool × Ty × Val)}, FieldsRel P fs gs →
      goodWFields nx0 tyE H fs → addrsGeFields nx0 gs
  | _, _, .nilR, _ => trivial
  | _, _, .skipR t v r r1 hl, hg =>
      ⟨addrsGe_zeroVal nx0 t, fieldsRel_clone_addrsGe hz hl hg.2.2⟩
  | _, _, .copyR t v r r1 ha hl, hg =>
      ⟨addrsGe_of_copy nx0 v (by rw [fieldActionOf_erase_eq hg.2.1]; exact ha),
       fieldsRel_clone_addrsGe hz hl hg.2.2⟩
  | _, _, .cloneR t v w r r1 _ hr hl, hg =>
      ⟨CRel.clone_addrsGe hz hr hg.1, fieldsRel_clone_addrsGe hz hl hg.2.2⟩

end

/-- Resolution data for the pair set over the final heap: every clone
side lands inside the clone band `[nx0, nx2)`, is typed by the source
address's erased type, and resolves to the right kind of object. -/
def PairRes (P : GPairs) (tyE tyE2 : Nat → Ty) (H2 : List (Nat × Obj))
    (nx0 nx2 : Nat) : Prop :=
  (∀ p ∈ P.cells, nx0 ≤ p.2 ∧ p.2 < nx2 ∧ tyE2 p.2 = tyE p.1 ∧
      ∃ w, alookup H2 p.2 = some (.cell w)) ∧
  (∀ p ∈ P.arrs, nx0 ≤ p.2.1 ∧ p.2.1 < nx2 ∧ tyE2 p.2.1 = tyE p.1 ∧
      ∃ es, alookup H2 p.2.1 = some (.arr es) ∧ p.2.2 ≤ es.length) ∧
  (∀ p ∈ P.tables, nx0 ≤ p.2 ∧ p.2 < nx2 ∧ tyE2 p.2 = tyE p.1 ∧
      ∃ es, alookup H2 p.2 = some (.table es))

mutual

/-- Clones of channel-tolerantly good sources are banded-good over the
clone band of the final heap: the walker zeroed every channel it
dispatched on (only COPY-action struct fields may still carry one), and
every clone-side address lands inside the band. -/
theorem CRel.clone_goodB {P : GPairs} {nx0 nx2 : Nat} {tyE tyE2 : Nat → Ty}
    {H H2 : List (Nat × Obj)} (hpr : PairRes P tyE tyE2 H2 nx0 nx2) :
    ∀ {v w : Val}, CRel P v w → goodW nx0 tyE H v → goodB nx0 nx2 tyE2 H2 w
  | _, _, .intR _, _ => trivial
  | _, _, .i32R _, _ => trivial
  | _, _, .strR _, _ => trivial
  | _, _, .boolR _, _ => trivial
  | _, _, .floatR _, _ => trivial
  | _, _, .chanNilR, _ => trivial
  | _, _, .chanR _, _ => trivial
  | _, _, .funcNilR, _ => trivial
  | _, _, .funcR _, _ => trivial
  | _, _, .unsafeR _, _ => trivial
  | _, _, .ptrNilR _ _ _, _ => trivial
  | _, _, .ptrR e e1 a a1 hp he, hg =>
      ⟨(hpr.1 _ hp).1, (hpr.1 _ hp).2.1,
       by rw [he, hg.2.1]; exact ((hpr.1 _ hp).2.2.1).symm,
       (hpr.1 _ hp).2.2.2⟩
  | _, _, .sliceNilR _ _ _, _ => trivial
  | _, _, .sliceR e e1 d d1 l c c1 hp hl he, hg =>
      ⟨(hpr.2.1 _ hp).1, (hpr.2.1 _ hp).2.1,
       by rw [he, hg.2.1]; exact ((hpr.2.1 _ hp).2.2.1).symm,
       hl, (hpr.2.1 _ hp).2.2.2⟩
  | _, _, .mapNilR _ _ _ _ _ _, _ => trivial
  | _, _, .mapR kt vt kt1 vt1 a a1 hp hk hv, hg =>
      ⟨(hpr.2.2 _ hp).1, (hpr.2.2 _ hp).2.1,
       by
         show (Ty.mapT kt1 vt1).eraseNames = tyE2 a1
         have h1 : (Ty.mapT kt1 vt1).eraseNames = (Ty.mapT kt vt).eraseNames := by
           simp [Ty.eraseNames, hk, hv]
         rw [h1, hg.2.1]
         exact ((hpr.2.2 _ hp).2.2.1).symm,
       (hpr.2.2 _ hp).2.2.2⟩
  | _, _, .structR fs gs hf, hg => fieldsRel_clone_goodB hpr hf hg
  | _, _, .arrR e e1 es gs he hv, hg => by
      show goodBElems nx0 nx2 tyE2 H2 e1.eraseNames gs
      rw [he]
      exact valsRel_clone_goodB hpr e.eraseNames hv hg
  | _, _, .ifaceNilR, _ => trivial
  | _, _, .ifaceR v1 w1 hr, hg =>
      (CRel.clone_goodB hpr hr hg : goodB nx0 nx2 tyE2 H2 w1)
  | _, _, .counterR _ _, _ => trivial

/-- Element-list version of `CRel.clone_goodB`. -/
theorem valsRel_clone_goodB {P : GPairs} {nx0 nx2 : Nat} {tyE tyE2 : Nat → Ty}
    {H H2 : List (Nat × Obj)} (hpr : PairRes P tyE tyE2 H2 nx0 nx2) :
    ∀ (etE : Ty) {vs ws : List Val}, ValsRel P vs ws →
      goodWElems nx0 tyE H etE vs → goodBElems nx0 nx2 tyE2 H2 etE ws
  | _, _, _, .nilR, _ => trivial
  | etE, _, _, .consR v w vs ws hr hl, hg =>
      ⟨CRel.clone_goodB hpr hr hg.1, by rw [CRel.typeOf_erase hr]; exact hg.2.1,
       valsRel_clone_goodB hpr etE hl hg.2.2⟩

/-- Entry-list version of `CRel.clone_goodB`. -/
theorem entsRel_clone_goodB {P : GPairs} {nx0 nx2 : Nat} {tyE tyE2 : Nat → Ty}
    {H H2 : List (Nat × Obj)} (hpr : PairRes P tyE tyE2 H2 nx0 nx2) :
    ∀ (keE veE : Ty) {es gs : List (Val × Val)}, EntsRel P es gs →
      goodWEntries nx0 tyE H keE veE es → goodBEntries nx0 nx2 tyE2 H2 keE veE gs
  | _, _, _, _, .nilR, _ => trivial
  | keE, veE, _, _, .consR k v k1 v1 r r1 hk hv hl, hg =>
      ⟨CRel.clone_goodB hpr hk hg.1, by rw [CRel.typeOf_erase hk]; exact hg.2.1,
       CRel.clone_goodB hpr hv hg.2.2.1,
       by rw [CRel.typeOf_erase hv]; exact hg.2.2.2.1,
       entsRel_clone_goodB hpr keE veE hl hg.2.2.2.2⟩

/-- Field-list version of `CRel.clone_goodB`. -/
theorem fieldsRel_clone_goodB {P : GPairs} {nx0 nx2 : Nat} {tyE tyE2 : Nat → Ty}
    {H H2 : List (Nat × Obj)} (hpr : PairRes P tyE tyE2 H2 nx0 nx2) :
    ∀ {fs gs : List (Bool × Ty × Val)}, FieldsRel P fs gs →
      goodWFields nx0 tyE H fs → goodBFields nx0 nx2 tyE2 H2 gs
  | _, _, .nilR, _ => trivial
  | _, _, .skipR t v r r1 hl, hg =>
      ⟨fun he _ => Bool.noConfusion he, fun _ => goodB_zeroVal nx0 nx2 tyE2 H2 t,
       typeOf_zeroVal_erase t, fieldsRel_clone_goodB hpr hl hg.2.2⟩
  | _, _, .copyR t v r r1 ha hl, hg =>
      ⟨fun _ hcl => FieldAction.noConfusion (ha.symm.trans hcl),
       fun he => Bool.noConfusion he,
       hg.2.1, fieldsRel_clone_goodB hpr hl hg.2.2⟩
  | _, _, .cloneR t v w r r1 ha hr hl, hg =>
      ⟨fun _ _ => CRel.clone_goodB hpr hr hg.1, fun he => Bool.noConfusion he,
       by rw [CRel.typeOf_erase hr]; exact hg.2.1,
       fieldsRel_clone_goodB hpr hl hg.2.2⟩

end

/-! ## Shape and stability helpers -/

/-- `orZero` leaves valid values unchanged. -/
theorem orZero_of_ne (e : Ty) (w : Val) (h : w ≠ Val.invalidV) : orZero e w = w := by
  cases w <;> first | rfl | exact absurd rfl h

/-- A list of clones is unchanged by `orZero` (no clone is invalid). -/
theorem valsRel_map_orZero {P : GPairs} (e : Ty) :
    ∀ {vs ws : List Val}, ValsRel P vs ws → ws.map (orZero e) = ws
  | _, _, .nilR => rfl
  | _, _, .consR v w vs ws hr hl => by
      simp only [List.map]
      rw [orZero_of_ne e w (CRel.ne_invalid hr), valsRel_map_orZero e hl]

/-- `unwrapIface` never returns an interface wrapper. -/
theorem unwrapIface_not_iface : ∀ v w : Val, unwrapIface v ≠ Val.ifaceV w
  | .ifaceV inner, w => by
      simp only [unwrapIface]
      exact unwrapIface_not_iface inner w
  | .intV _, _ => by simp [unwrapIface]
  | .i32V _, _ => by simp [unwrapIface]
  | .strV _, _ => by simp [unwrapIface]
  | .boolV _, _ => by simp [unwrapIface]
  | .floatV _, _ => by simp [unwrapIface]
  | .chanNil, _ => by simp [unwrapIface]
  | .chanV _, _ => by simp [unwrapIface]
  | .funcNil, _ => by simp [unwrapIface]
  | .funcV _, _ => by simp [unwrapIface]
  | .unsafeV _, _ => by simp [unwrapIface]
  | .ptrNil _, _ => by simp [unwrapIface]
  | .ptrV _ _, _ => by simp [unwrapIface]
  | .sliceNil _, _ => by simp [unwrapIface]
  | .sliceV _ _ _ _, _ => by simp [unwrapIface]
  | .mapNil _ _, _ => by simp [unwrapIface]
  | .mapV _ _ _, _ => by simp [unwrapIface]
  | .structV _, _ => by simp [unwrapIface]
  | .arrV _ _, _ => by simp [unwrapIface]
  | .ifaceNil, _ => by simp [unwrapIface]
  | .counterV _ _, _ => by simp [unwrapIface]
  | .invalidV, _ => by simp [unwrapIface]

/-- A value that is not an interface wrapper is its own unwrapping. -/
theorem unwrapIface_eq_self {v : Val} (h : ∀ w, v ≠ Val.ifaceV w) :
    unwrapIface v = v := by
  cases v <;> first | rfl | exact absurd rfl (h _)

/-- Clones of non-interface, non-hook sources are non-interface and
non-hook. -/
theorem CRel.shape {P : GPairs} {v w : Val} (h : CRel P v w)
    (hi : ∀ u, v ≠ Val.ifaceV u) (hc : ∀ n s, v ≠ Val.counterV n s) :
    (∀ u, w ≠ Val.ifaceV u) ∧ (∀ n s, w ≠ Val.counterV n s) := by
  cases h
  case ifaceR => exact absurd rfl (hi _)
  case counterR => exact absurd rfl (hc _ _)
  all_goals exact ⟨(fun _ h1 => nomatch h1), (fun _ _ h1 => nomatch h1)⟩

/-- The denotation of a good value over a good source zone depends only
on the source-zone part of the heap. -/
theorem den_stable_good {nx0 : Nat} {tyE : Nat → Ty} {H H2 : List (Nat × Obj)}
    (hag : ∀ a, a < nx0 → alookup H2 a = alookup H a)
    (hgs : GoodSrc nx0 tyE H) :
    ∀ (n : Nat) (v : Val), good nx0 tyE H v → den n H v = den n H2 v := by
  intro n
  induction n with
  | zero => intro v _; simp [den]
  | succ n ih =>
      intro v hg
      cases v with
      | ptrV e a =>
          obtain ⟨ha, _, w, hw⟩ := hg
          have hrc : readCell H2 a = readCell H a := by
            simp [readCell, hag a ha]
          simp only [den]
          rw [hrc]
          have hog := hgs a _ ha hw
          have hr : readCell H a = w := by simp [readCell, hw]
          exact congrArg GTree.ptrD (ih _ (by rw [hr]; exact hog.1))
      | sliceV e d l c =>
          obtain ⟨hd, _, hlc, es, hes, hl⟩ := hg
          have hra : readArr H2 d = readArr H d := by
            simp [readArr, hag d hd]
          simp only [den]
          rw [hra]
          refine congrArg GTree.sliceD (List.map_congr_left ?_)
          intro w hw
          have hwes : w ∈ es := by
            have : (readArr H d).take l ⊆ readArr H d := List.take_subset l _
            have h1 := this hw
            rw [show readArr H d = es by simp [readArr, hes]] at h1
            exact h1
          have hog := hgs d _ hd hes
          exact ih w (goodElems_mem hog hwes).1
      | mapV kt vt a =>
          obtain ⟨ha, hty, es, hes⟩ := hg
          have hrt : readTable H2 a = readTable H a := by
            simp [readTable, hag a ha]
          simp only [den]
          rw [hrt]
          refine congrArg GTree.mapD (List.map_congr_left ?_)
          intro p hp
          have hpes : p ∈ es := by
            rw [show readTable H a = es by simp [readTable, hes]] at hp
            exact hp
          have hog := hgs a _ ha hes
          simp only [objGood] at hog
          revert hog
          cases tyE a <;> intro hog <;> try exact hog.elim
          obtain ⟨p1, p2⟩ := p
          have h2 := goodEntries_mem hog hpes
          rw [ih p1 h2.1.1, ih p2 h2.2.1]
      | structV fs =>
          simp only [den]
          refine congrArg GTree.structD (List.map_congr_left ?_)
          intro f hf
          obtain ⟨ex, t, w⟩ := f
          have hmem := List.mem_of_mem_filter hf
          exact ih w (goodFields_mem hg hmem).1
      | arrV e es =>
          simp only [den]
          refine congrArg GTree.arrD (List.map_congr_left ?_)
          intro w hw
          exact ih w (goodElems_mem hg hw).1
      | ifaceV w =>
          simp only [den]
          exact congrArg GTree.ifaceD (ih w hg)
      | chanV i => exact hg.elim
      | invalidV => exact hg.elim
      | _ => simp [den]

theorem GPairs.sub_addCell (P : GPairs) (a b : Nat) : P.sub (P.addCell a b) :=
  ⟨fun _ h => List.mem_cons_of_mem _ h, fun _ h => h, fun _ h => h⟩

theorem GPairs.sub_addArr (P : GPairs) (a b l : Nat) : P.sub (P.addArr a b l) :=
  ⟨fun _ h => h, fun _ h => List.mem_cons_of_mem _ h, fun _ h => h⟩

theorem GPairs.sub_addTable (P : GPairs) (a b : Nat) : P.sub (P.addTable a b) :=
  ⟨fun _ h => h, fun _ h => h, fun _ h => List.mem_cons_of_mem _ h⟩

theorem CDis.addCell {P : GPairs} {nx0 nx : Nat} (h : CDis P) (hz : PZone nx0 nx P)
    (a : Nat) : CDis (P.addCell a nx) := by
  obtain ⟨c1, c2, c3, c4, c5, c6⟩ := h
  refine ⟨?_, c2, c3, ?_, ?_, c6⟩
  · intro p hp q hq he
    rcases List.mem_cons.mp hp with rfl | hp <;> rcases List.mem_cons.mp hq with rfl | hq
    · rfl
    · exfalso; have h2 := (hz.1 q hq).2.2; simp at he; omega
    · exfalso; have h2 := (hz.1 p hp).2.2; simp at he; omega
    · exact c1 p hp q hq he
  · intro p hp q hq
    rcases List.mem_cons.mp hp with rfl | hp
    · have h2 := (hz.2.1 q hq).2.2; simp; omega
    · exact c4 p hp q hq
  · intro p hp q hq
    rcases List.mem_cons.mp hp with rfl | hp
    · have h2 := (hz.2.2 q hq).2.2; simp; omega
    · exact c5 p hp q hq

theorem CDis.addArr {P : GPairs} {nx0 nx : Nat} (h : CDis P) (hz : PZone nx0 nx P)
    (a l : Nat) : CDis (P.addArr a nx l) := by
  obtain ⟨c1, c2, c3, c4, c5, c6⟩ := h
  refine ⟨c1, ?_, c3, ?_, c5, ?_⟩
  · intro p hp q hq he
    rcases List.mem_cons.mp hp with rfl | hp <;> rcases List.mem_cons.mp hq with rfl | hq
    · rfl
    · exfalso; have h2 := (hz.2.1 q hq).2.2; simp at he; omega
    · exfalso; have h2 := (hz.2.1 p hp).2.2; simp at he; omega
    · exact c2 p hp q hq he
  · intro p hp q hq
    rcases List.mem_cons.mp hq with rfl | hq
    · have h2 := (hz.1 p hp).2.2; simp; omega
    · exact c4 p hp q hq
  · intro p hp q hq
    rcases List.mem_cons.mp hp with rfl | hp
    · have h2 := (hz.2.2 q hq).2.2; simp; omega
    · exact c6 p hp q hq

theorem CDis.addTable {P : GPairs} {nx0 nx : Nat} (h : CDis P) (hz : PZone nx0 nx P)
    (a : Nat) : CDis (P.addTable a nx) := by
  obtain ⟨c1, c2, c3, c4, c5, c6⟩ := h
  refine ⟨c1, c2, ?_, c4, ?_, ?_⟩
  · intro p hp q hq he
    rcases List.mem_cons.mp hp with rfl | hp <;> rcases List.mem_cons.mp hq with rfl | hq
    · rfl
    · exfalso; have h2 := (hz.2.2 q hq).2.2; simp at he; omega
    · exfalso; have h2 := (hz.2.2 p hp).2.2; simp at he; omega
    · exact c3 p hp q hq he
  · intro p hp q hq
    rcases List.mem_cons.mp hq with rfl | hq
    · have h2 := (hz.1 p hp).2.2; simp; omega
    · exact c5 p hp q hq
  · intro p hp q hq
    rcases List.mem_cons.mp hq with rfl | hq
    · have h2 := (hz.2.1 p hp).2.2; simp; omega
    · exact c6 p hp q hq

/-! ## The simulation induction: statements and glue -/

theorem alookup_mem {α : Type} :
    ∀ (l : List (Nat × α)) (k : Nat) (v : α), alookup l k = some v → (k, v) ∈ l := by
  intro l k v
  induction l with
  | nil => intro h; simp [alookup] at h
  | cons p r ih =>
      obtain ⟨a, w⟩ := p
      by_cases hk : a = k
      · subst hk
        intro h
        rw [show alookup ((a, w) :: r) a = some w from by simp [alookup]] at h
        cases h
        exact List.mem_cons_self _ _
      · intro h
        simp only [alookup, if_neg hk] at h
        exact List.mem_cons_of_mem _ (ih h)

/-- A non-invalid clone is written back into its cell. -/
theorem writeCell_of_ne (st : St) (na : Nat) (w : Val) (h : w ≠ Val.invalidV) :
    writeCell st na w = ⟨st.visited, aset st.heap na (.cell w), st.next⟩ := by
  cases w <;> first | rfl | exact absurd rfl h

/-- A non-invalid clone is rewrapped. -/
theorem wrapIface_of_ne (inner w : Val) (h : w ≠ Val.invalidV) :
    wrapIface inner w = .ifaceV w := by
  cases w <;> first | rfl | exact absurd rfl h

theorem NewAbove.refl (nx : Nat) (P : GPairs) : NewAbove nx P P :=
  ⟨fun p hp hnp => absurd hp hnp, fun p hp hnp => absurd hp hnp,
   fun p hp hnp => absurd hp hnp⟩

theorem NewAbove.seq {n1 n2 : Nat} {P Q R : GPairs}
    (h1 : NewAbove n1 P Q) (h2 : NewAbove n2 Q R) (hn : n1 ≤ n2) :
    NewAbove n1 P R := by
  refine ⟨?_, ?_, ?_⟩
  · intro p hp hnp
    by_cases hq : p ∈ Q.cells
    · exact h1.1 p hq hnp
    · have := h2.1 p hp hq; omega
  · intro p hp hnp
    by_cases hq : p ∈ Q.arrs
    · exact h1.2.1 p hq hnp
    · have := h2.2.1 p hp hq; omega
  · intro p hp hnp
    by_cases hq : p ∈ Q.tables
    · exact h1.2.2 p hq hnp
    · have := h2.2.2 p hp hq; omega

theorem agree_aset_high {H : List (Nat × Obj)} {nx0 b : Nat} (hb : nx0 ≤ b) (o : Obj) :
    ∀ a, a < nx0 → alookup (aset H b o) a = alookup H a :=
  fun a ha => alookup_aset_ne H b a o (by omega)

theorem frame_agree_low {st st2 : St} {nx0 : Nat} (hfr : Frame st st2)
    (hn : nx0 ≤ st.next) : ∀ a, a < nx0 → alookup st2.heap a = alookup st.heap a :=
  fun a ha => hfr.2.2 a (by omega)

theorem ZoneGe_aset {nx0 : Nat} {H : List (Nat × Obj)} {b : Nat} {o : Obj}
    (hz : ZoneGe nx0 H) (ho : objAddrsGe nx0 o) : ZoneGe nx0 (aset H b o) := by
  intro a o' ha hl
  by_cases hab : a = b
  · subst hab
    rw [alookup_aset_self] at hl
    cases hl
    exact ho
  · rw [alookup_aset_ne _ _ _ _ (fun he => hab he.symm)] at hl
    exact hz a o' ha hl

theorem heapBounded_write {st : St} (hb : heapBounded st) {b : Nat} (hlt : b < st.next)
    (o : Obj) (vis2 : List (Nat × Val)) :
    heapBounded ⟨vis2, aset st.heap b o, st.next⟩ := by
  intro a ha
  rcases isSome_alookup_aset _ _ _ _ ha with rfl | h
  · exact hlt
  · exact hb a h

theorem owned_mono {nx0 : Nat} {H : List (Nat × Obj)} {P Q : GPairs}
    (hs : P.sub Q) (h : Owned nx0 H P) : Owned nx0 H Q := by
  intro b hb hsme
  rcases h b hb hsme with ⟨p, hp, he⟩ | ⟨p, hp, he⟩ | ⟨p, hp, he⟩
  · exact Or.inl ⟨p, hs.1 p hp, he⟩
  · exact Or.inr (Or.inl ⟨p, hs.2.1 p hp, he⟩)
  · exact Or.inr (Or.inr ⟨p, hs.2.2 p hp, he⟩)

theorem Owned_aset {nx0 : Nat} {H : List (Nat × Obj)} {P : GPairs} {b : Nat} {o : Obj}
    (ho : Owned nx0 H P)
    (hb : (∃ p ∈ P.cells, p.2 = b) ∨ (∃ p ∈ P.arrs, p.2.1 = b) ∨
          (∃ p ∈ P.tables, p.2 = b)) :
    Owned nx0 (aset H b o) P := by
  intro b' hb' hs
  rcases isSome_alookup_aset _ _ _ _ hs with rfl | h
  · exact hb
  · exact ho b' hb' h

theorem PadOk_write_other {tyE : Nat → Ty} {H : List (Nat × Obj)} {P : GPairs}
    {b : Nat} {o : Obj} (hp : PadOk tyE H P) (hb : ∀ p ∈ P.arrs, p.2.1 ≠ b) :
    PadOk tyE (aset H b o) P := by
  intro p hpm w hw
  rw [readArr_aset_ne H b p.2.1 o (hb p hpm)] at hw
  exact hp p hpm w hw

theorem addrsGeList_append {k : Nat} :
    ∀ {l1 l2 : List Val}, addrsGeList k l1 → addrsGeList k l2 → addrsGeList k (l1 ++ l2)
  | [], _, _, h2 => h2
  | v :: r, l2, h1, h2 => ⟨h1.1, addrsGeList_append h1.2 h2⟩

/-- `mapInsertVal` on a clone of the right erased value type always
inserts something still related to the source value. -/
theorem mapInsertVal_rel {Q : GPairs} {v k1 v1 : Val} {vt : Ty}
    (hrk : k1 ≠ Val.invalidV) (hr : CRel Q v v1)
    (he : v1.typeOf.eraseNames = vt.eraseNames) :
    ∃ w, mapInsertVal k1 v1 vt = some w ∧ CRel Q v w := by
  have hv1 : v1 ≠ Val.invalidV := CRel.ne_invalid hr
  have hconv : v1.typeOf.convertibleTo vt = true := by
    rw [Ty.convertibleTo, he]
    exact Ty.beq_refl _
  unfold mapInsertVal
  split
  · exact absurd rfl hrk
  · exact absurd rfl hv1
  · by_cases hb : v1.typeOf.beq vt = true
    · exact ⟨v1, by rw [if_pos hb], hr⟩
    · refine ⟨v1.convert vt, ?_, CRel.convert vt hr hconv⟩
      rw [if_neg hb, if_pos hconv]

/-- The entry table of a goodW map value is a goodW entry list at the
declared erased key/value types. -/
theorem goodWEntries_of_map {nx0 : Nat} {tyE : Nat → Ty} {H : List (Nat × Obj)}
    {kt vt : Ty} {a : Nat} (hg : goodW nx0 tyE H (.mapV kt vt a))
    (hgs : GoodSrcW nx0 tyE H) :
    goodWEntries nx0 tyE H kt.eraseNames vt.eraseNames (readTable H a) := by
  obtain ⟨ha, hty, es, hes⟩ := hg
  have hog := hgs a _ ha hes
  simp only [objGoodW] at hog
  have hta : tyE a = Ty.mapT kt.eraseNames vt.eraseNames := by
    rw [← hty]; rfl
  rw [hta] at hog
  rw [show readTable H a = es by simp [readTable, hes]]
  exact hog

/-- The visible elements of a goodW slice are a goodW element list at the
erased element type. -/
theorem goodWElems_of_slice {nx0 : Nat} {tyE : Nat → Ty} {H : List (Nat × Obj)}
    {e : Ty} {d l c : Nat} (hg : goodW nx0 tyE H (.sliceV e d l c))
    (hgs : GoodSrcW nx0 tyE H) :
    goodWElems nx0 tyE H e.eraseNames ((readArr H d).take l) := by
  obtain ⟨hd, hety, hlc, es, hes, hlen⟩ := hg
  have hog := hgs d _ hd hes
  simp only [objGoodW] at hog
  rw [show readArr H d = es by simp [readArr, hes]]
  rw [← hety] at hog
  exact goodWElems_take hog l

/-- The pointee of a goodW pointer is goodW and typed. -/
theorem goodW_readCell {nx0 : Nat} {tyE : Nat → Ty} {H : List (Nat × Obj)}
    {e : Ty} {a : Nat} (hg : goodW nx0 tyE H (.ptrV e a)) (hgs : GoodSrcW nx0 tyE H) :
    goodW nx0 tyE H (readCell H a) ∧ (readCell H a).typeOf.eraseNames = tyE a := by
  obtain ⟨ha, hety, w0, hw0⟩ := hg
  have hog := hgs a _ ha hw0
  rw [show readCell H a = w0 by simp [readCell, hw0]]
  exact hog

/-- Simulation statement for `cloneValue` at a given fuel. -/
def SimV (nx0 : Nat) (tyE : Nat → Ty) (f : Nat) : Prop :=
  ∀ st v st2 r P pc pa pt, SimInv nx0 tyE st P pc pa pt →
    goodW nx0 tyE st.heap v → cloneValue f st v = some (st2, r) →
    ∃ Q, P.sub Q ∧ NewAbove st.next P Q ∧ SimInv nx0 tyE st2 Q pc pa pt ∧ CRel Q v r

/-- Simulation statement for `clonePointer`. -/
def SimP (nx0 : Nat) (tyE : Nat → Ty) (f : Nat) : Prop :=
  ∀ st e a st2 r P pc pa pt, SimInv nx0 tyE st P pc pa pt →
    goodW nx0 tyE st.heap (.ptrV e a) → clonePointer f st e a = some (st2, r) →
    ∃ Q, P.sub Q ∧ NewAbove st.next P Q ∧ SimInv nx0 tyE st2 Q pc pa pt ∧
      CRel Q (.ptrV e a) r

/-- Simulation statement for `cloneSlice`. -/
def SimS (nx0 : Nat) (tyE : Nat → Ty) (f : Nat) : Prop :=
  ∀ st e d l c st2 r P pc pa pt, SimInv nx0 tyE st P pc pa pt →
    goodW nx0 tyE st.heap (.sliceV e d l c) → cloneSlice f st e d l c = some (st2, r) →
    ∃ Q, P.sub Q ∧ NewAbove st.next P Q ∧ SimInv nx0 tyE st2 Q pc pa pt ∧
      CRel Q (.sliceV e d l c) r

/-- Simulation statement for `cloneMap`. -/
def SimM (nx0 : Nat) (tyE : Nat → Ty) (f : Nat) : Prop :=
  ∀ st kt vt a st2 r P pc pa pt, SimInv nx0 tyE st P pc pa pt →
    goodW nx0 tyE st.heap (.mapV kt vt a) → cloneMap f st kt vt a = some (st2, r) →
    ∃ Q, P.sub Q ∧ NewAbove st.next P Q ∧ SimInv nx0 tyE st2 Q pc pa pt ∧
      CRel Q (.mapV kt vt a) r

/-- Simulation statement for `cloneEntries`. -/
def SimE (nx0 : Nat) (tyE : Nat → Ty) (f : Nat) : Prop :=
  ∀ st vt es st2 es2 P pc pa pt keE, SimInv nx0 tyE st P pc pa pt →
    goodWEntries nx0 tyE st.heap keE vt.eraseNames es →
    cloneEntries f st vt es = some (st2, es2) →
    ∃ Q, P.sub Q ∧ NewAbove st.next P Q ∧ SimInv nx0 tyE st2 Q pc pa pt ∧
      EntsRel Q es es2

/-- Simulation statement for `cloneStruct`. -/
def SimSt (nx0 : Nat) (tyE : Nat → Ty) (f : Nat) : Prop :=
  ∀ st fs st2 r P pc pa pt, SimInv nx0 tyE st P pc pa pt →
    goodWFields nx0 tyE st.heap fs → cloneStruct f st fs = some (st2, r) →
    ∃ Q, P.sub Q ∧ NewAbove st.next P Q ∧ SimInv nx0 tyE st2 Q pc pa pt ∧
      CRel Q (.structV fs) r

/-- Simulation statement for `cloneFields`. -/
def SimF (nx0 : Nat) (tyE : Nat → Ty) (f : Nat) : Prop :=
  ∀ st fs st2 fs2 P pc pa pt, SimInv nx0 tyE st P pc pa pt →
    goodWFields nx0 tyE st.heap fs → cloneFields f st fs = some (st2, fs2) →
    ∃ Q, P.sub Q ∧ NewAbove st.next P Q ∧ SimInv nx0 tyE st2 Q pc pa pt ∧
      FieldsRel Q fs fs2

/-- Simulation statement for `cloneArray`. -/
def SimA (nx0 : Nat) (tyE : Nat → Ty) (f : Nat) : Prop :=
  ∀ st e es st2 r P pc pa pt, SimInv nx0 tyE st P pc pa pt →
    goodWElems nx0 tyE st.heap e.eraseNames es → cloneArray f st e es = some (st2, r) →
    ∃ Q, P.sub Q ∧ NewAbove st.next P Q ∧ SimInv nx0 tyE st2 Q pc pa pt ∧
      CRel Q (.arrV e es) r

/-- Simulation statement for `cloneInterface`. -/
def SimI (nx0 : Nat) (tyE : Nat → Ty) (f : Nat) : Prop :=
  ∀ st v st2 r P pc pa pt, SimInv nx0 tyE st P pc pa pt →
    goodW nx0 tyE st.heap v → cloneInterface f st v = some (st2, r) →
    ∃ Q, P.sub Q ∧ NewAbove st.next P Q ∧ SimInv nx0 tyE st2 Q pc pa pt ∧
      CRel Q (.ifaceV v) r

/-- Simulation statement for `cloneList`. -/
def SimL (nx0 : Nat) (tyE : Nat → Ty) (f : Nat) : Prop :=
  ∀ st vs st2 vs2 P pc pa pt etE, SimInv nx0 tyE st P pc pa pt →
    goodWElems nx0 tyE st.heap etE vs → cloneList f st vs = some (st2, vs2) →
    ∃ Q, P.sub Q ∧ NewAbove st.next P Q ∧ SimInv nx0 tyE st2 Q pc pa pt ∧
      ValsRel Q vs vs2

theorem simSt_step (nx0 : Nat) (tyE : Nat → Ty) (g : Nat) (ihF : SimF nx0 tyE g) :
    SimSt nx0 tyE (g+1) := by
  intro st fs st2 r P pc pa pt hinv hg hrun
  rw [cloneStruct] at hrun
  rcases hf : cloneFields g st fs with _ | ⟨st1, fs1⟩
  · rw [hf] at hrun; simp at hrun
  · rw [hf] at hrun
    simp at hrun
    obtain ⟨rfl, rfl⟩ := hrun
    obtain ⟨Q, hsub, hnew, hinv2, hrel⟩ := ihF st fs st1 fs1 P pc pa pt hinv hg hf
    exact ⟨Q, hsub, hnew, hinv2, CRel.structR fs fs1 hrel⟩

theorem simA_step (nx0 : Nat) (tyE : Nat → Ty) (g : Nat) (ihL : SimL nx0 tyE g) :
    SimA nx0 tyE (g+1) := by
  intro st e es st2 r P pc pa pt hinv hg hrun
  rw [cloneArray] at hrun
  rcases hl : cloneList g st es with _ | ⟨st1, es1⟩
  · rw [hl] at hrun; simp at hrun
  · rw [hl] at hrun
    simp at hrun
    obtain ⟨rfl, rfl⟩ := hrun
    obtain ⟨Q, hsub, hnew, hinv2, hrel⟩ := ihL st es st1 es1 P pc pa pt e.eraseNames hinv hg hl
    rw [valsRel_map_orZero e hrel]
    exact ⟨Q, hsub, hnew, hinv2, CRel.arrR e e es es1 rfl hrel⟩

theorem simI_step (nx0 : Nat) (tyE : Nat → Ty) (g : Nat) (ihV : SimV nx0 tyE g) :
    SimI nx0 tyE (g+1) := by
  intro st v st2 r P pc pa pt hinv hg hrun
  rw [cloneInterface] at hrun
  rcases hv : cloneValue g st v with _ | ⟨st1, w⟩
  · rw [hv] at hrun; simp at hrun
  · rw [hv] at hrun
    simp at hrun
    obtain ⟨rfl, rfl⟩ := hrun
    obtain ⟨Q, hsub, hnew, hinv2, hrel⟩ := ihV st v st1 w P pc pa pt hinv hg hv
    rw [wrapIface_of_ne v w (CRel.ne_invalid hrel)]
    exact ⟨Q, hsub, hnew, hinv2, CRel.ifaceR v w hrel⟩

theorem simL_step (nx0 : Nat) (tyE : Nat → Ty) (g : Nat) (ihV : SimV nx0 tyE g)
    (ihL : SimL nx0 tyE g) : SimL nx0 tyE (g+1) := by
  intro st vs st2 vs2 P pc pa pt etE hinv hg hrun
  cases vs with
  | nil =>
      simp [cloneList] at hrun
      obtain ⟨rfl, rfl⟩ := hrun
      exact ⟨P, GPairs.sub_refl P, NewAbove.refl _ _, hinv, .nilR⟩
  | cons v vsr =>
      rw [cloneList] at hrun
      rcases hv1 : cloneValue g st v with _ | ⟨st1, v1⟩
      · rw [hv1] at hrun; simp at hrun
      · rw [hv1] at hrun
        simp only [] at hrun
        rcases hl : cloneList g st1 vsr with _ | ⟨st3, vs3⟩
        · rw [hl] at hrun; simp at hrun
        · rw [hl] at hrun
          simp at hrun
          obtain ⟨rfl, rfl⟩ := hrun
          obtain ⟨Q1, hs1, hn1, hinv1, hr1⟩ := ihV st v st1 v1 P pc pa pt hinv hg.1 hv1
          have hfr : Frame st st1 := (frame_main g).1 st v st1 v1 hinv.1 hv1
          have hg2 : goodWElems nx0 tyE st1.heap etE vsr :=
            goodWElems_stable (frame_agree_low hfr hinv.2.1) etE vsr hg.2.2
          obtain ⟨Q2, hs2, hn2, hinv2, hr2⟩ :=
            ihL st1 vsr st3 vs3 Q1 pc pa pt etE hinv1 hg2 hl
          exact ⟨Q2, GPairs.sub_trans hs1 hs2, NewAbove.seq hn1 hn2 hfr.2.1, hinv2,
                 .consR v v1 vsr vs3 (CRel.mono hs2 hr1) hr2⟩

theorem simF_step (nx0 : Nat) (tyE : Nat → Ty) (g : Nat) (ihV : SimV nx0 tyE g)
    (ihF : SimF nx0 tyE g) : SimF nx0 tyE (g+1) := by
  intro st fs st2 fs2 P pc pa pt hinv hg hrun
  cases fs with
  | nil =>
      simp [cloneFields] at hrun
      obtain ⟨rfl, rfl⟩ := hrun
      exact ⟨P, GPairs.sub_refl P, NewAbove.refl _ _, hinv, .nilR⟩
  | cons f rest =>
      obtain ⟨ex, t, v⟩ := f
      rw [cloneFields] at hrun
      cases ex with
      | false =>
          rw [if_pos rfl] at hrun
          rcases hrest : cloneFields g st rest with _ | ⟨st1, rest1⟩
          · rw [hrest] at hrun; simp at hrun
          · rw [hrest] at hrun
            simp at hrun
            obtain ⟨rfl, rfl⟩ := hrun
            obtain ⟨Q, hsub, hnew, hinv2, hrel⟩ :=
              ihF st rest st1 rest1 P pc pa pt hinv hg.2.2 hrest
            exact ⟨Q, hsub, hnew, hinv2, .skipR t v rest rest1 hrel⟩
      | true =>
          rw [if_neg (by simp)] at hrun
          rcases hact : fieldActionOf t with _ | _
          · rw [hact] at hrun
            simp only [] at hrun
            rcases hrest : cloneFields g st rest with _ | ⟨st1, rest1⟩
            · rw [hrest] at hrun; simp at hrun
            · rw [hrest] at hrun
              simp at hrun
              obtain ⟨rfl, rfl⟩ := hrun
              obtain ⟨Q, hsub, hnew, hinv2, hrel⟩ :=
                ihF st rest st1 rest1 P pc pa pt hinv hg.2.2 hrest
              exact ⟨Q, hsub, hnew, hinv2, .copyR t v rest rest1 hact hrel⟩
          · rw [hact] at hrun
            simp only [] at hrun
            rcases hv1 : cloneValue g st v with _ | ⟨st1, v1⟩
            · rw [hv1] at hrun; simp at hrun
            · rw [hv1] at hrun
              simp only [] at hrun
              rcases hrest : cloneFields g st1 rest with _ | ⟨st3, rest1⟩
              · rw [hrest] at hrun; simp at hrun
              · rw [hrest] at hrun
                simp at hrun
                obtain ⟨rfl, rfl⟩ := hrun
                obtain ⟨Q1, hs1, hn1, hinv1, hr1⟩ :=
                  ihV st v st1 v1 P pc pa pt hinv hg.1 hv1
                have hfr : Frame st st1 := (frame_main g).1 st v st1 v1 hinv.1 hv1
                have hg2 : goodWFields nx0 tyE st1.heap rest :=
                  goodWFields_stable (frame_agree_low hfr hinv.2.1) rest hg.2.2
                obtain ⟨Q2, hs2, hn2, hinv2, hr2⟩ :=
                  ihF st1 rest st3 rest1 Q1 pc pa pt hinv1 hg2 hrest
                exact ⟨Q2, GPairs.sub_trans hs1 hs2, NewAbove.seq hn1 hn2 hfr.2.1, hinv2,
                       .cloneR t v (fieldAssign t v1) rest rest1 hact
                         (CRel.field_assign t (CRel.mono hs2 hr1)) hr2⟩

theorem simE_step (nx0 : Nat) (tyE : Nat → Ty) (g : Nat) (ihV : SimV nx0 tyE g)
    (ihE : SimE nx0 tyE g) : SimE nx0 tyE (g+1) := by
  intro st vt es st2 es2 P pc pa pt keE hinv hg hrun
  cases es with
  | nil =>
      simp [cloneEntries] at hrun
      obtain ⟨rfl, rfl⟩ := hrun
      exact ⟨P, GPairs.sub_refl P, NewAbove.refl _ _, hinv, .nilR⟩
  | cons p rest =>
      obtain ⟨k, v⟩ := p
      rw [cloneEntries] at hrun
      rcases hk1 : cloneValue g st k with _ | ⟨st1, k1⟩
      · rw [hk1] at hrun; simp at hrun
      · rw [hk1] at hrun
        simp only [] at hrun
        rcases hv1 : cloneValue g st1 v with _ | ⟨st3, v1⟩
        · rw [hv1] at hrun; simp at hrun
        · rw [hv1] at hrun
          simp only [] at hrun
          obtain ⟨Q1, hs1, hn1, hinv1, hrk⟩ :=
            ihV st k st1 k1 P pc pa pt hinv hg.1 hk1
          have hfr1 : Frame st st1 := (frame_main g).1 st k st1 k1 hinv.1 hk1
          have hgv : goodW nx0 tyE st1.heap v :=
            goodW_stable (frame_agree_low hfr1 hinv.2.1) v hg.2.2.1
          obtain ⟨Q2, hs2, hn2, hinv2, hrv⟩ :=
            ihV st1 v st3 v1 Q1 pc pa pt hinv1 hgv hv1
          have hfr2 : Frame st1 st3 := (frame_main g).1 st1 v st3 v1 hinv1.1 hv1
          have hety : v1.typeOf.eraseNames = vt.eraseNames := by
            rw [CRel.typeOf_erase hrv]; exact hg.2.2.2.1
          obtain ⟨w, hmi, hrw⟩ :=
            mapInsertVal_rel (CRel.ne_invalid hrk) hrv hety
          rw [hmi] at hrun
          simp only [] at hrun
          rcases hrest : cloneEntries g st3 vt rest with _ | ⟨st4, es4⟩
          · rw [hrest] at hrun; simp at hrun
          · rw [hrest] at hrun
            simp at hrun
            obtain ⟨rfl, rfl⟩ := hrun
            have hgr : goodWEntries nx0 tyE st3.heap keE vt.eraseNames rest := by
              have h1 := goodWEntries_stable (frame_agree_low hfr1 hinv.2.1)
                keE vt.eraseNames rest hg.2.2.2.2
              exact goodWEntries_stable (frame_agree_low hfr2 hinv1.2.1)
                keE vt.eraseNames rest h1
            obtain ⟨Q3, hs3, hn3, hinv3, hre⟩ :=
              ihE st3 vt rest st4 es4 Q2 pc pa pt keE hinv2 hgr hrest
            refine ⟨Q3, GPairs.sub_trans hs1 (GPairs.sub_trans hs2 hs3),
                    NewAbove.seq hn1 (NewAbove.seq hn2 hn3 hfr2.2.1) hfr1.2.1, hinv3, ?_⟩
            exact .consR k v k1 w rest es4
              (CRel.mono (GPairs.sub_trans hs2 hs3) hrk)
              (CRel.mono hs3 hrw) hre

theorem simV_step (nx0 : Nat) (tyE : Nat → Ty) (g : Nat)
    (ihP : SimP nx0 tyE g) (ihS : SimS nx0 tyE g) (ihM : SimM nx0 tyE g)
    (ihSt : SimSt nx0 tyE g) (ihA : SimA nx0 tyE g) (ihI : SimI nx0 tyE g) :
    SimV nx0 tyE (g+1) := by
  intro st v st2 r P pc pa pt hinv hg hrun
  cases v with
  | invalidV => exact hg.elim
  | chanV i =>
      simp [cloneValue] at hrun
      obtain ⟨rfl, rfl⟩ := hrun
      exact ⟨P, GPairs.sub_refl P, NewAbove.refl _ _, hinv, .chanR i⟩
  | intV n =>
      simp [cloneValue] at hrun
      obtain ⟨rfl, rfl⟩ := hrun
      exact ⟨P, GPairs.sub_refl P, NewAbove.refl _ _, hinv, .intR n⟩
  | i32V n =>
      simp [cloneValue] at hrun
      obtain ⟨rfl, rfl⟩ := hrun
      exact ⟨P, GPairs.sub_refl P, NewAbove.refl _ _, hinv, .i32R n⟩
  | strV s =>
      simp [cloneValue] at hrun
      obtain ⟨rfl, rfl⟩ := hrun
      exact ⟨P, GPairs.sub_refl P, NewAbove.refl _ _, hinv, .strR s⟩
  | boolV b =>
      simp [cloneValue] at hrun
      obtain ⟨rfl, rfl⟩ := hrun
      exact ⟨P, GPairs.sub_refl P, NewAbove.refl _ _, hinv, .boolR b⟩
  | floatV q =>
      simp [cloneValue] at hrun
      obtain ⟨rfl, rfl⟩ := hrun
      exact ⟨P, GPairs.sub_refl P, NewAbove.refl _ _, hinv, .floatR q⟩
  | chanNil =>
      simp [cloneValue] at hrun
      obtain ⟨rfl, rfl⟩ := hrun
      exact ⟨P, GPairs.sub_refl P, NewAbove.refl _ _, hinv, .chanNilR⟩
  | funcNil =>
      simp [cloneValue] at hrun
      obtain ⟨rfl, rfl⟩ := hrun
      exact ⟨P, GPairs.sub_refl P, NewAbove.refl _ _, hinv, .funcNilR⟩
  | funcV i =>
      simp [cloneValue] at hrun
      obtain ⟨rfl, rfl⟩ := hrun
      exact ⟨P, GPairs.sub_refl P, NewAbove.refl _ _, hinv, .funcR i⟩
  | unsafeV i =>
      simp [cloneValue] at hrun
      obtain ⟨rfl, rfl⟩ := hrun
      exact ⟨P, GPairs.sub_refl P, NewAbove.refl _ _, hinv, .unsafeR i⟩
  | ptrNil e =>
      simp [cloneValue] at hrun
      obtain ⟨rfl, rfl⟩ := hrun
      exact ⟨P, GPairs.sub_refl P, NewAbove.refl _ _, hinv, .ptrNilR e e rfl⟩
  | sliceNil e =>
      simp [cloneValue] at hrun
      obtain ⟨rfl, rfl⟩ := hrun
      exact ⟨P, GPairs.sub_refl P, NewAbove.refl _ _, hinv, .sliceNilR e e rfl⟩
  | mapNil kt vt =>
      simp [cloneValue] at hrun
      obtain ⟨rfl, rfl⟩ := hrun
      exact ⟨P, GPairs.sub_refl P, NewAbove.refl _ _, hinv, .mapNilR kt vt kt vt rfl rfl⟩
  | ifaceNil =>
      simp [cloneValue] at hrun
      obtain ⟨rfl, rfl⟩ := hrun
      exact ⟨P, GPairs.sub_refl P, NewAbove.refl _ _, hinv, .ifaceNilR⟩
  | counterV n s =>
      simp [cloneValue] at hrun
      obtain ⟨rfl, rfl⟩ := hrun
      exact ⟨P, GPairs.sub_refl P, NewAbove.refl _ _, hinv, .counterR n s⟩
  | ptrV e a =>
      rw [cloneValue] at hrun
      exact ihP st e a st2 r P pc pa pt hinv hg hrun
  | sliceV e d l c =>
      rw [cloneValue] at hrun
      exact ihS st e d l c st2 r P pc pa pt hinv hg hrun
  | mapV kt vt a =>
      rw [cloneValue] at hrun
      exact ihM st kt vt a st2 r P pc pa pt hinv hg hrun
  | structV fs =>
      rw [cloneValue] at hrun
      exact ihSt st fs st2 r P pc pa pt hinv hg hrun
  | arrV e es =>
      rw [cloneValue] at hrun
      exact ihA st e es st2 r P pc pa pt hinv hg hrun
  | ifaceV inner =>
      rw [cloneValue] at hrun
      exact ihI st inner st2 r P pc pa pt hinv hg hrun

/-- Allocating a fresh pointee cell, registering the pointer pair and
its visited entry preserves the invariant, with the new pair pending. -/
theorem SimInv_alloc_cell {nx0 : Nat} {tyE : Nat → Ty} {st : St} {P : GPairs}
    {pc : List (Nat × Nat)} {pa : List (Nat × Nat × Nat)} {pt : List (Nat × Nat)}
    {e : Ty} {a : Nat}
    (hinv : SimInv nx0 tyE st P pc pa pt) (hg : goodW nx0 tyE st.heap (.ptrV e a)) :
    SimInv nx0 tyE
      ⟨aset st.visited a (.ptrV e st.next),
       aset st.heap st.next (.cell (zeroVal e)), st.next + 1⟩
      (P.addCell a st.next) ((a, st.next) :: pc) pa pt := by
  obtain ⟨hbd, hnx, hgs, hwf, hpz, hvp, hmc, hma, hmt, hcoh, hzg, how, hcd, hpk⟩ := hinv
  obtain ⟨ha, hety, w0, hw0⟩ := hg
  have hagr : ∀ x, x < nx0 → alookup (aset st.heap st.next (.cell (zeroVal e))) x =
      alookup st.heap x := agree_aset_high hnx _
  refine ⟨(frame_alloc st _ _ hbd).1, by show nx0 ≤ st.next + 1; omega,
          GoodSrcW_stable hagr hgs, ?_, ?_, ?_, ?_, ?_, ?_, ?_, ?_, ?_, ?_, ?_⟩
  · -- WfPairs
    refine ⟨?_, ?_, ?_⟩
    · intro p hp
      rcases List.mem_cons.mp hp with rfl | hp
      · constructor
        · rw [show ((a, st.next) : Nat × Nat).1 = a from rfl, hagr a ha]
          exact ⟨w0, hw0⟩
        · rw [show ((a, st.next) : Nat × Nat).2 = st.next from rfl, alookup_aset_self]
          exact ⟨zeroVal e, rfl⟩
      · have h1 := hwf.1 p hp
        have h2 := hpz.1 p hp
        constructor
        · rw [alookup_aset_ne _ _ _ _ (by omega)]
          exact h1.1
        · rw [alookup_aset_ne _ _ _ _ (by omega)]
          exact h1.2
    · intro p hp
      have h1 := hwf.2.1 p hp
      have h2 := hpz.2.1 p hp
      constructor
      · rw [alookup_aset_ne _ _ _ _ (by omega)]
        exact h1.1
      · rw [alookup_aset_ne _ _ _ _ (by omega)]
        exact h1.2
    · intro p hp
      have h1 := hwf.2.2 p hp
      have h2 := hpz.2.2 p hp
      constructor
      · rw [alookup_aset_ne _ _ _ _ (by omega)]
        exact h1.1
      · rw [alookup_aset_ne _ _ _ _ (by omega)]
        exact h1.2
  · -- PZone
    refine ⟨?_, ?_, ?_⟩
    · intro p hp
      rcases List.mem_cons.mp hp with rfl | hp
      · exact ⟨ha, hnx, by show st.next < st.next + 1; omega⟩
      · have h2 := hpz.1 p hp
        have h3 := h2.2.2
        exact ⟨h2.1, h2.2.1, by show p.2 < st.next + 1; omega⟩
    · intro p hp
      have h2 := hpz.2.1 p hp
      have h3 := h2.2.2
      exact ⟨h2.1, h2.2.1, by show p.2.1 < st.next + 1; omega⟩
    · intro p hp
      have h2 := hpz.2.2 p hp
      have h3 := h2.2.2
      exact ⟨h2.1, h2.2.1, by show p.2 < st.next + 1; omega⟩
  · -- VisP
    intro q hq
    rcases mem_aset _ _ _ _ hq with rfl | hq
    · exact ⟨List.mem_cons_self _ _, hety⟩
    · exact visP_mono (GPairs.sub_addCell P a st.next) hvp q hq
  · -- pending cells
    intro p hp
    rcases List.mem_cons.mp hp with rfl | hp
    · exact List.mem_cons_self _ _
    · exact List.mem_cons_of_mem _ (hmc p hp)
  · exact hma
  · exact hmt
  · -- CohP
    refine ⟨?_, ?_, ?_⟩
    · intro p hp hnp
      rcases List.mem_cons.mp hp with rfl | hp
      · exact absurd (List.mem_cons_self _ _) hnp
      · have hnpc : p ∉ pc := fun h => hnp (List.mem_cons_of_mem _ h)
        have h2 := hpz.1 p hp
        rw [readCell_aset_ne _ _ _ _ (by omega), readCell_aset_ne _ _ _ _ (by omega)]
        exact CRel.mono (GPairs.sub_addCell P a st.next) (hcoh.1 p hp hnpc)
    · intro p hp hnp
      have h2 := hpz.2.1 p hp
      rw [readArr_aset_ne _ _ _ _ (by omega), readArr_aset_ne _ _ _ _ (by omega)]
      exact valsRel_mono (GPairs.sub_addCell P a st.next) (hcoh.2.1 p hp hnp)
    · intro p hp hnp
      have h2 := hpz.2.2 p hp
      rw [readTable_aset_ne _ _ _ _ (by omega), readTable_aset_ne _ _ _ _ (by omega)]
      exact entsRel_mono (GPairs.sub_addCell P a st.next) (hcoh.2.2 p hp hnp)
  · -- ZoneGe
    exact ZoneGe_aset hzg (addrsGe_zeroVal nx0 e)
  · -- Owned
    intro b hb hs
    rcases isSome_alookup_aset _ _ _ _ hs with rfl | h
    · exact Or.inl ⟨(a, st.next), List.mem_cons_self _ _, rfl⟩
    · exact owned_mono (GPairs.sub_addCell P a st.next) how b hb h
  · -- CDis
    exact CDis.addCell hcd hpz a
  · -- PadOk
    intro p hp w hw
    have h2 := hpz.2.1 p hp
    rw [readArr_aset_ne _ _ _ _ (by omega)] at hw
    exact hpk p hp w hw

/-- Writing the finished clone back into its pending cell discharges
the pending pair and preserves the invariant. -/
theorem SimInv_write_cell {nx0 : Nat} {tyE : Nat → Ty} {st3 : St} {Q : GPairs}
    {pc : List (Nat × Nat)} {pa : List (Nat × Nat × Nat)} {pt : List (Nat × Nat)}
    {a na : Nat} {w : Val}
    (hinv3 : SimInv nx0 tyE st3 Q ((a, na) :: pc) pa pt)
    (hmem : (a, na) ∈ Q.cells) (ha : a < nx0) (hna : nx0 ≤ na) (hlt : na < st3.next)
    (hrel : CRel Q (readCell st3.heap a) w) (hzw : addrsGe nx0 w) :
    SimInv nx0 tyE ⟨st3.visited, aset st3.heap na (.cell w), st3.next⟩ Q pc pa pt := by
  obtain ⟨hbd, hnx, hgs, hwf, hpz, hvp, hmc, hma, hmt, hcoh, hzg, how, hcd, hpk⟩ := hinv3
  refine ⟨heapBounded_write hbd hlt _ _, hnx, GoodSrcW_stable (agree_aset_high hna _) hgs,
          ?_, hpz, hvp, (fun p hp => hmc p (List.mem_cons_of_mem _ hp)), hma, hmt,
          ?_, ZoneGe_aset hzg hzw, Owned_aset how (Or.inl ⟨(a, na), hmem, rfl⟩), hcd, ?_⟩
  · -- WfPairs
    refine ⟨?_, ?_, ?_⟩
    · intro p hp
      have h1 := hwf.1 p hp
      have h2 := hpz.1 p hp
      by_cases hpna : p.2 = na
      · have hpe : p = (a, na) := hcd.1 p hp (a, na) hmem hpna
        subst hpe
        constructor
        · rw [alookup_aset_ne _ _ _ _ (by omega)]
          exact h1.1
        · rw [show ((a, na) : Nat × Nat).2 = na from rfl, alookup_aset_self]
          exact ⟨w, rfl⟩
      · constructor
        · rw [alookup_aset_ne _ _ _ _ (by omega)]
          exact h1.1
        · rw [alookup_aset_ne _ _ _ _ (fun he => hpna he.symm)]
          exact h1.2
    · intro p hp
      have h1 := hwf.2.1 p hp
      have h2 := hpz.2.1 p hp
      have hne : na ≠ p.2.1 := hcd.2.2.2.1 (a, na) hmem p hp
      constructor
      · rw [alookup_aset_ne _ _ _ _ (by omega)]
        exact h1.1
      · rw [alookup_aset_ne _ _ _ _ hne]
        exact h1.2
    · intro p hp
      have h1 := hwf.2.2 p hp
      have h2 := hpz.2.2 p hp
      have hne : na ≠ p.2 := hcd.2.2.2.2.1 (a, na) hmem p hp
      constructor
      · rw [alookup_aset_ne _ _ _ _ (by omega)]
        exact h1.1
      · rw [alookup_aset_ne _ _ _ _ hne]
        exact h1.2
  · -- CohP
    refine ⟨?_, ?_, ?_⟩
    · intro p hp hnp
      by_cases hpa : p = (a, na)
      · subst hpa
        rw [show ((a, na) : Nat × Nat).1 = a from rfl,
            show ((a, na) : Nat × Nat).2 = na from rfl,
            readCell_aset_ne _ _ _ _ (by omega),
            show readCell (aset st3.heap na (.cell w)) na = w from by
              simp [readCell, alookup_aset_self]]
        exact hrel
      · have hnp2 : p ∉ (a, na) :: pc := by
          intro h
          rcases List.mem_cons.mp h with h | h
          · exact hpa h
          · exact hnp h
        have h2 := hpz.1 p hp
        have hne : p.2 ≠ na := fun he => hpa (hcd.1 p hp (a, na) hmem he)
        rw [readCell_aset_ne _ _ _ _ (by omega), readCell_aset_ne _ _ _ _ hne]
        exact hcoh.1 p hp hnp2
    · intro p hp hnp
      have h2 := hpz.2.1 p hp
      have hne : p.2.1 ≠ na := fun he => hcd.2.2.2.1 (a, na) hmem p hp he.symm
      rw [readArr_aset_ne _ _ _ _ (by omega), readArr_aset_ne _ _ _ _ hne]
      exact hcoh.2.1 p hp hnp
    · intro p hp hnp
      have h2 := hpz.2.2 p hp
      have hne : p.2 ≠ na := fun he => hcd.2.2.2.2.1 (a, na) hmem p hp he.symm
      rw [readTable_aset_ne _ _ _ _ (by omega), readTable_aset_ne _ _ _ _ hne]
      exact hcoh.2.2 p hp hnp
  · -- PadOk
    exact PadOk_write_other hpk
      (fun p hp => fun he => hcd.2.2.2.1 (a, na) hmem p hp he.symm)

theorem simP_step (nx0 : Nat) (tyE : Nat → Ty) (g : Nat) (ihV : SimV nx0 tyE g) :
    SimP nx0 tyE (g+1) := by
  intro st e a st2 r P pc pa pt hinv hg hrun
  rw [clonePointer] at hrun
  rcases hv : alookup st.visited a with _ | c
  · -- visited miss
    rw [hv] at hrun
    simp only [] at hrun
    rcases hc : cloneValue g
        ⟨aset st.visited a (.ptrV e st.next),
         aset st.heap st.next (.cell (zeroVal e)), st.next + 1⟩
        (readCell st.heap a) with _ | ⟨st3, w⟩
    · rw [hc] at hrun; simp at hrun
    · rw [hc] at hrun
      simp at hrun
      obtain ⟨rfl, rfl⟩ := hrun
      obtain ⟨ha, hety, w0, hw0⟩ := hg
      have hinv1 := SimInv_alloc_cell hinv ⟨ha, hety, w0, hw0⟩
      have hnx := hinv.2.1
      have hagr : ∀ x, x < nx0 →
          alookup (aset st.heap st.next (.cell (zeroVal e))) x = alookup st.heap x :=
        agree_aset_high hnx _
      have hgrc := goodW_readCell (H := st.heap) ⟨ha, hety, w0, hw0⟩ hinv.2.2.1
      have hg1 : goodW nx0 tyE
          (aset st.heap st.next (.cell (zeroVal e))) (readCell st.heap a) :=
        goodW_stable hagr _ hgrc.1
      obtain ⟨Q, hs1, hn1, hinv3, hrel⟩ :=
        ihV _ (readCell st.heap a) st3 w (P.addCell a st.next)
          ((a, st.next) :: pc) pa pt hinv1 hg1 hc
      have hfr2 : Frame
          ⟨aset st.visited a (.ptrV e st.next),
           aset st.heap st.next (.cell (zeroVal e)), st.next + 1⟩ st3 :=
        (frame_main g).1 _ _ _ _ hinv1.1 hc
      have hmemQ : (a, st.next) ∈ Q.cells :=
        hs1.1 (a, st.next) (List.mem_cons_self _ _)
      have hlt : st.next < st3.next := by
        have := hfr2.2.1
        simp only [] at this
        omega
      have hrc3 : readCell st3.heap a = readCell st.heap a := by
        unfold readCell
        rw [hfr2.2.2 a (by show a < st.next + 1; omega), hagr a ha]
      have hwne : w ≠ Val.invalidV := CRel.ne_invalid hrel
      rw [writeCell_of_ne st3 st.next w hwne]
      have hzw : addrsGe nx0 w :=
        CRel.clone_addrsGe hinv3.2.2.2.2.1 hrel hg1
      have hinv4 := SimInv_write_cell hinv3 hmemQ ha hnx hlt (by rw [hrc3]; exact hrel) hzw
      refine ⟨Q, GPairs.sub_trans (GPairs.sub_addCell P a st.next) hs1, ?_, hinv4, ?_⟩
      · -- NewAbove st.next P Q
        refine ⟨?_, ?_, ?_⟩
        · intro p hp hnp
          by_cases hq : p ∈ (P.addCell a st.next).cells
          · rcases List.mem_cons.mp hq with rfl | hq2
            · exact Nat.le_refl _
            · exact absurd hq2 hnp
          · have := hn1.1 p hp hq
            simp only [] at this
            omega
        · intro p hp hnp
          have := hn1.2.1 p hp hnp
          simp only [] at this
          omega
        · intro p hp hnp
          have := hn1.2.2 p hp hnp
          simp only [] at this
          omega
      · exact CRel.ptrR e e a st.next hmemQ rfl
  · -- visited hit
    rw [hv] at hrun
    simp at hrun
    obtain ⟨rfl, rfl⟩ := hrun
    obtain ⟨ha, hety, w0, hw0⟩ := hg
    have h1 := hinv.2.2.2.2.2.1 (a, c) (alookup_mem _ _ _ hv)
    cases c <;> try exact h1.elim
    case ptrV e1 na =>
      exact ⟨P, GPairs.sub_refl P, NewAbove.refl _ _, hinv,
             CRel.ptrR e e1 a na h1.1 (h1.2.trans hety.symm)⟩
    case sliceV e1 d1 l1 c1 =>
      obtain ⟨⟨es1, hes1, _⟩, _⟩ := hinv.2.2.2.1.2.1 _ h1.1
      rw [show ((a, d1, l1) : Nat × Nat × Nat).1 = a from rfl, hw0] at hes1
      simp at hes1
    case mapV kt1 vt1 na =>
      obtain ⟨⟨es1, hes1⟩, _⟩ := hinv.2.2.2.1.2.2 _ h1.1
      rw [show ((a, na) : Nat × Nat).1 = a from rfl, hw0] at hes1
      simp at hes1

/-- Allocating a fresh empty map table, registering the map pair and
its visited entry preserves the invariant, with the new pair pending. -/
theorem SimInv_alloc_table {nx0 : Nat} {tyE : Nat → Ty} {st : St} {P : GPairs}
    {pc : List (Nat × Nat)} {pa : List (Nat × Nat × Nat)} {pt : List (Nat × Nat)}
    {kt vt : Ty} {a : Nat}
    (hinv : SimInv nx0 tyE st P pc pa pt)
    (hg : goodW nx0 tyE st.heap (.mapV kt vt a)) :
    SimInv nx0 tyE
      ⟨aset st.visited a (.mapV kt vt st.next),
       aset st.heap st.next (.table []), st.next + 1⟩
      (P.addTable a st.next) pc pa ((a, st.next) :: pt) := by
  obtain ⟨hbd, hnx, hgs, hwf, hpz, hvp, hmc, hma, hmt, hcoh, hzg, how, hcd, hpk⟩ := hinv
  obtain ⟨ha, hty, es0, hes0⟩ := hg
  have hagr : ∀ x, x < nx0 → alookup (aset st.heap st.next (.table [])) x =
      alookup st.heap x := agree_aset_high hnx _
  refine ⟨(frame_alloc st _ _ hbd).1, by show nx0 ≤ st.next + 1; omega,
          GoodSrcW_stable hagr hgs, ?_, ?_, ?_, hmc, hma, ?_, ?_, ?_, ?_, ?_, ?_⟩
  · -- WfPairs
    refine ⟨?_, ?_, ?_⟩
    · intro p hp
      have h1 := hwf.1 p hp
      have h2 := hpz.1 p hp
      constructor
      · rw [alookup_aset_ne _ _ _ _ (by omega)]
        exact h1.1
      · rw [alookup_aset_ne _ _ _ _ (by omega)]
        exact h1.2
    · intro p hp
      have h1 := hwf.2.1 p hp
      have h2 := hpz.2.1 p hp
      constructor
      · rw [alookup_aset_ne _ _ _ _ (by omega)]
        exact h1.1
      · rw [alookup_aset_ne _ _ _ _ (by omega)]
        exact h1.2
    · intro p hp
      rcases List.mem_cons.mp hp with rfl | hp
      · constructor
        · rw [show ((a, st.next) : Nat × Nat).1 = a from rfl, hagr a ha]
          exact ⟨es0, hes0⟩
        · rw [show ((a, st.next) : Nat × Nat).2 = st.next from rfl, alookup_aset_self]
          exact ⟨[], rfl⟩
      · have h1 := hwf.2.2 p hp
        have h2 := hpz.2.2 p hp
        constructor
        · rw [alookup_aset_ne _ _ _ _ (by omega)]
          exact h1.1
        · rw [alookup_aset_ne _ _ _ _ (by omega)]
          exact h1.2
  · -- PZone
    refine ⟨?_, ?_, ?_⟩
    · intro p hp
      have h2 := hpz.1 p hp
      have h3 := h2.2.2
      exact ⟨h2.1, h2.2.1, by show p.2 < st.next + 1; omega⟩
    · intro p hp
      have h2 := hpz.2.1 p hp
      have h3 := h2.2.2
      exact ⟨h2.1, h2.2.1, by show p.2.1 < st.next + 1; omega⟩
    · intro p hp
      rcases List.mem_cons.mp hp with rfl | hp
      · exact ⟨ha, hnx, by show st.next < st.next + 1; omega⟩
      · have h2 := hpz.2.2 p hp
        have h3 := h2.2.2
        exact ⟨h2.1, h2.2.1, by show p.2 < st.next + 1; omega⟩
  · -- VisP
    intro q hq
    rcases mem_aset _ _ _ _ hq with rfl | hq
    · exact ⟨List.mem_cons_self _ _, hty⟩
    · exact visP_mono (GPairs.sub_addTable P a st.next) hvp q hq
  · -- pending tables
    intro p hp
    rcases List.mem_cons.mp hp with rfl | hp
    · exact List.mem_cons_self _ _
    · exact List.mem_cons_of_mem _ (hmt p hp)
  · -- CohP
    refine ⟨?_, ?_, ?_⟩
    · intro p hp hnp
      have h2 := hpz.1 p hp
      rw [readCell_aset_ne _ _ _ _ (by omega), readCell_aset_ne _ _ _ _ (by omega)]
      exact CRel.mono (GPairs.sub_addTable P a st.next) (hcoh.1 p hp hnp)
    · intro p hp hnp
      have h2 := hpz.2.1 p hp
      rw [readArr_aset_ne _ _ _ _ (by omega), readArr_aset_ne _ _ _ _ (by omega)]
      exact valsRel_mono (GPairs.sub_addTable P a st.next) (hcoh.2.1 p hp hnp)
    · intro p hp hnp
      rcases List.mem_cons.mp hp with rfl | hp
      · exact absurd (List.mem_cons_self _ _) hnp
      · have hnpt : p ∉ pt := fun h => hnp (List.mem_cons_of_mem _ h)
        have h2 := hpz.2.2 p hp
        rw [readTable_aset_ne _ _ _ _ (by omega), readTable_aset_ne _ _ _ _ (by omega)]
        exact entsRel_mono (GPairs.sub_addTable P a st.next) (hcoh.2.2 p hp hnpt)
  · -- ZoneGe
    exact ZoneGe_aset hzg trivial
  · -- Owned
    intro b hb hs
    rcases isSome_alookup_aset _ _ _ _ hs with rfl | h
    · exact Or.inr (Or.inr ⟨(a, st.next), List.mem_cons_self _ _, rfl⟩)
    · exact owned_mono (GPairs.sub_addTable P a st.next) how b hb h
  · -- CDis
    exact CDis.addTable hcd hpz a
  · -- PadOk
    intro p hp w hw
    have h2 := hpz.2.1 p hp
    rw [readArr_aset_ne _ _ _ _ (by omega)] at hw
    exact hpk p hp w hw

/-- Writing the cloned entry table into its pending map discharges the
pending pair and preserves the invariant. -/
theorem SimInv_write_table {nx0 : Nat} {tyE : Nat → Ty} {st3 : St} {Q : GPairs}
    {pc : List (Nat × Nat)} {pa : List (Nat × Nat × Nat)} {pt : List (Nat × Nat)}
    {a na : Nat} {es : List (Val × Val)}
    (hinv3 : SimInv nx0 tyE st3 Q pc pa ((a, na) :: pt))
    (hmem : (a, na) ∈ Q.tables) (ha : a < nx0) (hna : nx0 ≤ na) (hlt : na < st3.next)
    (hrel : EntsRel Q (readTable st3.heap a) es) (hze : addrsGeEntries nx0 es) :
    SimInv nx0 tyE ⟨st3.visited, aset st3.heap na (.table es), st3.next⟩ Q pc pa pt := by
  obtain ⟨hbd, hnx, hgs, hwf, hpz, hvp, hmc, hma, hmt, hcoh, hzg, how, hcd, hpk⟩ := hinv3
  refine ⟨heapBounded_write hbd hlt _ _, hnx, GoodSrcW_stable (agree_aset_high hna _) hgs,
          ?_, hpz, hvp, hmc, hma, (fun p hp => hmt p (List.mem_cons_of_mem _ hp)),
          ?_, ZoneGe_aset hzg hze,
          Owned_aset how (Or.inr (Or.inr ⟨(a, na), hmem, rfl⟩)), hcd, ?_⟩
  · -- WfPairs
    refine ⟨?_, ?_, ?_⟩
    · intro p hp
      have h1 := hwf.1 p hp
      have h2 := hpz.1 p hp
      have hne : p.2 ≠ na := hcd.2.2.2.2.1 p hp (a, na) hmem
      constructor
      · rw [alookup_aset_ne _ _ _ _ (by omega)]
        exact h1.1
      · rw [alookup_aset_ne _ _ _ _ (fun he => hne he.symm)]
        exact h1.2
    · intro p hp
      have h1 := hwf.2.1 p hp
      have h2 := hpz.2.1 p hp
      have hne : p.2.1 ≠ na := hcd.2.2.2.2.2 p hp (a, na) hmem
      constructor
      · rw [alookup_aset_ne _ _ _ _ (by omega)]
        exact h1.1
      · rw [alookup_aset_ne _ _ _ _ (fun he => hne he.symm)]
        exact h1.2
    · intro p hp
      have h1 := hwf.2.2 p hp
      have h2 := hpz.2.2 p hp
      by_cases hpna : p.2 = na
      · have hpe : p = (a, na) := hcd.2.2.1 p hp (a, na) hmem hpna
        subst hpe
        constructor
        · rw [alookup_aset_ne _ _ _ _ (by omega)]
          exact h1.1
        · rw [show ((a, na) : Nat × Nat).2 = na from rfl, alookup_aset_self]
          exact ⟨es, rfl⟩
      · constructor
        · rw [alookup_aset_ne _ _ _ _ (by omega)]
          exact h1.1
        · rw [alookup_aset_ne _ _ _ _ (fun he => hpna he.symm)]
          exact h1.2
  · -- CohP
    refine ⟨?_, ?_, ?_⟩
    · intro p hp hnp
      have h2 := hpz.1 p hp
      have hne : p.2 ≠ na := hcd.2.2.2.2.1 p hp (a, na) hmem
      rw [readCell_aset_ne _ _ _ _ (by omega), readCell_aset_ne _ _ _ _ hne]
      exact hcoh.1 p hp hnp
    · intro p hp hnp
      have h2 := hpz.2.1 p hp
      have hne : p.2.1 ≠ na := hcd.2.2.2.2.2 p hp (a, na) hmem
      rw [readArr_aset_ne _ _ _ _ (by omega), readArr_aset_ne _ _ _ _ hne]
      exact hcoh.2.1 p hp hnp
    · intro p hp hnp
      by_cases hpa : p = (a, na)
      · subst hpa
        rw [show ((a, na) : Nat × Nat).1 = a from rfl,
            show ((a, na) : Nat × Nat).2 = na from rfl,
            readTable_aset_ne _ _ _ _ (by omega),
            show readTable (aset st3.heap na (.table es)) na = es from by
              simp [readTable, alookup_aset_self]]
        exact hrel
      · have hnp2 : p ∉ (a, na) :: pt := by
          intro h
          rcases List.mem_cons.mp h with h | h
          · exact hpa h
          · exact hnp h
        have h2 := hpz.2.2 p hp
        have hne : p.2 ≠ na := fun he => hpa (hcd.2.2.1 p hp (a, na) hmem he)
        rw [readTable_aset_ne _ _ _ _ (by omega), readTable_aset_ne _ _ _ _ hne]
        exact hcoh.2.2 p hp hnp2
  · -- PadOk
    exact PadOk_write_other hpk (fun p hp => hcd.2.2.2.2.2 p hp (a, na) hmem)

theorem simM_step (nx0 : Nat) (tyE : Nat → Ty) (g : Nat) (ihE : SimE nx0 tyE g) :
    SimM nx0 tyE (g+1) := by
  intro st kt vt a st2 r P pc pa pt hinv hg hrun
  rw [cloneMap] at hrun
  rcases hv : alookup st.visited a with _ | c
  · -- visited miss
    rw [hv] at hrun
    simp only [] at hrun
    rcases hc : cloneEntries g
        ⟨aset st.visited a (.mapV kt vt st.next),
         aset st.heap st.next (.table []), st.next + 1⟩
        vt (readTable st.heap a) with _ | ⟨st3, es⟩
    · rw [hc] at hrun; simp at hrun
    · rw [hc] at hrun
      simp at hrun
      obtain ⟨rfl, rfl⟩ := hrun
      obtain ⟨ha, hty, es0, hes0⟩ := hg
      have hinv1 := SimInv_alloc_table hinv ⟨ha, hty, es0, hes0⟩
      have hnx := hinv.2.1
      have hagr : ∀ x, x < nx0 →
          alookup (aset st.heap st.next (.table [])) x = alookup st.heap x :=
        agree_aset_high hnx _
      have hge0 := goodWEntries_of_map (H := st.heap) ⟨ha, hty, es0, hes0⟩ hinv.2.2.1
      have hge1 : goodWEntries nx0 tyE (aset st.heap st.next (.table []))
          kt.eraseNames vt.eraseNames (readTable st.heap a) :=
        goodWEntries_stable hagr _ _ _ hge0
      obtain ⟨Q, hs1, hn1, hinv3, hrel⟩ :=
        ihE _ vt (readTable st.heap a) st3 es (P.addTable a st.next)
          pc pa ((a, st.next) :: pt) kt.eraseNames hinv1 hge1 hc
      have hfr2 : Frame
          ⟨aset st.visited a (.mapV kt vt st.next),
           aset st.heap st.next (.table []), st.next + 1⟩ st3 :=
        (frame_main g).2.2.2.2.1 _ _ _ _ _ hinv1.1 hc
      have hmemQ : (a, st.next) ∈ Q.tables :=
        hs1.2.2 (a, st.next) (List.mem_cons_self _ _)
      have hlt : st.next < st3.next := by
        have := hfr2.2.1
        simp only [] at this
        omega
      have hrt3 : readTable st3.heap a = readTable st.heap a := by
        unfold readTable
        rw [hfr2.2.2 a (by show a < st.next + 1; omega), hagr a ha]
      have hze : addrsGeEntries nx0 es :=
        entsRel_clone_addrsGe hinv3.2.2.2.2.1 kt.eraseNames vt.eraseNames hrel hge1
      have hinv4 := SimInv_write_table hinv3 hmemQ ha hnx hlt
        (by rw [hrt3]; exact hrel) hze
      refine ⟨Q, GPairs.sub_trans (GPairs.sub_addTable P a st.next) hs1, ?_, hinv4, ?_⟩
      · refine ⟨?_, ?_, ?_⟩
        · intro p hp hnp
          have := hn1.1 p hp hnp
          simp only [] at this
          omega
        · intro p hp hnp
          have := hn1.2.1 p hp hnp
          simp only [] at this
          omega
        · intro p hp hnp
          by_cases hq : p ∈ (P.addTable a st.next).tables
          · rcases List.mem_cons.mp hq with rfl | hq2
            · exact Nat.le_refl _
            · exact absurd hq2 hnp
          · have := hn1.2.2 p hp hq
            simp only [] at this
            omega
      · exact CRel.mapR kt vt kt vt a st.next hmemQ rfl rfl
  · -- visited hit
    rw [hv] at hrun
    simp at hrun
    obtain ⟨rfl, rfl⟩ := hrun
    obtain ⟨ha, hty, es0, hes0⟩ := hg
    have h1 := hinv.2.2.2.2.2.1 (a, c) (alookup_mem _ _ _ hv)
    cases c <;> try exact h1.elim
    case ptrV e1 na =>
      obtain ⟨⟨w1, hw1⟩, _⟩ := hinv.2.2.2.1.1 _ h1.1
      rw [show ((a, na) : Nat × Nat).1 = a from rfl, hes0] at hw1
      simp at hw1
    case sliceV e1 d1 l1 c1 =>
      obtain ⟨⟨es1, hes1, _⟩, _⟩ := hinv.2.2.2.1.2.1 _ h1.1
      rw [show ((a, d1, l1) : Nat × Nat × Nat).1 = a from rfl, hes0] at hes1
      simp at hes1
    case mapV kt1 vt1 na =>
      have hee : (Ty.mapT kt1 vt1).eraseNames = (Ty.mapT kt vt).eraseNames :=
        h1.2.trans hty.symm
      simp only [Ty.eraseNames] at hee
      injection hee with hk hv1
      exact ⟨P, GPairs.sub_refl P, NewAbove.refl _ _, hinv,
             CRel.mapR kt vt kt1 vt1 a na h1.1 hk hv1⟩

theorem take_append_len {α : Type} : ∀ (l1 l2 : List α), (l1 ++ l2).take l1.length = l1
  | [], _ => rfl
  | a :: r, l2 => by
      simp only [List.cons_append, List.length_cons, List.take_succ_cons]
      rw [take_append_len r l2]

theorem drop_append_len {α : Type} : ∀ (l1 l2 : List α), (l1 ++ l2).drop l1.length = l2
  | [], _ => rfl
  | a :: r, l2 => by
      simp only [List.cons_append, List.length_cons, List.drop_succ_cons]
      exact drop_append_len r l2

theorem take_append_of_len {α : Type} (l1 l2 : List α) (n : Nat) (h : l1.length = n) :
    (l1 ++ l2).take n = l1 := by
  rw [← h]
  exact take_append_len l1 l2

/-- Allocating a fresh zeroed backing array, registering the slice pair
(and, when tracked, the visited entry) preserves the invariant, with
the new pair pending. -/
theorem SimInv_alloc_arr {nx0 : Nat} {tyE : Nat → Ty} {st : St} {P : GPairs}
    {pc : List (Nat × Nat)} {pa : List (Nat × Nat × Nat)} {pt : List (Nat × Nat)}
    {e : Ty} {d l c : Nat}
    (hinv : SimInv nx0 tyE st P pc pa pt)
    (hg : goodW nx0 tyE st.heap (.sliceV e d l c)) :
    SimInv nx0 tyE
      ⟨(if needsTrackingK e = true then aset st.visited d (.sliceV e st.next l c)
        else st.visited),
       aset st.heap st.next (.arr (List.replicate c (zeroVal e))), st.next + 1⟩
      (P.addArr d st.next l) pc ((d, st.next, l) :: pa) pt := by
  obtain ⟨hbd, hnx, hgs, hwf, hpz, hvp, hmc, hma, hmt, hcoh, hzg, how, hcd, hpk⟩ := hinv
  obtain ⟨hd, hety, hlc, es0, hes0, hlen0⟩ := hg
  have hagr : ∀ x, x < nx0 →
      alookup (aset st.heap st.next (.arr (List.replicate c (zeroVal e)))) x =
        alookup st.heap x := agree_aset_high hnx _
  refine ⟨(frame_alloc st _ _ hbd).1, by show nx0 ≤ st.next + 1; omega,
          GoodSrcW_stable hagr hgs, ?_, ?_, ?_, hmc, ?_, hmt, ?_, ?_, ?_, ?_, ?_⟩
  · -- WfPairs
    refine ⟨?_, ?_, ?_⟩
    · intro p hp
      have h1 := hwf.1 p hp
      have h2 := hpz.1 p hp
      constructor
      · rw [alookup_aset_ne _ _ _ _ (by omega)]
        exact h1.1
      · rw [alookup_aset_ne _ _ _ _ (by omega)]
        exact h1.2
    · intro p hp
      rcases List.mem_cons.mp hp with rfl | hp
      · constructor
        · rw [show ((d, st.next, l) : Nat × Nat × Nat).1 = d from rfl, hagr d hd]
          exact ⟨es0, hes0, hlen0⟩
        · rw [show ((d, st.next, l) : Nat × Nat × Nat).2.1 = st.next from rfl,
              alookup_aset_self]
          exact ⟨List.replicate c (zeroVal e), rfl, by simp [hlc]⟩
      · have h1 := hwf.2.1 p hp
        have h2 := hpz.2.1 p hp
        constructor
        · rw [alookup_aset_ne _ _ _ _ (by omega)]
          exact h1.1
        · rw [alookup_aset_ne _ _ _ _ (by omega)]
          exact h1.2
    · intro p hp
      have h1 := hwf.2.2 p hp
      have h2 := hpz.2.2 p hp
      constructor
      · rw [alookup_aset_ne _ _ _ _ (by omega)]
        exact h1.1
      · rw [alookup_aset_ne _ _ _ _ (by omega)]
        exact h1.2
  · -- PZone
    refine ⟨?_, ?_, ?_⟩
    · intro p hp
      have h2 := hpz.1 p hp
      have h3 := h2.2.2
      exact ⟨h2.1, h2.2.1, by show p.2 < st.next + 1; omega⟩
    · intro p hp
      rcases List.mem_cons.mp hp with rfl | hp
      · exact ⟨hd, hnx, by show st.next < st.next + 1; omega⟩
      · have h2 := hpz.2.1 p hp
        have h3 := h2.2.2
        exact ⟨h2.1, h2.2.1, by show p.2.1 < st.next + 1; omega⟩
    · intro p hp
      have h2 := hpz.2.2 p hp
      have h3 := h2.2.2
      exact ⟨h2.1, h2.2.1, by show p.2 < st.next + 1; omega⟩
  · -- VisP
    by_cases ht : needsTrackingK e = true
    · rw [if_pos ht]
      intro q hq
      rcases mem_aset _ _ _ _ hq with rfl | hq
      · exact ⟨List.mem_cons_self _ _, hety⟩
      · exact visP_mono (GPairs.sub_addArr P d st.next l) hvp q hq
    · rw [if_neg ht]
      exact visP_mono (GPairs.sub_addArr P d st.next l) hvp
  · -- pending arrs
    intro p hp
    rcases List.mem_cons.mp hp with rfl | hp
    · exact List.mem_cons_self _ _
    · exact List.mem_cons_of_mem _ (hma p hp)
  · -- CohP
    refine ⟨?_, ?_, ?_⟩
    · intro p hp hnp
      have h2 := hpz.1 p hp
      rw [readCell_aset_ne _ _ _ _ (by omega), readCell_aset_ne _ _ _ _ (by omega)]
      exact CRel.mono (GPairs.sub_addArr P d st.next l) (hcoh.1 p hp hnp)
    · intro p hp hnp
      rcases List.mem_cons.mp hp with rfl | hp
      · exact absurd (List.mem_cons_self _ _) hnp
      · have hnpa : p ∉ pa := fun h => hnp (List.mem_cons_of_mem _ h)
        have h2 := hpz.2.1 p hp
        rw [readArr_aset_ne _ _ _ _ (by omega), readArr_aset_ne _ _ _ _ (by omega)]
        exact valsRel_mono (GPairs.sub_addArr P d st.next l) (hcoh.2.1 p hp hnpa)
    · intro p hp hnp
      have h2 := hpz.2.2 p hp
      rw [readTable_aset_ne _ _ _ _ (by omega), readTable_aset_ne _ _ _ _ (by omega)]
      exact entsRel_mono (GPairs.sub_addArr P d st.next l) (hcoh.2.2 p hp hnp)
  · -- ZoneGe
    exact ZoneGe_aset hzg (addrsGe_replicate nx0 c e)
  · -- Owned
    intro b hb hs
    rcases isSome_alookup_aset _ _ _ _ hs with rfl | h
    · exact Or.inr (Or.inl ⟨(d, st.next, l), List.mem_cons_self _ _, rfl⟩)
    · exact owned_mono (GPairs.sub_addArr P d st.next l) how b hb h
  · -- CDis
    exact CDis.addArr hcd hpz d l
  · -- PadOk
    intro p hp w hw
    rcases List.mem_cons.mp hp with rfl | hp
    · rw [show ((d, st.next, l) : Nat × Nat × Nat).2.1 = st.next from rfl,
          show readArr (aset st.heap st.next (.arr (List.replicate c (zeroVal e))))
              st.next = List.replicate c (zeroVal e) from by
            simp [readArr, alookup_aset_self]] at hw
      have hwz : w = zeroVal e :=
        List.eq_of_mem_replicate (List.mem_of_mem_drop hw)
      exact ⟨e, hwz, hety⟩
    · have h2 := hpz.2.1 p hp
      rw [readArr_aset_ne _ _ _ _ (by omega)] at hw
      exact hpk p hp w hw

/-- Writing the cloned elements over the pending fresh backing
discharges the pending pair and preserves the invariant. -/
theorem SimInv_write_arr {nx0 : Nat} {tyE : Nat → Ty} {st3 : St} {Q : GPairs}
    {pc : List (Nat × Nat)} {pa : List (Nat × Nat × Nat)} {pt : List (Nat × Nat)}
    {d nd l : Nat} {newes : List Val}
    (hinv3 : SimInv nx0 tyE st3 Q pc ((d, nd, l) :: pa) pt)
    (hmem : (d, nd, l) ∈ Q.arrs) (hd : d < nx0) (hnd : nx0 ≤ nd) (hlt : nd < st3.next)
    (hrel : ValsRel Q ((readArr st3.heap d).take l) (newes.take l))
    (hlen : l ≤ newes.length)
    (hza : addrsGeList nx0 newes)
    (hpad : ∀ w ∈ newes.drop l, ∃ e1, w = zeroVal e1 ∧ e1.eraseNames = tyE d) :
    SimInv nx0 tyE ⟨st3.visited, aset st3.heap nd (.arr newes), st3.next⟩ Q pc pa pt := by
  obtain ⟨hbd, hnx, hgs, hwf, hpz, hvp, hmc, hma, hmt, hcoh, hzg, how, hcd, hpk⟩ := hinv3
  refine ⟨heapBounded_write hbd hlt _ _, hnx, GoodSrcW_stable (agree_aset_high hnd _) hgs,
          ?_, hpz, hvp, hmc, (fun p hp => hma p (List.mem_cons_of_mem _ hp)), hmt,
          ?_, ZoneGe_aset hzg hza,
          Owned_aset how (Or.inr (Or.inl ⟨(d, nd, l), hmem, rfl⟩)), hcd, ?_⟩
  · -- WfPairs
    refine ⟨?_, ?_, ?_⟩
    · intro p hp
      have h1 := hwf.1 p hp
      have h2 := hpz.1 p hp
      have hne : p.2 ≠ nd := hcd.2.2.2.1 p hp (d, nd, l) hmem
      constructor
      · rw [alookup_aset_ne _ _ _ _ (by omega)]
        exact h1.1
      · rw [alookup_aset_ne _ _ _ _ (fun he => hne he.symm)]
        exact h1.2
    · intro p hp
      have h1 := hwf.2.1 p hp
      have h2 := hpz.2.1 p hp
      by_cases hpnd : p.2.1 = nd
      · have hpe : p = (d, nd, l) := hcd.2.1 p hp (d, nd, l) hmem hpnd
        subst hpe
        constructor
        · rw [alookup_aset_ne _ _ _ _ (by omega)]
          exact h1.1
        · rw [show ((d, nd, l) : Nat × Nat × Nat).2.1 = nd from rfl, alookup_aset_self]
          exact ⟨newes, rfl, hlen⟩
      · constructor
        · rw [alookup_aset_ne _ _ _ _ (by omega)]
          exact h1.1
        · rw [alookup_aset_ne _ _ _ _ (fun he => hpnd he.symm)]
          exact h1.2
    · intro p hp
      have h1 := hwf.2.2 p hp
      have h2 := hpz.2.2 p hp
      have hne : nd ≠ p.2 := hcd.2.2.2.2.2 (d, nd, l) hmem p hp
      constructor
      · rw [alookup_aset_ne _ _ _ _ (by omega)]
        exact h1.1
      · rw [alookup_aset_ne _ _ _ _ hne]
        exact h1.2
  · -- CohP
    refine ⟨?_, ?_, ?_⟩
    · intro p hp hnp
      have h2 := hpz.1 p hp
      have hne : p.2 ≠ nd := hcd.2.2.2.1 p hp (d, nd, l) hmem
      rw [readCell_aset_ne _ _ _ _ (by omega), readCell_aset_ne _ _ _ _ hne]
      exact hcoh.1 p hp hnp
    · intro p hp hnp
      by_cases hpa2 : p = (d, nd, l)
      · subst hpa2
        rw [show ((d, nd, l) : Nat × Nat × Nat).1 = d from rfl,
            show ((d, nd, l) : Nat × Nat × Nat).2.1 = nd from rfl,
            show ((d, nd, l) : Nat × Nat × Nat).2.2 = l from rfl,
            readArr_aset_ne _ _ _ _ (by omega),
            show readArr (aset st3.heap nd (.arr newes)) nd = newes from by
              simp [readArr, alookup_aset_self]]
        exact hrel
      · have hnp2 : p ∉ (d, nd, l) :: pa := by
          intro h
          rcases List.mem_cons.mp h with h | h
          · exact hpa2 h
          · exact hnp h
        have h2 := hpz.2.1 p hp
        have hne : p.2.1 ≠ nd := fun he => hpa2 (hcd.2.1 p hp (d, nd, l) hmem he)
        rw [readArr_aset_ne _ _ _ _ (by omega), readArr_aset_ne _ _ _ _ hne]
        exact hcoh.2.1 p hp hnp2
    · intro p hp hnp
      have h2 := hpz.2.2 p hp
      have hne : nd ≠ p.2 := hcd.2.2.2.2.2 (d, nd, l) hmem p hp
      rw [readTable_aset_ne _ _ _ _ (by omega),
          readTable_aset_ne _ _ _ _ (fun he => hne he.symm)]
      exact hcoh.2.2 p hp hnp
  · -- PadOk
    intro p hp w hw
    by_cases hpa2 : p = (d, nd, l)
    · subst hpa2
      rw [show ((d, nd, l) : Nat × Nat × Nat).2.1 = nd from rfl,
          show readArr (aset st3.heap nd (.arr newes)) nd = newes from by
            simp [readArr, alookup_aset_self]] at hw
      exact hpad w hw
    · have hne : p.2.1 ≠ nd := fun he => hpa2 (hcd.2.1 p hp (d, nd, l) hmem he)
      rw [readArr_aset_ne _ _ _ _ hne] at hw
      exact hpk p hp w hw

theorem simS_step (nx0 : Nat) (tyE : Nat → Ty) (g : Nat) (ihL : SimL nx0 tyE g) :
    SimS nx0 tyE (g+1) := by
  intro st e d l c st2 r P pc pa pt hinv hg hrun
  rw [cloneSlice] at hrun
  simp only [] at hrun
  rcases hcs : cachedSlice st (needsTrackingK e) d l c with _ | cv
  · -- cache miss: fresh backing
    rw [hcs] at hrun
    simp only [] at hrun
    rcases hc : cloneList g
        ⟨(if needsTrackingK e = true then aset st.visited d (.sliceV e st.next l c)
          else st.visited),
         aset st.heap st.next (.arr (List.replicate c (zeroVal e))), st.next + 1⟩
        ((readArr st.heap d).take l) with _ | ⟨st3, es⟩
    · rw [hc] at hrun; simp at hrun
    · rw [hc] at hrun
      simp at hrun
      obtain ⟨rfl, rfl⟩ := hrun
      obtain ⟨hd, hety, hlc, es0, hes0, hlen0⟩ := hg
      have hinv1 := SimInv_alloc_arr hinv ⟨hd, hety, hlc, es0, hes0, hlen0⟩
      have hnx := hinv.2.1
      have hagr : ∀ x, x < nx0 →
          alookup (aset st.heap st.next (.arr (List.replicate c (zeroVal e)))) x =
            alookup st.heap x := agree_aset_high hnx _
      have hge0 := goodWElems_of_slice (H := st.heap)
        ⟨hd, hety, hlc, es0, hes0, hlen0⟩ hinv.2.2.1
      have hge1 : goodWElems nx0 tyE
          (aset st.heap st.next (.arr (List.replicate c (zeroVal e))))
          e.eraseNames ((readArr st.heap d).take l) :=
        goodWElems_stable hagr _ _ hge0
      obtain ⟨Q, hs1, hn1, hinv3, hrel⟩ :=
        ihL _ ((readArr st.heap d).take l) st3 es (P.addArr d st.next l)
          pc ((d, st.next, l) :: pa) pt e.eraseNames hinv1 hge1 hc
      have hfr2 : Frame
          ⟨(if needsTrackingK e = true then aset st.visited d (.sliceV e st.next l c)
            else st.visited),
           aset st.heap st.next (.arr (List.replicate c (zeroVal e))), st.next + 1⟩ st3 :=
        (frame_main g).2.2.2.2.2.2.2.2.2 _ _ _ _ hinv1.1 hc
      have hmemQ : (d, st.next, l) ∈ Q.arrs :=
        hs1.2.1 (d, st.next, l) (List.mem_cons_self _ _)
      have hlt : st.next < st3.next := by
        have := hfr2.2.1
        simp only [] at this
        omega
      have hesl : es.length = l := by
        have h1 := ValsRel.length hrel
        have h2 : ((readArr st.heap d).take l).length = l := by
          rw [show readArr st.heap d = es0 from by simp [readArr, hes0]]
          simp [List.length_take]
          omega
        rw [h1, h2]
      have hfill : fillArr e c es = es ++ List.replicate (c - l) (zeroVal e) := by
        unfold fillArr
        rw [valsRel_map_orZero e hrel, hesl]
      have hra3 : readArr st3.heap d = readArr st.heap d := by
        unfold readArr
        rw [hfr2.2.2 d (by show d < st.next + 1; omega)]
        rw [show alookup (aset st.heap st.next
            (.arr (List.replicate c (zeroVal e)))) d = alookup st.heap d from
          hagr d hd]
      have htake : (fillArr e c es).take l = es := by
        rw [hfill, ← hesl, take_append_len]
      have hrelf : ValsRel Q ((readArr st3.heap d).take l) ((fillArr e c es).take l) := by
        rw [hra3, htake]
        exact hrel
      have hlenf : l ≤ (fillArr e c es).length := by
        rw [hfill]
        simp [List.length_append, hesl]
      have hzaf : addrsGeList nx0 (fillArr e c es) := by
        rw [hfill]
        exact addrsGeList_append
          (valsRel_clone_addrsGe hinv3.2.2.2.2.1 e.eraseNames hrel hge1)
          (addrsGe_replicate nx0 (c - l) e)
      have hpadf : ∀ w ∈ (fillArr e c es).drop l,
          ∃ e1, w = zeroVal e1 ∧ e1.eraseNames = tyE d := by
        intro w hw
        rw [hfill, ← hesl, drop_append_len] at hw
        exact ⟨e, List.eq_of_mem_replicate hw, hety⟩
      have hinv4 := SimInv_write_arr hinv3 hmemQ hd hnx hlt hrelf hlenf hzaf hpadf
      refine ⟨Q, GPairs.sub_trans (GPairs.sub_addArr P d st.next l) hs1, ?_, hinv4, ?_⟩
      · refine ⟨?_, ?_, ?_⟩
        · intro p hp hnp
          have := hn1.1 p hp hnp
          simp only [] at this
          omega
        · intro p hp hnp
          by_cases hq : p ∈ (P.addArr d st.next l).arrs
          · rcases List.mem_cons.mp hq with rfl | hq2
            · exact Nat.le_refl _
            · exact absurd hq2 hnp
          · have := hn1.2.1 p hp hq
            simp only [] at this
            omega
        · intro p hp hnp
          have := hn1.2.2 p hp hnp
          simp only [] at this
          omega
      · exact CRel.sliceR e e d st.next l c c hmemQ hlc rfl
  · -- cache hit
    rw [hcs] at hrun
    simp at hrun
    obtain ⟨rfl, rfl⟩ := hrun
    obtain ⟨hd, hety, hlc, es0, hes0, hlen0⟩ := hg
    by_cases ht : needsTrackingK e = true
    · rw [show cachedSlice st (needsTrackingK e) d l c =
          (match alookup st.visited d with
           | some (Val.sliceV e1 d1 l1 c1) =>
               if l1 = l ∧ c1 = c then some (Val.sliceV e1 d1 l1 c1) else none
           | _ => none) from by rw [cachedSlice, if_pos ht]] at hcs
      rcases hv : alookup st.visited d with _ | cvv
      · rw [hv] at hcs
        simp at hcs
      · rw [hv] at hcs
        have h1 := hinv.2.2.2.2.2.1 (d, cvv) (alookup_mem _ _ _ hv)
        cases cvv <;> simp at hcs
        rename_i e1 d1 l1 c1
        rcases hcs with ⟨⟨rfl, rfl⟩, rfl⟩
        exact ⟨P, GPairs.sub_refl P, NewAbove.refl _ _, hinv,
               CRel.sliceR e e1 d d1 l1 c1 c1 h1.1 hlc (h1.2.trans hety.symm)⟩
    · rw [show cachedSlice st (needsTrackingK e) d l c = none from by
          rw [cachedSlice, if_neg ht]] at hcs
      simp at hcs

/-- The simulation property of every walker operation, by induction on
the fuel. -/
theorem sim_main (nx0 : Nat) (tyE : Nat → Ty) : ∀ f : Nat,
    SimV nx0 tyE f ∧ SimP nx0 tyE f ∧ SimS nx0 tyE f ∧ SimM nx0 tyE f ∧
    SimE nx0 tyE f ∧ SimSt nx0 tyE f ∧ SimF nx0 tyE f ∧ SimA nx0 tyE f ∧
    SimI nx0 tyE f ∧ SimL nx0 tyE f := by
  intro f
  induction f with
  | zero =>
      refine ⟨?_, ?_, ?_, ?_, ?_, ?_, ?_, ?_, ?_, ?_⟩
      · intro st v st2 r P pc pa pt _ _ hrun; simp [cloneValue] at hrun
      · intro st e a st2 r P pc pa pt _ _ hrun; simp [clonePointer] at hrun
      · intro st e d l c st2 r P pc pa pt _ _ hrun; simp [cloneSlice] at hrun
      · intro st kt vt a st2 r P pc pa pt _ _ hrun; simp [cloneMap] at hrun
      · intro st vt es st2 es2 P pc pa pt keE _ _ hrun; simp [cloneEntries] at hrun
      · intro st fs st2 r P pc pa pt _ _ hrun; simp [cloneStruct] at hrun
      · intro st fs st2 fs2 P pc pa pt _ _ hrun; simp [cloneFields] at hrun
      · intro st e es st2 r P pc pa pt _ _ hrun; simp [cloneArray] at hrun
      · intro st v st2 r P pc pa pt _ _ hrun; simp [cloneInterface] at hrun
      · intro st vs st2 vs2 P pc pa pt etE _ _ hrun; simp [cloneList] at hrun
  | succ g ih =>
      obtain ⟨ihV, ihP, ihS, ihM, ihE, ihSt, ihF, ihA, ihI, ihL⟩ := ih
      exact ⟨simV_step nx0 tyE g ihP ihS ihM ihSt ihA ihI,
             simP_step nx0 tyE g ihV,
             simS_step nx0 tyE g ihL,
             simM_step nx0 tyE g ihE,
             simE_step nx0 tyE g ihV ihE,
             simSt_step nx0 tyE g ihF,
             simF_step nx0 tyE g ihV ihF,
             simA_step nx0 tyE g ihL,
             simI_step nx0 tyE g ihV,
             simL_step nx0 tyE g ihV ihL⟩

mutual

/-- Goodness is monotone in the zone bound, given agreement of the type
assignment on the old zone. -/
theorem goodW_mono_zone {nx0 nx2 : Nat} {tyE tyE2 : Nat → Ty} {H : List (Nat × Obj)}
    (hnn : nx0 ≤ nx2) (hag : ∀ a, a < nx0 → tyE2 a = tyE a) :
    ∀ (v : Val), goodW nx0 tyE H v → goodW nx2 tyE2 H v
  | .chanV _, hg => hg
  | .invalidV, hg => hg
  | .ptrV e a, hg => ⟨by have := hg.1; omega, by rw [hag a hg.1]; exact hg.2.1, hg.2.2⟩
  | .sliceV e d l c, hg =>
      ⟨by have := hg.1; omega, by rw [hag d hg.1]; exact hg.2.1, hg.2.2.1, hg.2.2.2⟩
  | .mapV kt vt a, hg => ⟨by have := hg.1; omega, by rw [hag a hg.1]; exact hg.2.1, hg.2.2⟩
  | .structV fs, hg => goodWFields_mono_zone hnn hag fs hg
  | .arrV e es, hg => goodWElems_mono_zone hnn hag e.eraseNames es hg
  | .ifaceV w, hg => goodW_mono_zone hnn hag w hg
  | .intV _, hg => hg
  | .i32V _, hg => hg
  | .strV _, hg => hg
  | .boolV _, hg => hg
  | .floatV _, hg => hg
  | .chanNil, hg => hg
  | .funcNil, hg => hg
  | .funcV _, hg => hg
  | .unsafeV _, hg => hg
  | .ptrNil _, hg => hg
  | .sliceNil _, hg => hg
  | .mapNil _ _, hg => hg
  | .ifaceNil, hg => hg
  | .counterV _ _, hg => hg
termination_by v _ => sizeOf v

/-- Field version of `goodW_mono_zone`. -/
theorem goodWFields_mono_zone {nx0 nx2 : Nat} {tyE tyE2 : Nat → Ty} {H : List (Nat × Obj)}
    (hnn : nx0 ≤ nx2) (hag : ∀ a, a < nx0 → tyE2 a = tyE a) :
    ∀ (fs : List (Bool × Ty × Val)), goodWFields nx0 tyE H fs → goodWFields nx2 tyE2 H fs
  | [], hg => hg
  | (_, _, v) :: r, hg =>
      ⟨goodW_mono_zone hnn hag v hg.1, hg.2.1, goodWFields_mono_zone hnn hag r hg.2.2⟩
termination_by fs _ => sizeOf fs

/-- Element version of `goodW_mono_zone`. -/
theorem goodWElems_mono_zone {nx0 nx2 : Nat} {tyE tyE2 : Nat → Ty} {H : List (Nat × Obj)}
    (hnn : nx0 ≤ nx2) (hag : ∀ a, a < nx0 → tyE2 a = tyE a) :
    ∀ (etE : Ty) (es : List Val), goodWElems nx0 tyE H etE es → goodWElems nx2 tyE2 H etE es
  | _, [], hg => hg
  | etE, v :: r, hg =>
      ⟨goodW_mono_zone hnn hag v hg.1, hg.2.1, goodWElems_mono_zone hnn hag etE r hg.2.2⟩
termination_by _ es _ => sizeOf es

/-- Entry version of `goodW_mono_zone`. -/
theorem goodWEntries_mono_zone {nx0 nx2 : Nat} {tyE tyE2 : Nat → Ty}
    {H : List (Nat × Obj)}
    (hnn : nx0 ≤ nx2) (hag : ∀ a, a < nx0 → tyE2 a = tyE a) :
    ∀ (keE veE : Ty) (es : List (Val × Val)),
      goodWEntries nx0 tyE H keE veE es → goodWEntries nx2 tyE2 H keE veE es
  | _, _, [], hg => hg
  | keE, veE, (k, v) :: r, hg =>
      ⟨goodW_mono_zone hnn hag k hg.1, hg.2.1, goodW_mono_zone hnn hag v hg.2.2.1,
       hg.2.2.2.1, goodWEntries_mono_zone hnn hag keE veE r hg.2.2.2.2⟩
termination_by _ _ es _ => sizeOf es

end

theorem goodWElems_append {nx0 : Nat} {tyE : Nat → Ty} {H : List (Nat × Obj)} {etE : Ty} :
    ∀ {l1 l2 : List Val}, goodWElems nx0 tyE H etE l1 → goodWElems nx0 tyE H etE l2 →
      goodWElems nx0 tyE H etE (l1 ++ l2)
  | [], _, _, h2 => h2
  | v :: r, l2, h1, h2 => ⟨h1.1, h1.2.1, goodWElems_append h1.2.2 h2⟩

theorem find?_exists {α : Type} :
    ∀ (l : List α) (p : α → Bool) (a : α), a ∈ l → p a = true →
      ∃ b, l.find? p = some b := by
  intro l p a
  induction l with
  | nil => intro h; cases h
  | cons x t ih =>
      intro ha hpa
      by_cases hx : p x = true
      · exact ⟨x, by simp [List.find?, hx]⟩
      · rcases List.mem_cons.mp ha with rfl | ha2
        · exact absurd hpa hx
        · obtain ⟨b, hb⟩ := ih ha2 hpa
          exact ⟨b, by simp [List.find?, hx, hb]⟩

/-- `cloneReflect` on a run producing a valid clone. -/
theorem cloneReflect_eq {fuel : Nat} {h : List (Nat × Obj)} {nx : Nat} {v : Val}
    {st : St} {w : Val} (hc : cloneValue fuel ⟨[], h, nx⟩ v = some (st, w))
    (hw : w ≠ Val.invalidV) :
    cloneReflect fuel h nx v = some (st.heap, st.next, w) := by
  unfold cloneReflect
  rw [hc]
  cases w <;> first | rfl | exact absurd rfl hw

/-- The type assignment of the extended (source + clone) zone: clone
addresses inherit the erased type of their pair's source address. -/
def cloneTyE (tyE : Nat → Ty) (nx0 : Nat) (Q : GPairs) : Nat → Ty :=
  fun b =>
    if b < nx0 then tyE b
    else
      match Q.cells.find? (fun p => p.2 == b) with
      | some p => tyE p.1
      | none =>
        match Q.arrs.find? (fun p => p.2.1 == b) with
        | some p => tyE p.1
        | none =>
          match Q.tables.find? (fun p => p.2 == b) with
          | some p => tyE p.1
          | none => Ty.intT

theorem cloneTyE_low {tyE : Nat → Ty} {nx0 : Nat} {Q : GPairs} {a : Nat} (ha : a < nx0) :
    cloneTyE tyE nx0 Q a = tyE a := by
  unfold cloneTyE
  rw [if_pos ha]

theorem cloneTyE_cell {tyE : Nat → Ty} {nx0 nx : Nat} {Q : GPairs}
    (hcd : CDis Q) (hpz : PZone nx0 nx Q) :
    ∀ p ∈ Q.cells, cloneTyE tyE nx0 Q p.2 = tyE p.1 := by
  intro p hp
  have hge := (hpz.1 p hp).2.1
  unfold cloneTyE
  rw [if_neg (by omega)]
  obtain ⟨q, hq⟩ := find?_exists Q.cells (fun x => x.2 == p.2) p hp (by simp)
  rw [hq]
  have hqm := List.mem_of_find?_eq_some hq
  have hqe : q.2 = p.2 := by simpa using List.find?_some hq
  rw [hcd.1 q hqm p hp hqe]

theorem cloneTyE_arr {tyE : Nat → Ty} {nx0 nx : Nat} {Q : GPairs}
    (hcd : CDis Q) (hpz : PZone nx0 nx Q) :
    ∀ p ∈ Q.arrs, cloneTyE tyE nx0 Q p.2.1 = tyE p.1 := by
  intro p hp
  have hge := (hpz.2.1 p hp).2.1
  unfold cloneTyE
  rw [if_neg (by omega)]
  rcases hf : Q.cells.find? (fun x => x.2 == p.2.1) with _ | q
  · rcases hf2 : Q.arrs.find? (fun x => x.2.1 == p.2.1) with _ | q
    · obtain ⟨q1, hq1⟩ := find?_exists Q.arrs (fun x => x.2.1 == p.2.1) p hp (by simp)
      rw [hq1] at hf2
      cases hf2
    · have hqm := List.mem_of_find?_eq_some hf2
      have hqe : q.2.1 = p.2.1 := by simpa using List.find?_some hf2
      simp only [hf, hf2]
      rw [hcd.2.1 q hqm p hp hqe]
  · have hqm := List.mem_of_find?_eq_some hf
    have hqe : q.2 = p.2.1 := by simpa using List.find?_some hf
    exact absurd hqe (hcd.2.2.2.1 q hqm p hp)

theorem cloneTyE_table {tyE : Nat → Ty} {nx0 nx : Nat} {Q : GPairs}
    (hcd : CDis Q) (hpz : PZone nx0 nx Q) :
    ∀ p ∈ Q.tables, cloneTyE tyE nx0 Q p.2 = tyE p.1 := by
  intro p hp
  have hge := (hpz.2.2 p hp).2.1
  unfold cloneTyE
  rw [if_neg (by omega)]
  rcases hf : Q.cells.find? (fun x => x.2 == p.2) with _ | q
  · rcases hf2 : Q.arrs.find? (fun x => x.2.1 == p.2) with _ | q
    · rcases hf3 : Q.tables.find? (fun x => x.2 == p.2) with _ | q
      · obtain ⟨q1, hq1⟩ := find?_exists Q.tables (fun x => x.2 == p.2) p hp (by simp)
        rw [hq1] at hf3
        cases hf3
      · have hqm := List.mem_of_find?_eq_some hf3
        have hqe : q.2 = p.2 := by simpa using List.find?_some hf3
        simp only [hf, hf2, hf3]
        rw [hcd.2.2.1 q hqm p hp hqe]
    · have hqm := List.mem_of_find?_eq_some hf2
      have hqe : q.2.1 = p.2 := by simpa using List.find?_some hf2
      exact absurd hqe (hcd.2.2.2.2.2 q hqm p hp)
  · have hqm := List.mem_of_find?_eq_some hf
    have hqe : q.2 = p.2 := by simpa using List.find?_some hf
    exact absurd hqe (hcd.2.2.2.2.1 q hqm p hp)

theorem goodWElems_of_mem {nx0 : Nat} {tyE : Nat → Ty} {H : List (Nat × Obj)} {etE : Ty} :
    ∀ es : List Val, (∀ w ∈ es, goodW nx0 tyE H w ∧ w.typeOf.eraseNames = etE) →
      goodWElems nx0 tyE H etE es
  | [], _ => trivial
  | v :: r, h =>
      ⟨(h v (List.mem_cons_self _ _)).1, (h v (List.mem_cons_self _ _)).2,
       goodWElems_of_mem r (fun w hw => h w (List.mem_cons_of_mem _ hw))⟩

/-- The full specification of the reflective engine on a
channel-tolerantly good source: a clone relation witnesses the run;
whenever the source is additionally banded-good over a banded-good heap
band, the clone is structurally equal to the source over the final
heap; and the final heap is a good zone for the extended type
assignment — channel-tolerantly everywhere and banded over the clone
band, so the output can be cloned again with the same denotation —
while the original source zone is untouched. -/
theorem cloneReflect_spec {fuel : Nat} {h : List (Nat × Obj)} {nx0 : Nat}
    {tyE : Nat → Ty} {v : Val} {h2 : List (Nat × Obj)} {nx2 : Nat} {r : Val}
    (hb : ∀ a, (alookup h a).isSome = true → a < nx0)
    (hgs : GoodSrcW nx0 tyE h)
    (hg : goodW nx0 tyE h v)
    (hrun : cloneReflect fuel h nx0 v = some (h2, nx2, r)) :
    (∀ lo, goodB lo nx0 tyE h v → GoodSrcB lo nx0 tyE h → structEq h2 v h2 r) ∧
    (∃ Q : GPairs, CRel Q v r) ∧
    (∃ tyE2 : Nat → Ty,
      (∀ a, a < nx0 → tyE2 a = tyE a) ∧
      (∀ a, (alookup h2 a).isSome = true → a < nx2) ∧
      GoodSrcW nx2 tyE2 h2 ∧
      goodW nx2 tyE2 h2 r ∧
      GoodSrcB nx0 nx2 tyE2 h2 ∧
      goodB nx0 nx2 tyE2 h2 r) ∧
    (∀ a, a < nx0 → alookup h2 a = alookup h a) ∧
    nx0 ≤ nx2 ∧
    ZoneGe nx0 h2 ∧
    addrsGe nx0 r := by
  have hinv0 : SimInv nx0 tyE ⟨[], h, nx0⟩ ⟨[], [], []⟩ [] [] [] := by
    refine ⟨hb, Nat.le_refl _, hgs, ?_, ?_, ?_, ?_, ?_, ?_, ?_, ?_, ?_, ?_, ?_⟩
    · exact ⟨fun p hp => absurd hp (List.not_mem_nil p),
             fun p hp => absurd hp (List.not_mem_nil p),
             fun p hp => absurd hp (List.not_mem_nil p)⟩
    · exact ⟨fun p hp => absurd hp (List.not_mem_nil p),
             fun p hp => absurd hp (List.not_mem_nil p),
             fun p hp => absurd hp (List.not_mem_nil p)⟩
    · exact fun q hq => absurd hq (List.not_mem_nil q)
    · exact fun p hp => absurd hp (List.not_mem_nil p)
    · exact fun p hp => absurd hp (List.not_mem_nil p)
    · exact fun p hp => absurd hp (List.not_mem_nil p)
    · exact ⟨fun p hp _ => absurd hp (List.not_mem_nil p),
             fun p hp _ => absurd hp (List.not_mem_nil p),
             fun p hp _ => absurd hp (List.not_mem_nil p)⟩
    · intro a o ha hl
      have := hb a (by rw [hl]; rfl)
      omega
    · intro b hbge hs
      exact absurd (hb b hs) (by omega)
    · exact ⟨fun p hp => absurd hp (List.not_mem_nil p),
             fun p hp => absurd hp (List.not_mem_nil p),
             fun p hp => absurd hp (List.not_mem_nil p),
             fun p hp => absurd hp (List.not_mem_nil p),
             fun p hp => absurd hp (List.not_mem_nil p),
             fun p hp => absurd hp (List.not_mem_nil p)⟩
    · exact fun p hp => absurd hp (List.not_mem_nil p)
  rcases hc : cloneValue fuel ⟨[], h, nx0⟩ v with _ | ⟨st, w⟩
  · rw [cloneReflect, hc] at hrun
    simp at hrun
  · obtain ⟨Q, hsub, hnew, hinvF, hrel⟩ :=
      (sim_main nx0 tyE fuel).1 ⟨[], h, nx0⟩ v st w ⟨[], [], []⟩ [] [] [] hinv0 hg hc
    have hwne := CRel.ne_invalid hrel
    rw [cloneReflect_eq hc hwne] at hrun
    simp at hrun
    obtain ⟨rfl, rfl, rfl⟩ := hrun
    obtain ⟨hbd2, hnx2, hgs2, hwf, hpz, hvp, _, _, _, hcoh, hzg, how, hcd, hpk⟩ := hinvF
    have hfr : Frame ⟨[], h, nx0⟩ st := (frame_main fuel).1 _ _ _ _ hb hc
    have hagl : ∀ a, a < nx0 → alookup st.heap a = alookup h a :=
      fun a ha => hfr.2.2 a (by show a < nx0; omega)
    have hlow : ∀ a, a < nx0 → cloneTyE tyE nx0 Q a = tyE a :=
      fun a ha => cloneTyE_low ha
    have hpres : PairRes Q tyE (cloneTyE tyE nx0 Q) st.heap nx0 st.next :=
      ⟨fun p hp => ⟨(hpz.1 p hp).2.1, (hpz.1 p hp).2.2,
          cloneTyE_cell hcd hpz p hp, (hwf.1 p hp).2⟩,
       fun p hp => ⟨(hpz.2.1 p hp).2.1, (hpz.2.1 p hp).2.2,
          cloneTyE_arr hcd hpz p hp, (hwf.2.1 p hp).2⟩,
       fun p hp => ⟨(hpz.2.2 p hp).2.1, (hpz.2.2 p hp).2.2,
          cloneTyE_table hcd hpz p hp, (hwf.2.2 p hp).2⟩⟩
    have hgBr : goodB nx0 st.next (cloneTyE tyE nx0 Q) st.heap w :=
      CRel.clone_goodB hpres hrel hg
    have hgsB2 : GoodSrcB nx0 st.next (cloneTyE tyE nx0 Q) st.heap := by
      intro b o hbge hblt hbo
      rcases how b hbge (by rw [hbo]; rfl) with ⟨p, hp, hpe⟩ | ⟨p, hp, hpe⟩ |
        ⟨p, hp, hpe⟩
      · -- cell pair
        obtain ⟨a1, b1⟩ := p
        simp only [] at hpe
        subst hpe
        obtain ⟨⟨w0, hw0st⟩, ⟨w1x, hw1st⟩⟩ := hwf.1 (a1, b1) hp
        rw [hbo] at hw1st
        cases hw1st
        have hz1 := hpz.1 (a1, b1) hp
        have hogsrc := hgs2 a1 _ hz1.1 hw0st
        have hcrel := hcoh.1 (a1, b1) hp (List.not_mem_nil _)
        rw [show readCell st.heap ((a1, b1) : Nat × Nat).1 = w0 from by
              simp [readCell, hw0st],
            show readCell st.heap ((a1, b1) : Nat × Nat).2 = w1x from by
              simp [readCell, hbo]] at hcrel
        refine ⟨CRel.clone_goodB hpres hcrel hogsrc.1, ?_⟩
        rw [CRel.typeOf_erase hcrel, hogsrc.2,
            show cloneTyE tyE nx0 Q b1 = tyE a1 from cloneTyE_cell hcd hpz (a1, b1) hp]
      · -- backing-array pair
        obtain ⟨a1, b1, l1⟩ := p
        simp only [] at hpe
        subst hpe
        obtain ⟨⟨es0x, hes0st, hlen0x⟩, ⟨es1x, hes1st, hlen1x⟩⟩ := hwf.2.1 (a1, b1, l1) hp
        rw [hbo] at hes1st
        cases hes1st
        have hz1 := hpz.2.1 (a1, b1, l1) hp
        have hogsrc := hgs2 a1 _ hz1.1 hes0st
        have hvrel := hcoh.2.1 (a1, b1, l1) hp (List.not_mem_nil _)
        rw [show readArr st.heap ((a1, b1, l1) : Nat × Nat × Nat).1 = es0x from by
              simp [readArr, hes0st],
            show readArr st.heap ((a1, b1, l1) : Nat × Nat × Nat).2.1 = es1x from by
              simp [readArr, hbo]] at hvrel
        show goodBElems nx0 st.next (cloneTyE tyE nx0 Q) st.heap
          (cloneTyE tyE nx0 Q b1) es1x
        rw [show cloneTyE tyE nx0 Q b1 = tyE a1 from cloneTyE_arr hcd hpz (a1, b1, l1) hp,
            ← List.take_append_drop l1 es1x]
        refine goodBElems_append ?_ ?_
        · exact valsRel_clone_goodB hpres (tyE a1) hvrel (goodWElems_take hogsrc l1)
        · have hpad := hpk (a1, b1, l1) hp
          rw [show readArr st.heap ((a1, b1, l1) : Nat × Nat × Nat).2.1 = es1x from by
                simp [readArr, hbo]] at hpad
          refine goodBElems_of_mem _ ?_
          intro w1 hw1
          obtain ⟨e1, rfl, he1⟩ := hpad w1 hw1
          exact ⟨goodB_zeroVal _ _ _ _ e1, (typeOf_zeroVal_erase e1).trans he1⟩
      · -- table pair
        obtain ⟨a1, b1⟩ := p
        simp only [] at hpe
        subst hpe
        obtain ⟨⟨es0x, hes0st⟩, ⟨es1x, hes1st⟩⟩ := hwf.2.2 (a1, b1) hp
        rw [hbo] at hes1st
        cases hes1st
        have hz1 := hpz.2.2 (a1, b1) hp
        have hogsrc := hgs2 a1 _ hz1.1 hes0st
        have herel := hcoh.2.2 (a1, b1) hp (List.not_mem_nil _)
        rw [show readTable st.heap ((a1, b1) : Nat × Nat).1 = es0x from by
              simp [readTable, hes0st],
            show readTable st.heap ((a1, b1) : Nat × Nat).2 = es1x from by
              simp [readTable, hbo]] at herel
        simp only [objGoodW] at hogsrc
        simp only [objGoodB]
        rw [show cloneTyE tyE nx0 Q b1 = tyE a1 from cloneTyE_table hcd hpz (a1, b1) hp]
        revert hogsrc
        cases tyE a1 <;> intro hogsrc <;> try exact hogsrc.elim
        exact entsRel_clone_goodB hpres _ _ herel hogsrc
    refine ⟨?_, ⟨Q, hrel⟩,
            ⟨cloneTyE tyE nx0 Q, hlow, hbd2, ?_, goodW_of_goodB w hgBr, hgsB2, hgBr⟩,
            hagl, hnx2, hzg, CRel.clone_addrsGe hpz hrel hg⟩
    · -- structural equality under banded goodness of the source
      intro lo hgB hgsB n
      exact den_eq_B hcoh (GoodSrcB_stable hagl hgsB) n v w hrel
        (goodB_stable hagl v hgB)
    · -- channel-tolerant goodness of the extended zone
      intro b o hblt hbo
      by_cases hbl : b < nx0
      · -- source-zone entry: already tracked by the invariant
        have hog := hgs2 b o hbl hbo
        cases o with
        | cell w1 =>
            refine ⟨goodW_mono_zone hnx2 hlow _ hog.1, ?_⟩
            rw [cloneTyE_low hbl]
            exact hog.2
        | arr es1 =>
            show goodWElems st.next (cloneTyE tyE nx0 Q) st.heap
              (cloneTyE tyE nx0 Q b) es1
            rw [cloneTyE_low hbl]
            exact goodWElems_mono_zone hnx2 hlow _ _ hog
        | table es1 =>
            simp only [objGoodW] at hog ⊢
            rw [cloneTyE_low hbl]
            revert hog
            cases tyE b <;> intro hog <;> try exact hog.elim
            exact goodWEntries_mono_zone hnx2 hlow _ _ _ hog
      · -- clone-band entry: banded goodness weakens to channel-tolerant
        exact objGoodW_of_objGoodB (hgsB2 b o (by omega) hblt hbo)

/-- The output package of a successful `Clone` on a channel-tolerantly
good, hook-free source: structural equality over the final heap
whenever the source is additionally banded-good, plus everything needed
to clone the result again — and to show that second clone structurally
equal to the first. -/
def CloneOut (nx0 : Nat) (tyE : Nat → Ty) (h : List (Nat × Obj)) (v : Val)
    (h2 : List (Nat × Obj)) (nx2 : Nat) (r : Val) : Prop :=
  (∀ lo, goodB lo nx0 tyE h v → GoodSrcB lo nx0 tyE h → structEq h2 v h2 r) ∧
  (∃ tyE2 : Nat → Ty,
    (∀ a, (alookup h2 a).isSome = true → a < nx2) ∧
    GoodSrcW nx2 tyE2 h2 ∧
    goodW nx2 tyE2 h2 (unwrapIface r) ∧
    GoodSrcB nx0 nx2 tyE2 h2 ∧
    goodB nx0 nx2 tyE2 h2 (unwrapIface r) ∧
    (∀ n s, unwrapIface r ≠ Val.counterV n s) ∧
    unwrapIface r = r) ∧
  (∀ a, a < nx0 → alookup h2 a = alookup h a) ∧
  nx0 ≤ nx2 ∧
  ZoneGe nx0 h2 ∧
  addrsGe nx0 r

/-- Dispatch arms that return the source unchanged satisfy the output
package trivially. -/
theorem CloneFn_spec_same {nx0 : Nat} {tyE : Nat → Ty} {h : List (Nat × Obj)} {v : Val}
    (hb : ∀ a, (alookup h a).isSome = true → a < nx0)
    (hgs : GoodSrcW nx0 tyE h) (hg : goodW nx0 tyE h v)
    (hvb : goodB nx0 nx0 tyE h v)
    (hvnc : ∀ n s, v ≠ Val.counterV n s) (hvni : ∀ u, v ≠ Val.ifaceV u)
    (hva : addrsGe nx0 v) :
    CloneOut nx0 tyE h v h nx0 v := by
  refine ⟨fun _ _ _ n => rfl,
          ⟨tyE, hb, hgs, ?_, ?_, ?_, ?_, unwrapIface_eq_self hvni⟩,
          fun a _ => rfl, Nat.le_refl _, ?_, hva⟩
  · rw [unwrapIface_eq_self hvni]
    exact hg
  · exact fun a o h1 h2 _ => absurd h2 (by omega)
  · rw [unwrapIface_eq_self hvni]
    exact hvb
  · rw [unwrapIface_eq_self hvni]
    exact hvnc
  · intro a o ha hl
    have := hb a (by rw [hl]; rfl)
    omega

/-- Dispatch arms that go through the reflective engine satisfy the
output package. -/
theorem CloneFn_spec_reflect {fuel : Nat} {h : List (Nat × Obj)} {nx0 : Nat}
    {tyE : Nat → Ty} {v : Val} {h2 : List (Nat × Obj)} {nx2 : Nat} {r : Val}
    (hb : ∀ a, (alookup h a).isSome = true → a < nx0)
    (hgs : GoodSrcW nx0 tyE h) (hg : goodW nx0 tyE h v)
    (hvni : ∀ u, v ≠ Val.ifaceV u) (hvnc : ∀ n s, v ≠ Val.counterV n s)
    (hrun : cloneReflect fuel h nx0 v = some (h2, nx2, r)) :
    CloneOut nx0 tyE h v h2 nx2 r := by
  obtain ⟨hse, ⟨Q, hcr⟩, ⟨tyE2, hlow2, hb2, hgsW2, hgWr, hgsB2, hgBr⟩,
          hagl, hle, hzg2, hra⟩ := cloneReflect_spec hb hgs hg hrun
  have hshape := CRel.shape hcr hvni hvnc
  have hur : unwrapIface r = r := unwrapIface_eq_self hshape.1
  refine ⟨hse, ⟨tyE2, hb2, hgsW2, ?_, hgsB2, ?_, ?_, hur⟩, hagl, hle, hzg2, hra⟩
  · rw [hur]
    exact hgWr
  · rw [hur]
    exact hgBr
  · rw [hur]
    exact hshape.2

theorem addrsGeList_of_mem {k : Nat} :
    ∀ es : List Val, (∀ w ∈ es, addrsGe k w) → addrsGeList k es
  | [], _ => trivial
  | v :: r, h =>
      ⟨h v (List.mem_cons_self _ _),
       addrsGeList_of_mem r (fun w hw => h w (List.mem_cons_of_mem _ hw))⟩

theorem addrsGeEntries_of_mem {k : Nat} :
    ∀ es : List (Val × Val), (∀ p ∈ es, addrsGe k p.1 ∧ addrsGe k p.2) →
      addrsGeEntries k es
  | [], _ => trivial
  | (kv, vv) :: r, h =>
      ⟨(h (kv, vv) (List.mem_cons_self _ _)).1,
       (h (kv, vv) (List.mem_cons_self _ _)).2,
       addrsGeEntries_of_mem r (fun p hp => h p (List.mem_cons_of_mem _ hp))⟩

/-- A value of a fast-path scalar element type carries no heap
addresses. -/
theorem addrsGe_of_fastElem {e : Ty} {w : Val} (k : Nat)
    (hf : fastSliceElem e = true) (ht : w.typeOf.eraseNames = e.eraseNames) :
    addrsGe k w := by
  cases e <;> simp [fastSliceElem] at hf <;>
    cases w <;> first
      | trivial
      | simp [Val.typeOf, Ty.eraseNames, counterTy, eraseNamesFields] at ht

/-- The fast-path map types have literal scalar key and value types. -/
theorem fastMapTy_scalar {kt vt : Ty} (hf : fastMapTy (.mapT kt vt) = true) :
    fastSliceElem kt = true ∧ fastSliceElem vt = true := by
  cases kt <;> cases vt <;> first
    | exact ⟨rfl, rfl⟩
    | (exfalso; simp [fastMapTy] at hf)

/-- Transport of source-zone object goodness into a bigger zone over an
extended heap agreeing on the source zone. -/
theorem objGoodW_transport {nx0 nx2 : Nat} {tyE tyE2 : Nat → Ty}
    {h h2 : List (Nat × Obj)} {b : Nat} {o : Obj}
    (hagl : ∀ a, a < nx0 → alookup h2 a = alookup h a)
    (hnn : nx0 ≤ nx2) (hlow : ∀ a, a < nx0 → tyE2 a = tyE a)
    (hbl : b < nx0) (hog : objGoodW nx0 tyE h b o) :
    objGoodW nx2 tyE2 h2 b o := by
  cases o with
  | cell w1 =>
      refine ⟨goodW_mono_zone hnn hlow _ (goodW_stable hagl _ hog.1), ?_⟩
      rw [hlow b hbl]
      exact hog.2
  | arr es1 =>
      show goodWElems nx2 tyE2 h2 (tyE2 b) es1
      rw [hlow b hbl]
      exact goodWElems_mono_zone hnn hlow _ _ (goodWElems_stable hagl _ _ hog)
  | table es1 =>
      simp only [objGoodW] at hog ⊢
      rw [hlow b hbl]
      revert hog
      cases tyE b <;> intro hog <;> try exact hog.elim
      exact goodWEntries_mono_zone hnn hlow _ _ _ (goodWEntries_stable hagl _ _ _ hog)

/-- The `Clone` fast path for scalar-element slices satisfies the
output package. -/
theorem CloneFn_spec_fastSlice {nx0 : Nat} {tyE : Nat → Ty} {h : List (Nat × Obj)}
    {e : Ty} {d l c : Nat}
    (hb : ∀ a, (alookup h a).isSome = true → a < nx0)
    (hgs : GoodSrcW nx0 tyE h) (hg : goodW nx0 tyE h (.sliceV e d l c))
    (hf : fastSliceElem e = true) :
    CloneOut nx0 tyE h (.sliceV e d l c)
      (aset h nx0 (.arr ((readArr h d).take l ++
        List.replicate (c - ((readArr h d).take l).length) (zeroVal e))))
      (nx0 + 1) (.sliceV e nx0 l c) := by
  obtain ⟨hd, hety, hlc, es0, hes0, hlen0⟩ := hg
  have hra : readArr h d = es0 := by simp [readArr, hes0]
  have hsrcl : ((readArr h d).take l).length = l := by
    rw [hra]
    simp [List.length_take]
    omega
  have hagl : ∀ x, x < nx0 →
      alookup (aset h nx0 (.arr ((readArr h d).take l ++
        List.replicate (c - ((readArr h d).take l).length) (zeroVal e)))) x =
      alookup h x := agree_aset_high (Nat.le_refl nx0) _
  have hlow : ∀ x, x < nx0 →
      (fun b => if b < nx0 then tyE b else tyE d) x = tyE x :=
    fun x hx => if_pos hx
  have htyd : (fun b => if b < nx0 then tyE b else tyE d) nx0 = tyE d :=
    if_neg (Nat.lt_irrefl nx0)
  refine ⟨?_, ⟨fun b => if b < nx0 then tyE b else tyE d, ?_, ?_, ?_, ?_, ?_, ?_, rfl⟩,
          hagl, by omega, ?_, ?_⟩
  · -- structural equality (unconditional on this path)
    intro _ _ _ n
    cases n with
    | zero => simp [den]
    | succ n =>
        simp only [den]
        refine congrArg GTree.sliceD (congrArg (List.map _) ?_)
        have key : ∀ zs : List Val,
            (((readArr h d).take l) ++ zs).take l = (readArr h d).take l :=
          fun zs => take_append_of_len _ zs l hsrcl
        rw [readArr_aset_ne _ _ _ _ (by omega),
            show readArr (aset h nx0 (.arr ((readArr h d).take l ++
              List.replicate (c - ((readArr h d).take l).length) (zeroVal e)))) nx0 =
              (readArr h d).take l ++
                List.replicate (c - ((readArr h d).take l).length) (zeroVal e) from by
              simp [readArr, alookup_aset_self],
            key]
  · -- boundedness
    intro x hs
    rcases isSome_alookup_aset _ _ _ _ hs with rfl | hx
    · omega
    · have := hb x hx
      omega
  · -- channel-tolerant goodness of the extended zone
    intro b o hblt hbo
    by_cases hbe : b = nx0
    · rw [hbe] at hbo ⊢
      rw [alookup_aset_self] at hbo
      cases hbo
      show goodWElems (nx0 + 1) (fun x => if x < nx0 then tyE x else tyE d)
        (aset h nx0 (.arr ((readArr h d).take l ++
          List.replicate (c - ((readArr h d).take l).length) (zeroVal e)))) _ _
      simp only [htyd]
      refine goodWElems_append ?_ ?_
      · have hog := hgs d _ hd hes0
        have h1 : goodWElems nx0 tyE h (tyE d) ((readArr h d).take l) := by
          rw [hra]
          exact goodWElems_take hog l
        exact goodWElems_mono_zone (by omega) hlow _ _ (goodWElems_stable hagl _ _ h1)
      · have h2 := goodW_zeroReplicate (nx0 + 1)
          (fun x => if x < nx0 then tyE x else tyE d)
          (aset h nx0 (.arr ((readArr h d).take l ++
            List.replicate (c - ((readArr h d).take l).length) (zeroVal e))))
          (c - ((readArr h d).take l).length) e
        rw [hety] at h2
        exact h2
    · have hbl : b < nx0 := by omega
      rw [alookup_aset_ne _ _ _ _ (by omega)] at hbo
      exact objGoodW_transport hagl (by omega) hlow hbl (hgs b o hbl hbo)
  · -- channel-tolerant goodness of the clone
    rw [show unwrapIface (.sliceV e nx0 l c) = .sliceV e nx0 l c from rfl]
    refine ⟨by omega, by rw [htyd, hety], hlc, ?_⟩
    refine ⟨(readArr h d).take l ++
      List.replicate (c - ((readArr h d).take l).length) (zeroVal e),
      alookup_aset_self _ _ _, ?_⟩
    rw [List.length_append, hsrcl]
    omega
  · -- banded goodness of the clone band
    intro b o hbge hblt hbo
    have hbe : b = nx0 := by omega
    rw [hbe] at hbo ⊢
    rw [alookup_aset_self] at hbo
    cases hbo
    show goodBElems nx0 (nx0 + 1) (fun x => if x < nx0 then tyE x else tyE d)
      (aset h nx0 (.arr ((readArr h d).take l ++
        List.replicate (c - ((readArr h d).take l).length) (zeroVal e)))) _ _
    simp only [htyd]
    refine goodBElems_append ?_ ?_
    · have hog := hgs d _ hd hes0
      refine goodBElems_of_mem _ ?_
      intro w hw
      have hwm : w ∈ es0 := by
        rw [hra] at hw
        exact (List.take_subset l es0) hw
      have h2 := goodWElems_mem hog hwm
      exact ⟨goodB_of_fastElem _ _ _ _ hf (h2.2.trans hety.symm), h2.2⟩
    · have h2 := goodB_zeroReplicate nx0 (nx0 + 1)
        (fun x => if x < nx0 then tyE x else tyE d)
        (aset h nx0 (.arr ((readArr h d).take l ++
          List.replicate (c - ((readArr h d).take l).length) (zeroVal e))))
        (c - ((readArr h d).take l).length) e
      rw [hety] at h2
      exact h2
  · -- banded goodness of the clone
    rw [show unwrapIface (.sliceV e nx0 l c) = .sliceV e nx0 l c from rfl]
    refine ⟨Nat.le_refl _, by omega, by rw [htyd, hety], hlc, ?_⟩
    refine ⟨(readArr h d).take l ++
      List.replicate (c - ((readArr h d).take l).length) (zeroVal e),
      alookup_aset_self _ _ _, ?_⟩
    rw [List.length_append, hsrcl]
    omega
  · -- no hook
    intro n s
    simp [unwrapIface]
  · -- clone zone closed
    intro x o hx hl
    by_cases hxe : x = nx0
    · rw [hxe] at hl
      rw [alookup_aset_self] at hl
      cases hl
      refine addrsGeList_append (addrsGeList_of_mem _ ?_) (addrsGe_replicate nx0 _ e)
      intro w hw
      have hwm : w ∈ es0 := by
        rw [hra] at hw
        exact (List.take_subset l es0) hw
      have hog := hgs d _ hd hes0
      exact addrsGe_of_fastElem nx0 hf ((goodWElems_mem hog hwm).2.trans hety.symm)
    · rw [alookup_aset_ne _ _ _ _ (fun he => hxe he.symm)] at hl
      have := hb x (by rw [hl]; rfl)
      omega
  · -- clone lives in the clone zone
    exact Nat.le_refl nx0

/-- The `Clone` fast path for scalar maps (`maps.Clone`) satisfies the
output package. -/
theorem CloneFn_spec_fastMap {nx0 : Nat} {tyE : Nat → Ty} {h : List (Nat × Obj)}
    {kt vt : Ty} {a : Nat}
    (hb : ∀ x, (alookup h x).isSome = true → x < nx0)
    (hgs : GoodSrcW nx0 tyE h) (hg : goodW nx0 tyE h (.mapV kt vt a))
    (hf : fastMapTy (.mapT kt vt) = true) :
    CloneOut nx0 tyE h (.mapV kt vt a)
      (aset h nx0 (.table (readTable h a))) (nx0 + 1) (.mapV kt vt nx0) := by
  obtain ⟨ha, hty, es0, hes0⟩ := hg
  have hrt : readTable h a = es0 := by simp [readTable, hes0]
  have hagl : ∀ x, x < nx0 →
      alookup (aset h nx0 (.table (readTable h a))) x = alookup h x :=
    agree_aset_high (Nat.le_refl nx0) _
  have hlow : ∀ x, x < nx0 →
      (fun b => if b < nx0 then tyE b else tyE a) x = tyE x :=
    fun x hx => if_pos hx
  have htya : (fun b => if b < nx0 then tyE b else tyE a) nx0 = tyE a :=
    if_neg (Nat.lt_irrefl nx0)
  have hog0 := hgs a _ ha hes0
  have hshape : ∃ keE veE, tyE a = Ty.mapT keE veE ∧
      goodWEntries nx0 tyE h keE veE es0 := by
    simp only [objGoodW] at hog0
    revert hog0
    cases hta : tyE a <;> intro hog0 <;> try exact hog0.elim
    exact ⟨_, _, rfl, hog0⟩
  obtain ⟨keE, veE, hta, hge⟩ := hshape
  have hkeq : Ty.mapT kt.eraseNames vt.eraseNames = Ty.mapT keE veE := by
    rw [show Ty.mapT kt.eraseNames vt.eraseNames = (Ty.mapT kt vt).eraseNames from rfl,
        hty, hta]
  injection hkeq with hke hve
  have hkv := fastMapTy_scalar hf
  refine ⟨?_, ⟨fun b => if b < nx0 then tyE b else tyE a, ?_, ?_, ?_, ?_, ?_, ?_, rfl⟩,
          hagl, by omega, ?_, ?_⟩
  · -- structural equality (unconditional on this path)
    intro _ _ _ n
    cases n with
    | zero => simp [den]
    | succ n =>
        simp only [den]
        refine congrArg GTree.mapD (congrArg (List.map _) ?_)
        rw [readTable_aset_ne _ _ _ _ (by omega),
            show readTable (aset h nx0 (.table (readTable h a))) nx0 =
              readTable h a from by simp [readTable, alookup_aset_self]]
  · -- boundedness
    intro x hs
    rcases isSome_alookup_aset _ _ _ _ hs with rfl | hx
    · omega
    · have := hb x hx
      omega
  · -- channel-tolerant goodness of the extended zone
    intro b o hblt hbo
    by_cases hbe : b = nx0
    · rw [hbe] at hbo ⊢
      rw [alookup_aset_self] at hbo
      cases hbo
      have hge1 : goodWEntries nx0 tyE h keE veE (readTable h a) := by
        rw [hrt]
        exact hge
      have hstep := goodWEntries_stable hagl _ _ _ hge1
      simp only [objGoodW, if_neg (Nat.lt_irrefl nx0), hta]
      refine goodWEntries_mono_zone ?_ (fun x hx => if_pos hx) _ _ _ hstep
      omega
    · have hbl : b < nx0 := by omega
      rw [alookup_aset_ne _ _ _ _ (by omega)] at hbo
      exact objGoodW_transport hagl (by omega) hlow hbl (hgs b o hbl hbo)
  · -- channel-tolerant goodness of the clone
    rw [show unwrapIface (.mapV kt vt nx0) = .mapV kt vt nx0 from rfl]
    exact ⟨by omega, by rw [htya]; exact hty, readTable h a, alookup_aset_self _ _ _⟩
  · -- banded goodness of the clone band
    intro b o hbge hblt hbo
    have hbe : b = nx0 := by omega
    rw [hbe] at hbo ⊢
    rw [alookup_aset_self] at hbo
    cases hbo
    simp only [objGoodB, if_neg (Nat.lt_irrefl nx0), hta]
    rw [hrt]
    refine goodBEntries_of_mem _ ?_
    intro p hp
    obtain ⟨pk, pv⟩ := p
    have h2 := goodWEntries_mem hge hp
    exact ⟨⟨goodB_of_fastElem _ _ _ _ hkv.1 (h2.1.2.trans hke.symm), h2.1.2⟩,
           ⟨goodB_of_fastElem _ _ _ _ hkv.2 (h2.2.2.trans hve.symm), h2.2.2⟩⟩
  · -- banded goodness of the clone
    rw [show unwrapIface (.mapV kt vt nx0) = .mapV kt vt nx0 from rfl]
    exact ⟨Nat.le_refl _, by omega, by rw [htya]; exact hty, readTable h a,
           alookup_aset_self _ _ _⟩
  · -- no hook
    intro n s
    simp [unwrapIface]
  · -- clone zone closed
    intro x o hx hl
    by_cases hxe : x = nx0
    · rw [hxe] at hl
      rw [alookup_aset_self] at hl
      cases hl
      refine addrsGeEntries_of_mem _ ?_
      intro p hp
      obtain ⟨pk, pv⟩ := p
      have hpm : (pk, pv) ∈ es0 := by
        rw [hrt] at hp
        exact hp
      have h2 := goodWEntries_mem hge hpm
      exact ⟨addrsGe_of_fastElem nx0 hkv.1 (h2.1.2.trans hke.symm),
             addrsGe_of_fastElem nx0 hkv.2 (h2.2.2.trans hve.symm)⟩
    · rw [alookup_aset_ne _ _ _ _ (fun he => hxe he.symm)] at hl
      have := hb x (by rw [hl]; rfl)
      omega
  · -- clone lives in the clone zone
    exact Nat.le_refl nx0

/-- The top-level `Clone` specification: on a well-typed source (live
channels allowed anywhere) whose dynamic value does not implement the
custom-clone hook, the result satisfies the full output package. -/
theorem CloneFn_spec {fuel : Nat} {h : List (Nat × Obj)} {nx0 : Nat}
    {tyE : Nat → Ty} {src : Val} {h2 : List (Nat × Obj)} {nx2 : Nat} {r : Val}
    (hb : ∀ a, (alookup h a).isSome = true → a < nx0)
    (hgs : GoodSrcW nx0 tyE h)
    (hg : goodW nx0 tyE h (unwrapIface src))
    (hnc : ∀ n s, unwrapIface src ≠ Val.counterV n s)
    (hrun : CloneFn fuel h nx0 src = some (h2, nx2, r)) :
    CloneOut nx0 tyE h (unwrapIface src) h2 nx2 r := by
  rw [CloneFn] at hrun
  revert hg hnc hrun
  cases hu : unwrapIface src with
  | intV n =>
      intro hg hnc hrun
      simp at hrun
      obtain ⟨rfl, rfl, rfl⟩ := hrun
      exact CloneFn_spec_same hb hgs hg trivial hnc (fun u => by simp) trivial
  | i32V n =>
      intro hg hnc hrun
      simp at hrun
      obtain ⟨rfl, rfl, rfl⟩ := hrun
      exact CloneFn_spec_same hb hgs hg trivial hnc (fun u => by simp) trivial
  | strV s =>
      intro hg hnc hrun
      simp at hrun
      obtain ⟨rfl, rfl, rfl⟩ := hrun
      exact CloneFn_spec_same hb hgs hg trivial hnc (fun u => by simp) trivial
  | boolV b =>
      intro hg hnc hrun
      simp at hrun
      obtain ⟨rfl, rfl, rfl⟩ := hrun
      exact CloneFn_spec_same hb hgs hg trivial hnc (fun u => by simp) trivial
  | floatV q =>
      intro hg hnc hrun
      simp at hrun
      obtain ⟨rfl, rfl, rfl⟩ := hrun
      exact CloneFn_spec_same hb hgs hg trivial hnc (fun u => by simp) trivial
  | ptrNil e =>
      intro hg hnc hrun
      simp at hrun
      obtain ⟨rfl, rfl, rfl⟩ := hrun
      exact CloneFn_spec_same hb hgs hg trivial hnc (fun u => by simp) trivial
  | ifaceNil =>
      intro hg hnc hrun
      simp at hrun
      obtain ⟨rfl, rfl, rfl⟩ := hrun
      exact CloneFn_spec_same hb hgs hg trivial hnc (fun u => by simp) trivial
  | invalidV =>
      intro hg hnc hrun
      exact hg.elim
  | chanV i =>
      intro hg hnc hrun
      exact CloneFn_spec_reflect hb hgs hg (fun u => by simp) (fun n s => by simp) hrun
  | counterV n s =>
      intro hg hnc hrun
      exact absurd rfl (hnc n s)
  | ifaceV inner =>
      exact absurd hu (unwrapIface_not_iface src inner)
  | sliceNil e =>
      intro hg hnc hrun
      simp only [] at hrun
      by_cases hf : fastSliceElem e = true
      · rw [if_pos hf] at hrun
        simp [cloneSliceExact] at hrun
        obtain ⟨rfl, rfl, rfl⟩ := hrun
        exact CloneFn_spec_same hb hgs hg trivial hnc (fun u => by simp) trivial
      · rw [if_neg hf] at hrun
        exact CloneFn_spec_reflect hb hgs hg (fun u => by simp) (fun n s => by simp) hrun
  | sliceV e d l c =>
      intro hg hnc hrun
      simp only [] at hrun
      by_cases hf : fastSliceElem e = true
      · rw [if_pos hf] at hrun
        simp [cloneSliceExact] at hrun
        obtain ⟨rfl, rfl, rfl⟩ := hrun
        rw [show l ⊓ (readArr h d).length = (List.take l (readArr h d)).length from
              (List.length_take l (readArr h d)).symm]
        exact CloneFn_spec_fastSlice hb hgs hg hf
      · rw [if_neg hf] at hrun
        exact CloneFn_spec_reflect hb hgs hg (fun u => by simp) (fun n s => by simp) hrun
  | mapNil kt vt =>
      intro hg hnc hrun
      simp only [] at hrun
      by_cases hf : fastMapTy (.mapT kt vt) = true
      · rw [if_pos hf] at hrun
        simp at hrun
        obtain ⟨rfl, rfl, rfl⟩ := hrun
        exact CloneFn_spec_same hb hgs hg trivial hnc (fun u => by simp) trivial
      · rw [if_neg hf] at hrun
        exact CloneFn_spec_reflect hb hgs hg (fun u => by simp) (fun n s => by simp) hrun
  | mapV kt vt a =>
      intro hg hnc hrun
      simp only [] at hrun
      by_cases hf : fastMapTy (.mapT kt vt) = true
      · rw [if_pos hf] at hrun
        simp [mapsClone] at hrun
        obtain ⟨rfl, rfl, rfl⟩ := hrun
        exact CloneFn_spec_fastMap hb hgs hg hf
      · rw [if_neg hf] at hrun
        exact CloneFn_spec_reflect hb hgs hg (fun u => by simp) (fun n s => by simp) hrun
  | chanNil =>
      intro hg hnc hrun
      exact CloneFn_spec_reflect hb hgs hg (fun u => by simp) (fun n s => by simp) hrun
  | funcNil =>
      intro hg hnc hrun
      exact CloneFn_spec_reflect hb hgs hg (fun u => by simp) (fun n s => by simp) hrun
  | funcV i =>
      intro hg hnc hrun
      exact CloneFn_spec_reflect hb hgs hg (fun u => by simp) (fun n s => by simp) hrun
  | unsafeV i =>
      intro hg hnc hrun
      exact CloneFn_spec_reflect hb hgs hg (fun u => by simp) (fun n s => by simp) hrun
  | ptrV e a =>
      intro hg hnc hrun
      exact CloneFn_spec_reflect hb hgs hg (fun u => by simp) (fun n s => by simp) hrun
  | structV fs =>
      intro hg hnc hrun
      exact CloneFn_spec_reflect hb hgs hg (fun u => by simp) (fun n s => by simp) hrun
  | arrV e es =>
      intro hg hnc hrun
      exact CloneFn_spec_reflect hb hgs hg (fun u => by simp) (fun n s => by simp) hrun

theorem addrsGeList_mem {k : Nat} :
    ∀ {es : List Val}, addrsGeList k es → ∀ {w}, w ∈ es → addrsGe k w := by
  intro es
  induction es with
  | nil => intro _ _ h; cases h
  | cons v r ih =>
      intro hl w hw
      rcases List.mem_cons.mp hw with rfl | hw
      · exact hl.1
      · exact ih hl.2 hw

theorem addrsGeFields_mem {k : Nat} :
    ∀ {fs : List (Bool × Ty × Val)}, addrsGeFields k fs →
      ∀ {ex t v}, (ex, t, v) ∈ fs → addrsGe k v := by
  intro fs
  induction fs with
  | nil => intro _ _ _ _ h; cases h
  | cons f r ih =>
      obtain ⟨ex1, t1, v1⟩ := f
      intro hl ex t v hw
      rcases List.mem_cons.mp hw with h | h
      · cases h
        exact hl.1
      · exact ih hl.2 h

theorem addrsGeEntries_mem {k : Nat} :
    ∀ {es : List (Val × Val)}, addrsGeEntries k es →
      ∀ {kv vv}, (kv, vv) ∈ es → addrsGe k kv ∧ addrsGe k vv := by
  intro es
  induction es with
  | nil => intro _ _ _ h; cases h
  | cons p r ih =>
      obtain ⟨k1, v1⟩ := p
      intro hl kv vv hw
      rcases List.mem_cons.mp hw with h | h
      · cases h
        exact ⟨hl.1, hl.2.1⟩
      · exact ih hl.2.2 h

/-- The denotation of a clone-zone value over a closed clone zone
depends only on the clone-zone part of the heap: mutations of the
source zone are invisible to it. -/
theorem den_stable_clone {nx0 : Nat} {H H2 : List (Nat × Obj)}
    (hag : ∀ a, nx0 ≤ a → alookup H2 a = alookup H a)
    (hz : ZoneGe nx0 H) :
    ∀ (n : Nat) (v : Val), addrsGe nx0 v → den n H v = den n H2 v := by
  intro n
  induction n with
  | zero => intro v _; simp [den]
  | succ n ih =>
      intro v hv
      cases v with
      | ptrV e a =>
          have hrc : readCell H2 a = readCell H a := by
            simp [readCell, hag a hv]
          simp only [den]
          rw [hrc]
          refine congrArg GTree.ptrD (ih _ ?_)
          rcases hl : alookup H a with _ | o
          · rw [show readCell H a = Val.invalidV from by simp [readCell, hl]]
            trivial
          · cases o with
            | cell w =>
                rw [show readCell H a = w from by simp [readCell, hl]]
                exact hz a _ hv hl
            | arr es =>
                rw [show readCell H a = Val.invalidV from by simp [readCell, hl]]
                trivial
            | table es =>
                rw [show readCell H a = Val.invalidV from by simp [readCell, hl]]
                trivial
      | sliceV e d l c =>
          have hra : readArr H2 d = readArr H d := by
            simp [readArr, hag d hv]
          simp only [den]
          rw [hra]
          refine congrArg GTree.sliceD (List.map_congr_left ?_)
          intro w hw
          refine ih w ?_
          rcases hl : alookup H d with _ | o
          · rw [show readArr H d = [] from by simp [readArr, hl]] at hw
            cases (List.take_subset l []) hw
          · cases o with
            | cell w1 =>
                rw [show readArr H d = [] from by simp [readArr, hl]] at hw
                cases (List.take_subset l []) hw
            | arr es =>
                rw [show readArr H d = es from by simp [readArr, hl]] at hw
                exact addrsGeList_mem (hz d _ hv hl) ((List.take_subset l es) hw)
            | table es =>
                rw [show readArr H d = [] from by simp [readArr, hl]] at hw
                cases (List.take_subset l []) hw
      | mapV kt vt a =>
          have hrt : readTable H2 a = readTable H a := by
            simp [readTable, hag a hv]
          simp only [den]
          rw [hrt]
          refine congrArg GTree.mapD (List.map_congr_left ?_)
          intro p hp
          obtain ⟨kv, vv⟩ := p
          rcases hl : alookup H a with _ | o
          · rw [show readTable H a = [] from by simp [readTable, hl]] at hp
            cases hp
          · cases o with
            | cell w1 =>
                rw [show readTable H a = [] from by simp [readTable, hl]] at hp
                cases hp
            | arr es =>
                rw [show readTable H a = [] from by simp [readTable, hl]] at hp
                cases hp
            | table es =>
                rw [show readTable H a = es from by simp [readTable, hl]] at hp
                have h2 := addrsGeEntries_mem (hz a _ hv hl) hp
                rw [ih kv h2.1, ih vv h2.2]
      | structV fs =>
          simp only [den]
          refine congrArg GTree.structD (List.map_congr_left ?_)
          intro f hf
          obtain ⟨ex, t, w⟩ := f
          exact ih w (addrsGeFields_mem hv (List.mem_of_mem_filter hf))
      | arrV e es =>
          simp only [den]
          refine congrArg GTree.arrD (List.map_congr_left ?_)
          intro w hw
          exact ih w (addrsGeList_mem hv hw)
      | ifaceV w =>
          simp only [den]
          exact congrArg GTree.ifaceD (ih w hv)
      | _ => simp [den]


/-- **C2 (amended).**  For sources that are channel-free and well-typed
(`good` over a typed source zone) and whose dynamic value does not
implement the custom-clone hook, the result of `Clone` is structurally
equal to the source over the final heap, and causally independent of
it: any mutation of the source zone performed after `Clone` returns is
not observed by the clone's denotation at any depth, and any mutation
of the clone zone is not observed by the source's denotation at any
depth. -/
theorem C2_clone_equal_independent_amended (fuel : Nat) (h : List (Nat × Obj))
    (nx0 : Nat) (tyE : Nat → Ty) (src : Val) (h2 : List (Nat × Obj)) (nx2 : Nat)
    (r : Val)
    (hb : ∀ a, (alookup h a).isSome = true → a < nx0)
    (hgs : GoodSrc nx0 tyE h)
    (hg : good nx0 tyE h (unwrapIface src))
    (hnc : ∀ n s, unwrapIface src ≠ Val.counterV n s)
    (hrun : CloneFn fuel h nx0 src = some (h2, nx2, r)) :
    structEq h2 (unwrapIface src) h2 r ∧
    (∀ hmut, (∀ a, nx0 ≤ a → alookup hmut a = alookup h2 a) →
      ∀ n, den n hmut r = den n h2 r) ∧
    (∀ hmut, (∀ a, a < nx0 → alookup hmut a = alookup h a) →
      ∀ n, den n hmut (unwrapIface src) = den n h (unwrapIface src)) := by
  obtain ⟨hse, _, hagl, hle, hzg, hra⟩ :=
    CloneFn_spec hb (GoodSrcW_of_GoodSrc hgs) (goodW_of_good _ hg) hnc hrun
  refine ⟨hse 0 (goodB_of_good _ hg) (GoodSrcB_of_GoodSrc hgs), ?_, ?_⟩
  · intro hmut hagm n
    exact (den_stable_clone hagm hzg n r hra).symm
  · intro hmut hagm n
    exact (den_stable_good hagm hgs n _ hg).symm

theorem C2_clone_equal_independent_amended_witness :
    structEq [(0, Obj.cell (Val.intV 7)), (1, Obj.cell (Val.intV 7))]
        (Val.ptrV Ty.intT 0)
        [(0, Obj.cell (Val.intV 7)), (1, Obj.cell (Val.intV 7))]
        (Val.ptrV Ty.intT 1) ∧
    den 2 [(0, Obj.cell (Val.intV 9)), (1, Obj.cell (Val.intV 7))] (Val.ptrV Ty.intT 1) =
      den 2 [(0, Obj.cell (Val.intV 7)), (1, Obj.cell (Val.intV 7))]
        (Val.ptrV Ty.intT 1) ∧
    den 2 [(0, Obj.cell (Val.intV 7)), (1, Obj.cell (Val.intV 9))] (Val.ptrV Ty.intT 0) =
      den 2 [(0, Obj.cell (Val.intV 7))] (Val.ptrV Ty.intT 0) := by
  have H := C2_clone_equal_independent_amended 10 [(0, Obj.cell (Val.intV 7))] 1
    (fun _ => Ty.intT) (Val.ptrV Ty.intT 0)
    [(0, Obj.cell (Val.intV 7)), (1, Obj.cell (Val.intV 7))] 2 (Val.ptrV Ty.intT 1)
    (by
      intro a ha
      by_cases h0 : (0 : Nat) = a
      · omega
      · simp [alookup, h0] at ha)
    (by
      intro a o ha ho
      have ha0 : a = 0 := by omega
      subst ha0
      simp [alookup] at ho
      subst ho
      exact ⟨trivial, rfl⟩)
    ⟨by omega, rfl, ⟨Val.intV 7, by simp [alookup]⟩⟩
    (fun n s => by simp [unwrapIface])
    (by
      simp [CloneFn, cloneReflect, unwrapIface, cloneValue, clonePointer, readCell,
            alookup, aset, zeroVal, writeCell])
  refine ⟨H.1, ?_, ?_⟩
  · refine H.2.1 [(0, Obj.cell (Val.intV 9)), (1, Obj.cell (Val.intV 7))] ?_ 2
    intro a ha
    have h0 : ¬((0 : Nat) = a) := by omega
    simp [alookup, h0]
  · refine H.2.2 [(0, Obj.cell (Val.intV 7)), (1, Obj.cell (Val.intV 9))] ?_ 2
    intro a ha
    have ha0 : a = 0 := by omega
    subst ha0
    simp [alookup]

/-- **C9 (amended).**  For well-typed sources — live channels allowed
anywhere — whose dynamic value does not implement the custom-clone
hook, `Clone` is idempotent up to structural equality: the result of
cloning the clone is structurally equal to the first clone over the
final heap.  Channels do not break idempotence: the walker zeroes every
channel it dispatches on to the nil channel, which re-clones to itself,
and channel struct fields are copied by reference identically on both
runs.  The hook carve-out is forced by the repository's `Counter`
example, whose non-idempotent hook increments on every application. -/
theorem C9_clone_idempotent_amended (fuel1 fuel2 : Nat) (h : List (Nat × Obj))
    (nx0 : Nat) (tyE : Nat → Ty) (src : Val)
    (h2 : List (Nat × Obj)) (nx2 : Nat) (r : Val)
    (h3 : List (Nat × Obj)) (nx3 : Nat) (r2 : Val)
    (hb : ∀ a, (alookup h a).isSome = true → a < nx0)
    (hgs : GoodSrcW nx0 tyE h)
    (hg : goodW nx0 tyE h (unwrapIface src))
    (hnc : ∀ n s, unwrapIface src ≠ Val.counterV n s)
    (hrun1 : CloneFn fuel1 h nx0 src = some (h2, nx2, r))
    (hrun2 : CloneFn fuel2 h2 nx2 r = some (h3, nx3, r2)) :
    structEq h3 r2 h3 r := by
  obtain ⟨_, ⟨tyE2, hb2, hgsW2, hgWr, hgsB2, hgBr, hncr, hur⟩, _, _, _, _⟩ :=
    CloneFn_spec hb hgs hg hnc hrun1
  obtain ⟨hse2, _, _, _, _, _⟩ := CloneFn_spec hb2 hgsW2 hgWr hncr hrun2
  have hs := hse2 nx0 hgBr hgsB2
  rw [hur] at hs
  exact fun n => (hs n).symm

theorem C9_clone_idempotent_amended_witness :
    structEq [(0, Obj.cell (Val.intV 7)), (1, Obj.cell (Val.intV 7)),
              (2, Obj.cell (Val.intV 7))]
      (Val.structV [(true, Ty.chanT, Val.chanV 5),
                    (true, Ty.ptrT Ty.intT, Val.ptrV Ty.intT 2)])
      [(0, Obj.cell (Val.intV 7)), (1, Obj.cell (Val.intV 7)),
       (2, Obj.cell (Val.intV 7))]
      (Val.structV [(true, Ty.chanT, Val.chanV 5),
                    (true, Ty.ptrT Ty.intT, Val.ptrV Ty.intT 1)]) :=
  C9_clone_idempotent_amended 10 10 [(0, Obj.cell (Val.intV 7))] 1
    (fun _ => Ty.intT)
    (Val.structV [(true, Ty.chanT, Val.chanV 5),
                  (true, Ty.ptrT Ty.intT, Val.ptrV Ty.intT 0)])
    [(0, Obj.cell (Val.intV 7)), (1, Obj.cell (Val.intV 7))] 2
    (Val.structV [(true, Ty.chanT, Val.chanV 5),
                  (true, Ty.ptrT Ty.intT, Val.ptrV Ty.intT 1)])
    [(0, Obj.cell (Val.intV 7)), (1, Obj.cell (Val.intV 7)),
     (2, Obj.cell (Val.intV 7))] 3
    (Val.structV [(true, Ty.chanT, Val.chanV 5),
                  (true, Ty.ptrT Ty.intT, Val.ptrV Ty.intT 2)])
    (by
      intro a ha
      by_cases h0 : (0 : Nat) = a
      · omega
      · simp [alookup, h0] at ha)
    (by
      intro a o ha ho
      have ha0 : a = 0 := by omega
      subst ha0
      simp [alookup] at ho
      subst ho
      exact ⟨trivial, rfl⟩)
    ⟨trivial, rfl, ⟨by omega, rfl, ⟨Val.intV 7, by simp [alookup]⟩⟩, rfl, trivial⟩
    (fun n s => by simp [unwrapIface])
    (by
      simp [CloneFn, cloneReflect, unwrapIface, cloneValue, cloneStruct, cloneFields,
            clonePointer, fieldActionOf, Ty.kind, readCell, alookup, aset, zeroVal,
            writeCell, fieldAssign, Val.typeOf, Ty.beq])
    (by
      simp [CloneFn, cloneReflect, unwrapIface, cloneValue, cloneStruct, cloneFields,
            clonePointer, fieldActionOf, Ty.kind, readCell, alookup, aset, zeroVal,
            writeCell, fieldAssign, Val.typeOf, Ty.beq])
